import Mathlib

/-!
# FluxGo rate limiters: a shallow embedding and its verified properties

The four limiters of `internal/algorithms`, the rule manager of
`internal/limiter` and the two request handlers of `internal/gateway` are
embedded as pure functions.

* A `time.Time` read from the clock and a `time.Duration` are both integers
  counting nanoseconds; `time.Now()` becomes the explicit argument `now`.
  The integers are unbounded: the saturation of `Time.Sub` at `±2^63` ns
  (about 292 years) is not reached by instants of one clock and is left out.
* A Go `map[string]V` is a function `Key → Option V`; a store `m[k] = v` is
  `setKey m k v`.
* `Allow` mutates the receiver and returns `(bool, time.Duration)`; here it
  returns the pair together with the receiver after the call.  A Go run-time
  abort (index out of range) is the value `none`.
* The `float64` arithmetic of the two bucket limiters is a parameter:
  `leakybucket.AllowF` and `tokenbucket.AllowF` run over any `Float64Ops`,
  applying the operations of the source one by one, in its order.
  `binary64` is IEEE 754 double precision, rounding to nearest with ties to
  even, with infinities and NaN; the sign of a zero is not kept and no two
  operations are fused.  `exactOps` is exact rational arithmetic, with
  `x / 0 = 0`; `leakybucket.Allow` and `tokenbucket.Allow` are the two
  limiters over it (`leakybucket_exact`, `tokenbucket_exact`).  They carry
  the properties that are stated in exact arithmetic; the runs quoted from
  them are given in binary64 as well (`bucket_rejections_binary64`).
-/

namespace FluxGo

/-- The key of a limiter map (a Go `string`). -/
abbrev Key := String

/-- An instant, in nanoseconds. -/
abbrev Time := Int

/-- A `time.Duration`, in nanoseconds. -/
abbrev Duration := Int

/-- The constant `time.Second`. -/
def Second : Duration := 1000000000

/-- `algorithms.Config`. -/
structure Config where
  WindowSize : Duration
  Limit : Int
deriving DecidableEq, Repr

/-- The store `m[k] = v` on a Go map. -/
def setKey {V : Type} (m : Key → Option V) (k : Key) (v : V) : Key → Option V :=
  fun k' => if k' = k then some v else m k'

/-- What one `Allow` call returns: the decision and the wait. -/
abbrev Verdict := Bool × Duration

/-- A sequence of `Allow` calls `(key, now)` run in order from the limiter `s`:
the verdicts in call order and the limiter after the last call, or `none`
when one of the calls aborts. -/
def runCalls {S : Type} (step : S → Time → Key → Option (Verdict × S)) :
    S → List (Key × Time) → Option (List Verdict × S)
  | s, [] => some ([], s)
  | s, (k, t) :: cs =>
    match step s t k with
    | none => none
    | some (r, s') =>
      match runCalls step s' cs with
      | none => none
      | some (rs, s'') => some (r :: rs, s'')

/-- A sequence of calls run in order on a limiter whose `Allow` cannot abort. -/
def runAll {S : Type} (step : S → Time → Key → Verdict × S) :
    S → List (Key × Time) → List Verdict × S
  | s, [] => ([], s)
  | s, (k, t) :: cs =>
    let (r, s') := step s t k
    let (rs, s'') := runAll step s' cs
    (r :: rs, s'')

/-- The times of the calls for key `k` that were allowed, in call order. -/
def allowedTimes (k : Key) : List (Key × Time) → List Verdict → List Time
  | (k', t) :: cs, (ok, _) :: rs =>
    if k' = k ∧ ok = true then t :: allowedTimes k cs rs else allowedTimes k cs rs
  | _, _ => []

/-! ## Sliding log (`internal/algorithms/slidinglog/sliding_log.go`) -/

namespace slidinglog

/-- The struct `requestLog`. -/
structure requestLog where
  timestamp : Time
deriving DecidableEq, Repr

/-- The struct `SlidingLogLimiter` (without its mutex). -/
structure SlidingLogLimiter where
  logs : Key → Option (List requestLog)
  config : Config

/-- `NewLimiter`. -/
def NewLimiter (config : Config) : SlidingLogLimiter :=
  { logs := fun _ => none, config := config }

/-- The loop that keeps the entries with `log.timestamp.After(windowStart)`. -/
def validLogs (windowStart : Time) (logs : List requestLog) : List requestLog :=
  logs.filter (fun log => decide (log.timestamp > windowStart))

/-- `SlidingLogLimiter.Allow`, with `time.Now()` passed as `now`. -/
def Allow (l : SlidingLogLimiter) (now : Time) (key : Key) :
    Option (Verdict × SlidingLogLimiter) :=
  let windowStart := now + (-l.config.WindowSize)
  -- a missing key reads as the nil slice
  let logs := (l.logs key).getD []
  let valid := validLogs windowStart logs
  if (valid.length : Int) < l.config.Limit then
    some ((true, 0), { l with logs := setKey l.logs key (valid ++ [⟨now⟩]) })
  else
    -- `validLogs[0]` aborts on an empty slice
    match valid with
    | [] => none
    | first :: _ => some ((false, first.timestamp + l.config.WindowSize - now), l)

end slidinglog

/-! ## Fixed window (`internal/algorithms/slidingwindow/sliding_window.go`) -/

namespace slidingwindow

/-- The struct `windowCount`. -/
structure windowCount where
  count : Int
  timestamp : Time
deriving DecidableEq, Repr

/-- The struct `SlidingWindowLimiter` (without its mutex). -/
structure SlidingWindowLimiter where
  windows : Key → Option windowCount
  config : Config

/-- `NewLimiter`. -/
def NewLimiter (config : Config) : SlidingWindowLimiter :=
  { windows := fun _ => none, config := config }

/-- `SlidingWindowLimiter.Allow`, with `time.Now()` passed as `now`. -/
def Allow (l : SlidingWindowLimiter) (now : Time) (key : Key) :
    Verdict × SlidingWindowLimiter :=
  match l.windows key with
  | none =>
    ((true, 0), { l with windows := setKey l.windows key { count := 1, timestamp := now } })
  | some window =>
    if now - window.timestamp ≥ l.config.WindowSize then
      ((true, 0), { l with windows := setKey l.windows key { count := 1, timestamp := now } })
    else if window.count ≥ l.config.Limit then
      ((false, window.timestamp + l.config.WindowSize - now), l)
    else
      ((true, 0),
        { l with windows := setKey l.windows key { window with count := window.count + 1 } })

end slidingwindow

/-! ## Shared arithmetic of the bucket limiters, in exact rationals -/

/-- `time.Duration.Seconds` in exact arithmetic: whole seconds plus the
remaining nanoseconds over `1e9`. -/
def Seconds (d : Duration) : ℚ :=
  ((Int.tdiv d Second : Int) : ℚ) + ((Int.tmod d Second : Int) : ℚ) / 1000000000

/-- The conversion `time.Duration(x)` of a rational: the fraction is
discarded. -/
def toDuration (x : ℚ) : Duration :=
  Int.tdiv x.num (x.den : Int)

/-! ## Leaky bucket (`internal/algorithms/leakybucket/leaky_bucket.go`), in exact rationals

The limiter with every `float64` operation taken exactly; the limiter over an
arbitrary arithmetic is `leakybucket.AllowF` below. -/

namespace leakybucket

/-- The struct `bucket`, with `water` an exact rational. -/
structure bucket where
  water : ℚ
  lastLeakTime : Time
deriving DecidableEq, Repr

/-- The struct `LeakyBucketLimiter` (without its mutex). -/
structure LeakyBucketLimiter where
  buckets : Key → Option bucket
  config : Config
  rate : ℚ
  capacity : ℚ

/-- `NewLimiter` in exact arithmetic (`Limit / 0` is `0`). -/
def NewLimiter (config : Config) : LeakyBucketLimiter :=
  { buckets := fun _ => none
    config := config
    rate := (config.Limit : ℚ) / Seconds config.WindowSize
    capacity := (config.Limit : ℚ) }

/-- The package function `max`. -/
def max (a b : ℚ) : ℚ :=
  if a > b then a else b

/-- `LeakyBucketLimiter.Allow` in exact arithmetic, with `time.Now()` passed as
`now`. -/
def Allow (l : LeakyBucketLimiter) (now : Time) (key : Key) :
    Verdict × LeakyBucketLimiter :=
  match l.buckets key with
  | none =>
    ((true, 0), { l with buckets := setKey l.buckets key { water := 1, lastLeakTime := now } })
  | some b =>
    let elapsed := Seconds (now - b.lastLeakTime)
    let leakedWater := elapsed * l.rate
    let currentWater := leakybucket.max 0 (b.water - leakedWater)
    if currentWater + 1 > l.capacity then
      let waitTime := toDuration ((currentWater + 1 - l.capacity) / l.rate * (Second : ℚ))
      ((false, waitTime), l)
    else
      let b1 : bucket := { water := currentWater + 1, lastLeakTime := now }
      ((true, 0), { l with buckets := setKey l.buckets key b1 })

end leakybucket

/-! ## Token bucket (`internal/algorithms/tokenbucket/token_bucket.go`), in exact rationals

The limiter with every `float64` operation taken exactly; the limiter over an
arbitrary arithmetic is `tokenbucket.AllowF` below. -/

namespace tokenbucket

/-- The struct `bucket`, with `tokens` an exact rational. -/
structure bucket where
  tokens : ℚ
  lastRefill : Time
deriving DecidableEq, Repr

/-- The struct `TokenBucketLimiter` (without its mutex). -/
structure TokenBucketLimiter where
  buckets : Key → Option bucket
  config : Config
  rate : ℚ
  capacity : ℚ

/-- `NewLimiter` in exact arithmetic (`Limit / 0` is `0`). -/
def NewLimiter (config : Config) : TokenBucketLimiter :=
  { buckets := fun _ => none
    config := config
    rate := (config.Limit : ℚ) / Seconds config.WindowSize
    capacity := (config.Limit : ℚ) }

/-- The package function `min`. -/
def min (a b : ℚ) : ℚ :=
  if a < b then a else b

/-- `TokenBucketLimiter.Allow` in exact arithmetic, with `time.Now()` passed as
`now`.  The local copy `b` of the map entry is refilled first; it is stored
back only on the path that consumes a token. -/
def Allow (l : TokenBucketLimiter) (now : Time) (key : Key) :
    Verdict × TokenBucketLimiter :=
  match l.buckets key with
  | none =>
    let b0 : bucket := { tokens := l.capacity - 1, lastRefill := now }
    ((true, 0), { l with buckets := setKey l.buckets key b0 })
  | some b =>
    let elapsed := Seconds (now - b.lastRefill)
    let newTokens := elapsed * l.rate
    let b1 : bucket := { tokens := tokenbucket.min l.capacity (b.tokens + newTokens),
                         lastRefill := now }
    if b1.tokens < 1 then
      let waitTime := toDuration ((1 - b1.tokens) / l.rate * (Second : ℚ))
      ((false, waitTime), l)
    else
      ((true, 0), { l with buckets := setKey l.buckets key { b1 with tokens := b1.tokens - 1 } })

end tokenbucket

/-! ## Runs, windows and scenarios -/

/-- The scenario S3 of the sliding log: window one second, limit three. -/
def s3Config : Config := { WindowSize := 1000000000, Limit := 3 }

/-- The calls of scenario S3, at 0.0 s, 0.4 s, 0.8 s, 0.9 s and 1.01 s. -/
def s3Calls : List (Key × Time) :=
  [("k", 0), ("k", 400000000), ("k", 800000000), ("k", 900000000), ("k", 1010000000)]

/-- The scenario S2 of the fixed window: window one second, limit five. -/
def s2Config : Config := { WindowSize := 1000000000, Limit := 5 }

/-- The calls of the burst test (`TestRateLimiters`): `limit` calls for one key
at one instant, one more at that instant, and one a window later. -/
def burstCalls (cfg : Config) (k : Key) (t : Time) : List (Key × Time) :=
  List.replicate cfg.Limit.toNat (k, t) ++ [(k, t), (k, t + cfg.WindowSize)]

/-- The configuration of the white-box tests: window one second, limit ten. -/
def testConfig : Config := { WindowSize := 1000000000, Limit := 10 }

/-- The leaky bucket of key `k` after `c` allowed calls at the instant `t` on a
fresh limiter of configuration `cfg`. -/
def leakybucket.filled (cfg : Config) (k : Key) (t : Time) (c : Nat)
    (s : leakybucket.LeakyBucketLimiter) : Prop :=
  s.rate = (cfg.Limit : ℚ) / ((cfg.WindowSize : ℚ) / 1000000000) ∧
    s.capacity = (cfg.Limit : ℚ) ∧
    s.buckets k = if c = 0 then none else some ⟨(c : ℚ), t⟩

/-- The token bucket of key `k` after `c` allowed calls at the instant `t` on a
fresh limiter of configuration `cfg`. -/
def tokenbucket.filled (cfg : Config) (k : Key) (t : Time) (c : Nat)
    (s : tokenbucket.TokenBucketLimiter) : Prop :=
  s.rate = (cfg.Limit : ℚ) / ((cfg.WindowSize : ℚ) / 1000000000) ∧
    s.capacity = (cfg.Limit : ℚ) ∧
    s.buckets k = if c = 0 then none else some ⟨(cfg.Limit : ℚ) - (c : ℚ), t⟩

/-- Three calls for one key at the instant zero. -/
def s3Burst : List (Key × Time) := List.replicate 3 ("k", 0)

/-- The leaky-bucket limiter of scenario S3 after the three calls of `s3Burst`. -/
def leakybucket.s3Full : leakybucket.LeakyBucketLimiter :=
  (runAll leakybucket.Allow (leakybucket.NewLimiter s3Config) s3Burst).2

/-- The token-bucket limiter of scenario S3 after the three calls of `s3Burst`. -/
def tokenbucket.s3Empty : tokenbucket.TokenBucketLimiter :=
  (runAll tokenbucket.Allow (tokenbucket.NewLimiter s3Config) s3Burst).2

/-- The stored timestamps of a key, in stored order. -/
def slidinglog.stamps (l : slidinglog.SlidingLogLimiter) (k : Key) : List Time :=
  ((l.logs k).getD []).map slidinglog.requestLog.timestamp

/-- Membership of an instant in the window `(t - w, t]`. -/
def inWindow (w : Duration) (t : Time) (a : Time) : Bool :=
  decide (t - w < a) && decide (a ≤ t)

/-- The first three calls of scenario S3. -/
def s3Reach : List (Key × Time) := [("k", 0), ("k", 400000000), ("k", 800000000)]

/-- The sliding log of scenario S3 after the three calls of `s3Reach`: the
key `"k"` holds the timestamps 0 s, 0.4 s and 0.8 s. -/
def s3Rejecting : slidinglog.SlidingLogLimiter :=
  { logs := setKey (setKey (setKey (slidinglog.NewLimiter s3Config).logs "k" [⟨0⟩])
      "k" [⟨0⟩, ⟨400000000⟩]) "k" [⟨0⟩, ⟨400000000⟩, ⟨800000000⟩],
    config := s3Config }

/-! ## `Close` of the four limiters -/

/-- `SlidingLogLimiter.Close`: the map is replaced by an empty one. -/
def slidinglog.Close (l : slidinglog.SlidingLogLimiter) : slidinglog.SlidingLogLimiter :=
  { l with logs := fun _ => none }

/-- `SlidingWindowLimiter.Close`. -/
def slidingwindow.Close (l : slidingwindow.SlidingWindowLimiter) :
    slidingwindow.SlidingWindowLimiter :=
  { l with windows := fun _ => none }

/-- `LeakyBucketLimiter.Close`. -/
def leakybucket.Close (l : leakybucket.LeakyBucketLimiter) : leakybucket.LeakyBucketLimiter :=
  { l with buckets := fun _ => none }

/-- `TokenBucketLimiter.Close`. -/
def tokenbucket.Close (l : tokenbucket.TokenBucketLimiter) : tokenbucket.TokenBucketLimiter :=
  { l with buckets := fun _ => none }

/-! ## The rule manager (`internal/limiter/limiter.go`) -/

/-- The interface `algorithms.RateLimiter`, as the sum of its four
implementations. -/
inductive RateLimiter where
  | slidingLog (l : slidinglog.SlidingLogLimiter)
  | slidingWindow (l : slidingwindow.SlidingWindowLimiter)
  | leakyBucket (l : leakybucket.LeakyBucketLimiter)
  | tokenBucket (l : tokenbucket.TokenBucketLimiter)

/-- The method `Allow` of the interface: the limiter after the call replaces
the one the pointer referred to.  Only the sliding log can abort. -/
def RateLimiter.Allow : RateLimiter → Time → Key → Option (Verdict × RateLimiter)
  | .slidingLog l, now, key =>
    match slidinglog.Allow l now key with
    | none => none
    | some (v, l') => some (v, .slidingLog l')
  | .slidingWindow l, now, key =>
    some ((slidingwindow.Allow l now key).1, .slidingWindow (slidingwindow.Allow l now key).2)
  | .leakyBucket l, now, key =>
    some ((leakybucket.Allow l now key).1, .leakyBucket (leakybucket.Allow l now key).2)
  | .tokenBucket l, now, key =>
    some ((tokenbucket.Allow l now key).1, .tokenBucket (tokenbucket.Allow l now key).2)

/-- The method `Close` of the interface. -/
def RateLimiter.Close : RateLimiter → RateLimiter
  | .slidingLog l => .slidingLog (slidinglog.Close l)
  | .slidingWindow l => .slidingWindow (slidingwindow.Close l)
  | .leakyBucket l => .leakyBucket (leakybucket.Close l)
  | .tokenBucket l => .tokenBucket (tokenbucket.Close l)

namespace limiter

/-- The string type `Algorithm`. -/
abbrev Algorithm := String

/-- The constant `SlidingLog`. -/
def SlidingLog : Algorithm := "sliding_log"

/-- The constant `SlidingWindow`. -/
def SlidingWindow : Algorithm := "sliding_window"

/-- The constant `LeakyBucket`. -/
def LeakyBucket : Algorithm := "leaky_bucket"

/-- The constant `TokenBucket`. -/
def TokenBucket : Algorithm := "token_bucket"

/-- The struct `Rule`. -/
structure Rule where
  Algorithm : Algorithm
  Config : FluxGo.Config
deriving DecidableEq, Repr

/-- The struct `RuleManager` (without its mutex): the rules and the limiter
instances, both keyed by path. -/
structure RuleManager where
  rules : Key → Option Rule
  limiters : Key → Option RateLimiter

/-- `NewRuleManager`. -/
def NewRuleManager : RuleManager :=
  { rules := fun _ => none, limiters := fun _ => none }

/-- The builtin `delete(m, k)` on a Go map. -/
def delKey {V : Type} (m : Key → Option V) (k : Key) : Key → Option V :=
  fun k' => if k' = k then none else m k'

/-- `RuleManager.createLimiter`: the limiter of the rule, or the error of an
unsupported algorithm. -/
def createLimiter (rule : Rule) : Except String RateLimiter :=
  if rule.Algorithm = SlidingLog then
    .ok (.slidingLog (slidinglog.NewLimiter rule.Config))
  else if rule.Algorithm = SlidingWindow then
    .ok (.slidingWindow (slidingwindow.NewLimiter rule.Config))
  else if rule.Algorithm = LeakyBucket then
    .ok (.leakyBucket (leakybucket.NewLimiter rule.Config))
  else if rule.Algorithm = TokenBucket then
    .ok (.tokenBucket (tokenbucket.NewLimiter rule.Config))
  else
    .error ("unsupported algorithm: " ++ rule.Algorithm)

/-- `RuleManager.AddRule`: the returned error (`none` for `nil`) and the
manager after the call.  An old limiter of the path is closed and then
overwritten in the map, so the closed instance is no longer part of the
manager. -/
def AddRule (rm : RuleManager) (path : Key) (rule : Rule) : Option String × RuleManager :=
  match createLimiter rule with
  | .error err => (some err, rm)
  | .ok lim =>
    (none, { rules := setKey rm.rules path rule, limiters := setKey rm.limiters path lim })

/-- `RuleManager.RemoveRule`: a limiter of the path is closed and deleted,
and the rule of the path is deleted. -/
def RemoveRule (rm : RuleManager) (path : Key) : RuleManager :=
  match rm.limiters path with
  | some _ => { rules := delKey rm.rules path, limiters := delKey rm.limiters path }
  | none => { rm with rules := delKey rm.rules path }

/-- `RuleManager.Allow`, with the clock reading `now` of the limiter passed in.
A path without a limiter is allowed; otherwise the limiter of the path
decides, and its state after the call stays under the path. -/
def Allow (rm : RuleManager) (now : Time) (path : Key) (key : Key) :
    Option (Verdict × RuleManager) :=
  match rm.limiters path with
  | none => some ((true, 0), rm)
  | some lim =>
    match lim.Allow now key with
    | none => none
    | some (v, lim') => some (v, { rm with limiters := setKey rm.limiters path lim' })

/-- `RuleManager.GetRule`: the rule of the path, `none` for `exists = false`. -/
def GetRule (rm : RuleManager) (path : Key) : Option Rule :=
  rm.rules path

/-- The rules and the limiters are installed for the same paths. -/
def inSync (rm : RuleManager) : Prop :=
  ∀ path, rm.rules path = none ↔ rm.limiters path = none

/-- The manager after `AddRule("/p", sliding_window, window 1 s, limit 1)` on a
new manager and one allowed call for the key `"k"` at the instant zero: the
policy of `/p` is exhausted for `"k"`. -/
def usedUp : RuleManager :=
  { rules := setKey NewRuleManager.rules "/p" ⟨SlidingWindow, ⟨1000000000, 1⟩⟩,
    limiters := setKey (setKey NewRuleManager.limiters "/p"
        (.slidingWindow (slidingwindow.NewLimiter ⟨1000000000, 1⟩)))
      "/p" (.slidingWindow
        { windows := setKey (slidingwindow.NewLimiter ⟨1000000000, 1⟩).windows "k" ⟨1, 0⟩,
          config := ⟨1000000000, 1⟩ }) }

/-- The manager `usedUp` with the path `/administrator` in the place of `/p`:
the rule is installed for `/administrator` and exhausted for the key `"k"`. -/
def usedUpAdmin : RuleManager :=
  { rules := setKey NewRuleManager.rules "/administrator" ⟨SlidingWindow, ⟨1000000000, 1⟩⟩,
    limiters := setKey (setKey NewRuleManager.limiters "/administrator"
        (.slidingWindow (slidingwindow.NewLimiter ⟨1000000000, 1⟩)))
      "/administrator" (.slidingWindow
        { windows := setKey (slidingwindow.NewLimiter ⟨1000000000, 1⟩).windows "k" ⟨1, 0⟩,
          config := ⟨1000000000, 1⟩ }) }

end limiter

/-! ## The gateway (`internal/gateway/gateway.go`) -/

namespace gateway

/-- The test `len(path) >= len(p) && path[:len(p)] == p` of the two gateway
handlers, on the characters of the strings. -/
def startsWith (path p : String) : Bool :=
  decide (p.length ≤ path.length) && decide (path.data.take p.length = p.data)

/-- What `handleProxy` does with a request. -/
inductive ProxyResult where
  | notFound
  | forward (target : String)
deriving DecidableEq, Repr

/-- `Gateway.handleProxy`: the loop `for p, target := range g.targets` takes
the first entry whose key starts the path, and the handler answers 404 when
there is none.  The order in which a Go `range` visits a map is not
specified; `targets` lists the entries of the map in the order of the
visit. -/
def handleProxy (targets : List (String × String)) (path : String) : ProxyResult :=
  match targets.find? (fun e => startsWith path e.1) with
  | some e => .forward e.2
  | none => .notFound

/-- What the rate-limit middleware does with a request: pass it on with
`c.Next()`, or abort with status 429 and the header value in seconds. -/
inductive Outcome where
  | next
  | tooManyRequests (retryAfter : Int)
deriving DecidableEq, Repr

/-- The handler returned by `Gateway.rateLimitMiddleware`, on the request path
and the client address used as key. -/
def rateLimitMiddleware (rm : limiter.RuleManager) (now : Time) (path : String)
    (clientIP : Key) : Option (Outcome × limiter.RuleManager) :=
  if startsWith path "/admin" then
    some (.next, rm)
  else
    match limiter.Allow rm now path clientIP with
    | none => none
    | some ((allowed, waitTime), rm') =>
      if !allowed then
        some (.tooManyRequests (toDuration (Seconds waitTime)), rm')
      else
        some (.next, rm')

end gateway

/-! ## Relations and counts of the bucket limiters -/

/-- The state of one key in a leaky bucket and in a token bucket of capacity
`capacity` correspond: both absent, or `tokens = capacity - water` with equal
last-update times. -/
def bucketRelated (capacity : ℚ) : Option leakybucket.bucket → Option tokenbucket.bucket → Prop
  | none, none => True
  | some b, some c => c.tokens = capacity - b.water ∧ c.lastRefill = b.lastLeakTime
  | _, _ => False

/-- A leaky-bucket limiter and a token-bucket limiter correspond: equal rate
and capacity, and corresponding states for every key. -/
def limitersRelated (l : leakybucket.LeakyBucketLimiter) (tk : tokenbucket.TokenBucketLimiter) :
    Prop :=
  tk.rate = l.rate ∧ tk.capacity = l.capacity ∧
    ∀ k, bucketRelated l.capacity (l.buckets k) (tk.buckets k)

/-- The stored last-leak time of a key, if the key has state. -/
def leakybucket.lastOf (l : leakybucket.LeakyBucketLimiter) (k : Key) : Option Time :=
  (l.buckets k).map leakybucket.bucket.lastLeakTime

/-- The stored last-refill time of a key, if the key has state. -/
def tokenbucket.lastOf (l : tokenbucket.TokenBucketLimiter) (k : Key) : Option Time :=
  (l.buckets k).map tokenbucket.bucket.lastRefill

/-- Membership of an instant in the closed interval `[a, b]`. -/
def inClosed (a b : Time) (t : Time) : Bool :=
  decide (a ≤ t) && decide (t ≤ b)

/-! ## The arithmetic of `float64` -/

/-- The operations on `float64` that the bucket limiters use: the conversion
`float64(n)` of an integer, the four arithmetic operations, the comparison
`<` (with `a > b` read as `b < a`) and the conversion `time.Duration(x)` of a
float to an integer.  The limiters are embedded over any such arithmetic;
every operation is applied and rounded on its own, in the order of the
source. -/
structure Float64Ops (F : Type) where
  ofInt : Int → F
  add : F → F → F
  sub : F → F → F
  mul : F → F → F
  div : F → F → F
  lt : F → F → Bool
  toInt : F → Int

/-- `time.Duration.Seconds` over the arithmetic `ops`:
`float64(d / Second) + float64(d % Second) / 1e9`. -/
def SecondsF {F : Type} (ops : Float64Ops F) (d : Duration) : F :=
  ops.add (ops.ofInt (Int.tdiv d Second))
    (ops.div (ops.ofInt (Int.tmod d Second)) (ops.ofInt 1000000000))

/-- Exact rational arithmetic, with `time.Duration(x)` discarding the
fraction of `x`. -/
def exactOps : Float64Ops ℚ where
  ofInt := fun n => (n : ℚ)
  add := fun a b => a + b
  sub := fun a b => a - b
  mul := fun a b => a * b
  div := fun a b => a / b
  lt := fun a b => decide (a < b)
  toInt := toDuration

/-! ### IEEE 754 binary64 -/

/-- A `float64` value: a finite number `m * 2^e` with `|m| < 2^53` and
`-1074 ≤ e ≤ 971` (zero is `finite 0 0`; the sign of a zero is not kept), an
infinity, or NaN. -/
inductive F64 where
  | finite (m : Int) (e : Int)
  | inf (negative : Bool)
  | nan
deriving DecidableEq, Repr

/-- The number of binary digits of `n`, counted with `fuel` steps. -/
def bitLengthAux : Nat → Nat → Nat
  | 0, _ => 0
  | fuel + 1, n => if n = 0 then 0 else bitLengthAux fuel (n / 2) + 1

/-- The number of binary digits of `n`. -/
def bitLength (n : Nat) : Nat :=
  bitLengthAux (n + 1) n

namespace F64

/-- The float nearest to `± n * 2^E`, ties to the even mantissa: 53 digits of
mantissa, fewer below the exponent `-1074` (subnormal numbers), an infinity
above the exponent `971`. -/
def round (negative : Bool) (n : Nat) (E : Int) : F64 :=
  if n = 0 then finite 0 0
  else
    let e : Int := Max.max (E + (bitLength n : Int) - 53) (-1074)
    if e ≤ E then
      if e > 971 then inf negative
      else
        let m : Int := (n * 2 ^ (E - e).toNat : Nat)
        finite (if negative then -m else m) e
    else
      let shift : Nat := (e - E).toNat
      let q : Nat := n / 2 ^ shift
      let r : Nat := n % 2 ^ shift
      let half : Nat := 2 ^ (shift - 1)
      let q1 : Nat := if half < r ∨ (r = half ∧ q % 2 = 1) then q + 1 else q
      let m1 : Nat := if q1 = 2 ^ 53 then 2 ^ 52 else q1
      let e1 : Int := if q1 = 2 ^ 53 then e + 1 else e
      if m1 = 0 then finite 0 0
      else if e1 > 971 then inf negative
      else finite (if negative then -(m1 : Int) else (m1 : Int)) e1

/-- The conversion `float64(n)` of an integer. -/
def ofInt (n : Int) : F64 :=
  round (decide (n < 0)) n.natAbs 0

/-- The negation of a float. -/
def neg : F64 → F64
  | finite m e => finite (-m) e
  | inf s => inf (!s)
  | nan => nan

/-- The sum of two floats. -/
def add : F64 → F64 → F64
  | finite a ea, finite b eb =>
    let E : Int := Min.min ea eb
    let M : Int := a * 2 ^ (ea - E).toNat + b * 2 ^ (eb - E).toNat
    round (decide (M < 0)) M.natAbs E
  | finite _ _, inf s => inf s
  | inf s, finite _ _ => inf s
  | inf s, inf s' => if s = s' then inf s else nan
  | _, _ => nan

/-- The difference of two floats. -/
def sub (x y : F64) : F64 :=
  add x (neg y)

/-- The product of two floats. -/
def mul : F64 → F64 → F64
  | finite a ea, finite b eb =>
    round (decide (a * b < 0)) (a * b).natAbs (ea + eb)
  | finite a _, inf s => if a = 0 then nan else inf (decide (a < 0) != s)
  | inf s, finite b _ => if b = 0 then nan else inf (s != decide (b < 0))
  | inf s, inf s' => inf (s != s')
  | _, _ => nan

/-- The quotient of two floats.  The quotient of the mantissas is taken with
at least 64 digits and one more digit that records a remainder, which is
enough to round to nearest; a zero divisor counts as `+0`. -/
def div : F64 → F64 → F64
  | finite a ea, finite b eb =>
    if b = 0 then
      if a = 0 then nan else inf (decide (a < 0))
    else if a = 0 then finite 0 0
    else
      let k : Int := 64 + (bitLength b.natAbs : Int) - (bitLength a.natAbs : Int)
      let num : Nat := a.natAbs * 2 ^ k.toNat
      let den : Nat := b.natAbs * 2 ^ (-k).toNat
      let q : Nat := num / den
      let sticky : Nat := if num % den = 0 then 0 else 1
      round (decide (a < 0) != decide (b < 0)) (2 * q + sticky) (ea - eb - k - 1)
  | finite _ _, inf _ => finite 0 0
  | inf s, finite b _ => inf (s != decide (b < 0))
  | _, _ => nan

/-- The comparison `x < y`; it is false when an operand is NaN. -/
def lt : F64 → F64 → Bool
  | finite a ea, finite b eb =>
    let E : Int := Min.min ea eb
    decide (a * 2 ^ (ea - E).toNat < b * 2 ^ (eb - E).toNat)
  | finite _ _, inf s => !s
  | inf s, finite _ _ => s
  | inf s, inf s' => s && !s'
  | _, _ => false

/-- The conversion `time.Duration(x)`: the fraction is discarded.  For a value
outside the range of `int64`, an infinity or NaN the Go specification leaves
the result to the implementation; the value here is the one of amd64. -/
def toInt : F64 → Int
  | finite m e =>
    let v : Int := if 0 ≤ e then m * 2 ^ e.toNat else Int.tdiv m (2 ^ (-e).toNat)
    if -9223372036854775808 ≤ v ∧ v ≤ 9223372036854775807 then v
    else -9223372036854775808
  | _ => -9223372036854775808

end F64

/-- The arithmetic of IEEE 754 binary64 with rounding to nearest, ties to
even. -/
def binary64 : Float64Ops F64 where
  ofInt := F64.ofInt
  add := F64.add
  sub := F64.sub
  mul := F64.mul
  div := F64.div
  lt := F64.lt
  toInt := F64.toInt

/-! ## The bucket limiters over `float64` arithmetic -/

namespace leakybucket

/-- The struct `bucket`, with `water` a float of the arithmetic. -/
structure bucketF (F : Type) where
  water : F
  lastLeakTime : Time
deriving DecidableEq, Repr

/-- The struct `LeakyBucketLimiter` (without its mutex), with `rate` and
`capacity` floats of the arithmetic. -/
structure LimiterF (F : Type) where
  buckets : Key → Option (bucketF F)
  config : Config
  rate : F
  capacity : F

/-- `NewLimiter`: `rate` is `float64(config.Limit) / config.WindowSize.Seconds()`
and `capacity` is `float64(config.Limit)`. -/
def NewLimiterF {F : Type} (ops : Float64Ops F) (config : Config) : LimiterF F :=
  { buckets := fun _ => none
    config := config
    rate := ops.div (ops.ofInt config.Limit) (SecondsF ops config.WindowSize)
    capacity := ops.ofInt config.Limit }

/-- The package function `max`: `a` when `a > b`, else `b`. -/
def maxF {F : Type} (ops : Float64Ops F) (a b : F) : F :=
  if ops.lt b a then a else b

/-- `LeakyBucketLimiter.Allow` over the arithmetic `ops`, with `time.Now()`
passed as `now`. -/
def AllowF {F : Type} (ops : Float64Ops F) (l : LimiterF F) (now : Time) (key : Key) :
    Verdict × LimiterF F :=
  match l.buckets key with
  | none =>
    let b0 : bucketF F := { water := ops.ofInt 1, lastLeakTime := now }
    ((true, 0), { l with buckets := setKey l.buckets key b0 })
  | some b =>
    let elapsed := SecondsF ops (now - b.lastLeakTime)
    let leakedWater := ops.mul elapsed l.rate
    let currentWater := maxF ops (ops.ofInt 0) (ops.sub b.water leakedWater)
    if ops.lt l.capacity (ops.add currentWater (ops.ofInt 1)) then
      let waitTime := ops.toInt
        (ops.mul (ops.div (ops.sub (ops.add currentWater (ops.ofInt 1)) l.capacity) l.rate)
          (ops.ofInt Second))
      ((false, waitTime), l)
    else
      let b1 : bucketF F := { water := ops.add currentWater (ops.ofInt 1), lastLeakTime := now }
      ((true, 0), { l with buckets := setKey l.buckets key b1 })

/-- A limiter in exact arithmetic, read as a limiter over `exactOps`. -/
def toF (l : LeakyBucketLimiter) : LimiterF ℚ :=
  { buckets := fun k => (l.buckets k).map (fun b => ⟨b.water, b.lastLeakTime⟩)
    config := l.config
    rate := l.rate
    capacity := l.capacity }

end leakybucket

namespace tokenbucket

/-- The struct `bucket`, with `tokens` a float of the arithmetic. -/
structure bucketF (F : Type) where
  tokens : F
  lastRefill : Time
deriving DecidableEq, Repr

/-- The struct `TokenBucketLimiter` (without its mutex), with `rate` and
`capacity` floats of the arithmetic. -/
structure LimiterF (F : Type) where
  buckets : Key → Option (bucketF F)
  config : Config
  rate : F
  capacity : F

/-- `NewLimiter`: `rate` is `float64(config.Limit) / config.WindowSize.Seconds()`
and `capacity` is `float64(config.Limit)`. -/
def NewLimiterF {F : Type} (ops : Float64Ops F) (config : Config) : LimiterF F :=
  { buckets := fun _ => none
    config := config
    rate := ops.div (ops.ofInt config.Limit) (SecondsF ops config.WindowSize)
    capacity := ops.ofInt config.Limit }

/-- The package function `min`: `a` when `a < b`, else `b`. -/
def minF {F : Type} (ops : Float64Ops F) (a b : F) : F :=
  if ops.lt a b then a else b

/-- `TokenBucketLimiter.Allow` over the arithmetic `ops`, with `time.Now()`
passed as `now`.  The local copy `b` of the map entry is refilled first; it is
stored back only on the path that consumes a token. -/
def AllowF {F : Type} (ops : Float64Ops F) (l : LimiterF F) (now : Time) (key : Key) :
    Verdict × LimiterF F :=
  match l.buckets key with
  | none =>
    let b0 : bucketF F := { tokens := ops.sub l.capacity (ops.ofInt 1), lastRefill := now }
    ((true, 0), { l with buckets := setKey l.buckets key b0 })
  | some b =>
    let elapsed := SecondsF ops (now - b.lastRefill)
    let newTokens := ops.mul elapsed l.rate
    let b1 : bucketF F := { tokens := minF ops l.capacity (ops.add b.tokens newTokens),
                            lastRefill := now }
    if ops.lt b1.tokens (ops.ofInt 1) then
      let waitTime := ops.toInt
        (ops.mul (ops.div (ops.sub (ops.ofInt 1) b1.tokens) l.rate) (ops.ofInt Second))
      ((false, waitTime), l)
    else
      let b2 : bucketF F := { b1 with tokens := ops.sub b1.tokens (ops.ofInt 1) }
      ((true, 0), { l with buckets := setKey l.buckets key b2 })

/-- A limiter in exact arithmetic, read as a limiter over `exactOps`. -/
def toF (l : TokenBucketLimiter) : LimiterF ℚ :=
  { buckets := fun k => (l.buckets k).map (fun b => ⟨b.tokens, b.lastRefill⟩)
    config := l.config
    rate := l.rate
    capacity := l.capacity }

end tokenbucket

/-- The configuration of limit 1 and window 1 s. -/
def oneConfig : Config := { WindowSize := 1000000000, Limit := 1 }

/-- The configuration of limit 1 and window 49 s. -/
def w49Config : Config := { WindowSize := 49000000000, Limit := 1 }

/-- The binary64 leaky-bucket limiter of `oneConfig` after one call for `"k"`
at the instant zero. -/
def leakybucket.oneUsed : leakybucket.LimiterF F64 :=
  (runAll (leakybucket.AllowF binary64) (leakybucket.NewLimiterF binary64 oneConfig)
    [("k", 0)]).2

/-- The binary64 token-bucket limiter of `oneConfig` after one call for `"k"`
at the instant zero. -/
def tokenbucket.oneUsed : tokenbucket.LimiterF F64 :=
  (runAll (tokenbucket.AllowF binary64) (tokenbucket.NewLimiterF binary64 oneConfig)
    [("k", 0)]).2

/-! # Theorems -/

/-! ## Sliding log: the contract of one call -/

/-- C1: one sliding-log `Allow` call with `limit ≥ 1`.  With `R` the stored
timestamps of the key strictly after `now - window_size`, in stored order: if
`|R| < limit` the call returns `(true, 0)` and stores `R` followed by `now`;
otherwise `R` has a first element and the call returns
`(false, R[0] + window_size - now)`.  Scenario S3 (window 1 s, limit 3, calls
at 0.0, 0.4, 0.8, 0.9, 1.01 s) gives three admissions, a rejection with 0.1 s,
and an admission. -/
theorem slidinglog_allow_contract :
    (∀ (l : slidinglog.SlidingLogLimiter) (now : Time) (key : Key),
      1 ≤ l.config.Limit →
      let R := ((l.logs key).getD []).filter
        (fun r => decide (now - l.config.WindowSize < r.timestamp))
      ((R.length : Int) < l.config.Limit →
        slidinglog.Allow l now key =
          some ((true, 0), { l with logs := setKey l.logs key (R ++ [⟨now⟩]) })) ∧
      (¬ (R.length : Int) < l.config.Limit →
        ∃ first, R.head? = some first ∧
          slidinglog.Allow l now key =
            some ((false, first.timestamp + l.config.WindowSize - now), l))) ∧
    (runCalls slidinglog.Allow (slidinglog.NewLimiter s3Config) s3Calls).map Prod.fst =
      some [(true, 0), (true, 0), (true, 0), (false, 100000000), (true, 0)] := by
  refine ⟨?_, by decide⟩
  intro l now key hL
  have hR : slidinglog.validLogs (now + -l.config.WindowSize) ((l.logs key).getD []) =
      ((l.logs key).getD []).filter
        (fun r => decide (now - l.config.WindowSize < r.timestamp)) := by
    unfold slidinglog.validLogs
    congr 1
  refine ⟨?_, ?_⟩
  · intro h
    simp only [slidinglog.Allow, hR, if_pos h]
  · intro h
    cases hv : ((l.logs key).getD []).filter
        (fun r => decide (now - l.config.WindowSize < r.timestamp)) with
    | nil =>
      rw [hv] at h
      simp only [List.length_nil, Nat.cast_zero] at h
      omega
    | cons first rest =>
      refine ⟨first, rfl, ?_⟩
      rw [hv] at h
      simp only [slidinglog.Allow, hR, hv, if_neg h]

/-- C1 at a concrete input: a first call on a fresh limiter of limit three. -/
theorem slidinglog_allow_contract_witness :
    slidinglog.Allow (slidinglog.NewLimiter s3Config) 0 "k" =
      some ((true, 0),
        { slidinglog.NewLimiter s3Config with
          logs := setKey (slidinglog.NewLimiter s3Config).logs "k" [⟨0⟩] }) :=
  (slidinglog_allow_contract.1 (slidinglog.NewLimiter s3Config) 0 "k" (by decide)).1
    (by decide)

theorem setKey_same {V : Type} (m : Key → Option V) (k : Key) (v : V) :
    setKey m k v k = some v := by
  simp [setKey]

theorem setKey_other {V : Type} (m : Key → Option V) (k k' : Key) (v : V) (h : k' ≠ k) :
    setKey m k v k' = m k' := by
  simp [setKey, h]

theorem slidinglog_map_validLogs (w : Time) (logs : List slidinglog.requestLog) :
    (slidinglog.validLogs w logs).map slidinglog.requestLog.timestamp =
      (logs.map slidinglog.requestLog.timestamp).filter (fun a => decide (w < a)) := by
  induction logs with
  | nil => rfl
  | cons x xs ih =>
    by_cases hx : w < x.timestamp
    · simp [slidinglog.validLogs, List.filter_cons, hx] at ih ⊢
      exact ih
    · simp [slidinglog.validLogs, List.filter_cons, hx] at ih ⊢
      exact ih

theorem filter_after_after (w w' : Time) (h : w ≤ w') (xs : List Time) :
    (xs.filter (fun a => decide (w < a))).filter (fun a => decide (w' < a)) =
      xs.filter (fun a => decide (w' < a)) := by
  induction xs with
  | nil => rfl
  | cons x xs ih =>
    by_cases h1 : w' < x
    · have h2 : w < x := lt_of_le_of_lt h h1
      simp [List.filter_cons, h1, h2, ih]
    · by_cases h2 : w < x
      · simp [List.filter_cons, h1, h2, ih]
      · simp [List.filter_cons, h1, h2, ih]

theorem length_filter_after_mono (w w' : Time) (h : w ≤ w') (xs : List Time) :
    (xs.filter (fun a => decide (w' < a))).length ≤
      (xs.filter (fun a => decide (w < a))).length := by
  rw [← filter_after_after w w' h xs]
  exact List.length_filter_le _ _

theorem filter_inWindow_of_le (w : Duration) (t : Time) (xs : List Time)
    (h : ∀ a ∈ xs, a ≤ t) :
    xs.filter (inWindow w t) = xs.filter (fun a => decide (t - w < a)) := by
  apply List.filter_congr
  intro a ha
  simp [inWindow, h a ha]

/-- The two outcomes of a sliding-log call when the limit is positive. -/
theorem slidinglog_allow_cases (l : slidinglog.SlidingLogLimiter) (now : Time) (key : Key)
    (hL : 1 ≤ l.config.Limit) :
    ((((slidinglog.stamps l key).filter
          (fun a => decide (now - l.config.WindowSize < a))).length : Int) < l.config.Limit ∧
      ∃ l', slidinglog.Allow l now key = some ((true, 0), l') ∧ l'.config = l.config ∧
        (∀ k, k ≠ key → l'.logs k = l.logs k) ∧
        slidinglog.stamps l' key =
          (slidinglog.stamps l key).filter
            (fun a => decide (now - l.config.WindowSize < a)) ++ [now]) ∨
    (¬ (((slidinglog.stamps l key).filter
          (fun a => decide (now - l.config.WindowSize < a))).length : Int) < l.config.Limit ∧
      ∃ d, slidinglog.Allow l now key = some ((false, d), l)) := by
  have hw : now + -l.config.WindowSize = now - l.config.WindowSize := by ring
  have hlen : (slidinglog.validLogs (now + -l.config.WindowSize) ((l.logs key).getD [])).length =
      ((slidinglog.stamps l key).filter
          (fun a => decide (now - l.config.WindowSize < a))).length := by
    rw [← hw, slidinglog.stamps, ← slidinglog_map_validLogs, List.length_map]
  by_cases h : ((slidinglog.validLogs (now + -l.config.WindowSize)
      ((l.logs key).getD [])).length : Int) < l.config.Limit
  · left
    refine ⟨by rw [← hlen]; exact h,
      ⟨setKey l.logs key
          (slidinglog.validLogs (now + -l.config.WindowSize) ((l.logs key).getD []) ++ [⟨now⟩]),
        l.config⟩,
      by simp only [slidinglog.Allow, if_pos h], rfl, ?_, ?_⟩
    · intro k hk
      exact setKey_other _ _ _ _ hk
    · simp only [slidinglog.stamps, setKey_same, Option.getD_some, List.map_append,
        List.map_cons, List.map_nil, slidinglog_map_validLogs, hw]
  · right
    refine ⟨by rw [← hlen]; exact h, ?_⟩
    cases hv : slidinglog.validLogs (now + -l.config.WindowSize) ((l.logs key).getD []) with
    | nil =>
      rw [hv] at h
      simp only [List.length_nil, Nat.cast_zero] at h
      omega
    | cons first rest =>
      rw [hv] at h
      exact ⟨first.timestamp + l.config.WindowSize - now,
        by simp only [slidinglog.Allow, hv, if_neg h]⟩

theorem runCalls_cons {S : Type} (step : S → Time → Key → Option (Verdict × S))
    (s s' s'' : S) (k : Key) (t : Time) (cs : List (Key × Time)) (r : Verdict)
    (rs : List Verdict) (h1 : step s t k = some (r, s'))
    (h2 : runCalls step s' cs = some (rs, s'')) :
    runCalls step s ((k, t) :: cs) = some (r :: rs, s'') := by
  simp only [runCalls, h1, h2]

/-- The window count of the sliding log survives any run: the invariant is
stated against the allowed instants `A` of the calls already made and a lower
bound `lo` on the instants still to come. -/
theorem slidinglog_run_bound (cfg : Config) (hL : 1 ≤ cfg.Limit) (k : Key) :
    ∀ (calls : List (Key × Time)) (l : slidinglog.SlidingLogLimiter) (A : List Time)
      (lo : Time),
      l.config = cfg →
      (∀ c ∈ calls, lo ≤ c.2) →
      (calls.map Prod.snd).Pairwise (· ≤ ·) →
      (∀ x, lo ≤ x →
        (slidinglog.stamps l k).filter (fun a => decide (x - cfg.WindowSize < a)) =
          A.filter (fun a => decide (x - cfg.WindowSize < a))) →
      (∀ a ∈ A, a ≤ lo) →
      (∀ t, ((A.filter (inWindow cfg.WindowSize t)).length : Int) ≤ cfg.Limit) →
      ∃ out, runCalls slidinglog.Allow l calls = some out ∧
        ∀ t, (((A ++ allowedTimes k calls out.1).filter
          (inWindow cfg.WindowSize t)).length : Int) ≤ cfg.Limit := by
  intro calls
  induction calls with
  | nil =>
    intro l A lo _ _ _ _ _ hcount
    exact ⟨([], l), rfl, by simpa [allowedTimes] using hcount⟩
  | cons c cs ih =>
    obtain ⟨k', now⟩ := c
    intro l A lo hcfg hlo hsorted hlog hA hcount
    have hnow : lo ≤ now := hlo (k', now) (List.mem_cons_self _ _)
    rw [List.map_cons, List.pairwise_cons] at hsorted
    have hcs : ∀ c ∈ cs, now ≤ c.2 :=
      fun c hc => hsorted.1 c.2 (List.mem_map_of_mem Prod.snd hc)
    have hsorted' : (cs.map Prod.snd).Pairwise (· ≤ ·) := hsorted.2
    have hA' : ∀ a ∈ A, a ≤ now := fun a ha => le_trans (hA a ha) hnow
    have hlog' : ∀ x, now ≤ x →
        (slidinglog.stamps l k).filter (fun a => decide (x - cfg.WindowSize < a)) =
          A.filter (fun a => decide (x - cfg.WindowSize < a)) :=
      fun x hx => hlog x (le_trans hnow hx)
    rcases slidinglog_allow_cases l now k' (by rw [hcfg]; exact hL) with
      ⟨hlt, l', hallow, hcfg', hother, hstamps⟩ | ⟨_, d, hallow⟩
    · rw [hcfg] at hlt hstamps
      by_cases hk : k' = k
      · subst hk
        -- an allowed call for the key itself
        obtain ⟨out, hrun, hout⟩ := ih l' (A ++ [now]) now (hcfg'.trans hcfg) hcs hsorted'
          (by
            intro x hx
            have hxw : now - cfg.WindowSize ≤ x - cfg.WindowSize := by linarith
            rw [hstamps, List.filter_append, List.filter_append, filter_after_after _ _ hxw,
              hlog' x hx])
          (by
            intro a ha
            rcases List.mem_append.1 ha with h | h
            · exact hA' a h
            · simp at h; exact le_of_eq h)
          (by
            intro t
            rw [List.filter_append, List.length_append]
            by_cases hin : inWindow cfg.WindowSize t now = true
            · have htn : now ≤ t := by
                simp [inWindow] at hin
                exact hin.2
              have h1 : A.filter (inWindow cfg.WindowSize t) =
                  A.filter (fun a => decide (t - cfg.WindowSize < a)) :=
                filter_inWindow_of_le _ _ _ (fun a ha => le_trans (hA' a ha) htn)
              have h2 := length_filter_after_mono (now - cfg.WindowSize) (t - cfg.WindowSize)
                (by linarith) A
              rw [← hlog' now le_rfl] at h2
              rw [h1]
              simp only [List.filter_cons, hin, if_true, List.filter_nil, List.length_cons,
                List.length_nil]
              push_cast
              have h3 : ((A.filter (fun a => decide (t - cfg.WindowSize < a))).length : Int) ≤
                  (((slidinglog.stamps l k').filter
                    (fun a => decide (now - cfg.WindowSize < a))).length : Int) := by
                exact_mod_cast h2
              linarith
            · simp only [List.filter_cons, hin, List.filter_nil, List.length_nil]
              simpa using hcount t)
        refine ⟨((true, 0) :: out.1, out.2), runCalls_cons _ _ _ _ _ _ _ _ _ hallow hrun, ?_⟩
        intro t
        have := hout t
        simpa [allowedTimes, List.append_assoc] using this
      · -- an allowed call for another key
        obtain ⟨out, hrun, hout⟩ := ih l' A now (hcfg'.trans hcfg) hcs hsorted'
          (by
            intro x hx
            have : slidinglog.stamps l' k = slidinglog.stamps l k := by
              simp only [slidinglog.stamps, hother k (Ne.symm hk)]
            rw [this]
            exact hlog' x hx)
          hA' hcount
        refine ⟨((true, 0) :: out.1, out.2), runCalls_cons _ _ _ _ _ _ _ _ _ hallow hrun, ?_⟩
        intro t
        have := hout t
        simpa [allowedTimes, hk] using this
    · -- a rejected call
      obtain ⟨out, hrun, hout⟩ := ih l A now hcfg hcs hsorted' hlog' hA' hcount
      refine ⟨((false, d) :: out.1, out.2), runCalls_cons _ _ _ _ _ _ _ _ _ hallow hrun, ?_⟩
      intro t
      have := hout t
      simpa [allowedTimes] using this

/-- C2: sliding-log boundedness.  For a limit `L ≥ 1` and any run of `Allow`
calls at non-decreasing instants on a fresh limiter, no call aborts, and for
every key `k` and every instant `t` at most `L` of the calls allowed for `k`
have their instant in `(t - W, t]`. -/
theorem slidinglog_window_bound (cfg : Config) (hL : 1 ≤ cfg.Limit)
    (calls : List (Key × Time)) (hsorted : (calls.map Prod.snd).Pairwise (· ≤ ·)) :
    ∃ out, runCalls slidinglog.Allow (slidinglog.NewLimiter cfg) calls = some out ∧
      ∀ (k : Key) (t : Time),
        (((allowedTimes k calls out.1).filter (inWindow cfg.WindowSize t)).length : Int) ≤
          cfg.Limit := by
  have key : ∀ k : Key, ∃ out,
      runCalls slidinglog.Allow (slidinglog.NewLimiter cfg) calls = some out ∧
      ∀ t, ((([] ++ allowedTimes k calls out.1).filter
        (inWindow cfg.WindowSize t)).length : Int) ≤ cfg.Limit := by
    intro k
    cases calls with
    | nil =>
      refine ⟨([], slidinglog.NewLimiter cfg), rfl, ?_⟩
      intro t
      simp only [allowedTimes, List.append_nil, List.filter_nil, List.length_nil, Nat.cast_zero]
      linarith
    | cons c cs =>
      refine slidinglog_run_bound cfg hL k (c :: cs) (slidinglog.NewLimiter cfg) [] c.2 rfl ?_
        hsorted ?_ ?_ ?_
      · intro c' hc'
        rcases List.mem_cons.1 hc' with h | h
        · rw [h]
        · rw [List.map_cons, List.pairwise_cons] at hsorted
          exact hsorted.1 c'.2 (List.mem_map_of_mem Prod.snd h)
      · intro x _
        simp [slidinglog.stamps, slidinglog.NewLimiter]
      · intro a ha
        simp at ha
      · intro t
        simp only [List.filter_nil, List.length_nil, Nat.cast_zero]
        linarith
  obtain ⟨out, hrun, _⟩ := key ""
  refine ⟨out, hrun, ?_⟩
  intro k t
  obtain ⟨out', hrun', hout'⟩ := key k
  rw [hrun] at hrun'
  cases Option.some.inj hrun'
  simpa using hout' t

/-- C2 at a concrete input: the five calls of scenario S3. -/
theorem slidinglog_window_bound_witness :
    ∃ out, runCalls slidinglog.Allow (slidinglog.NewLimiter s3Config) s3Calls = some out ∧
      ∀ (k : Key) (t : Time),
        (((allowedTimes k s3Calls out.1).filter (inWindow s3Config.WindowSize t)).length : Int) ≤
          s3Config.Limit :=
  slidinglog_window_bound s3Config (by decide) s3Calls (by decide)

/-- C3: one fixed-window `Allow` call.  With no state for the key, or with
`now - window_start ≥ window_size`, the state becomes `(now, 1)` and the call
returns `(true, 0)`; else with `count ≥ limit` the call returns
`(false, window_start + window_size - now)` and the limiter is unchanged; else
the count grows by one, the window start stays, and the call returns
`(true, 0)`. -/
theorem slidingwindow_allow_contract (l : slidingwindow.SlidingWindowLimiter) (now : Time)
    (key : Key) :
    ((l.windows key = none ∨
        ∃ w, l.windows key = some w ∧ now - w.timestamp ≥ l.config.WindowSize) →
      slidingwindow.Allow l now key =
        ((true, 0), { l with windows := setKey l.windows key ⟨1, now⟩ })) ∧
    (∀ w, l.windows key = some w → ¬ now - w.timestamp ≥ l.config.WindowSize →
      w.count ≥ l.config.Limit →
      slidingwindow.Allow l now key =
        ((false, w.timestamp + l.config.WindowSize - now), l)) ∧
    (∀ w, l.windows key = some w → ¬ now - w.timestamp ≥ l.config.WindowSize →
      ¬ w.count ≥ l.config.Limit →
      slidingwindow.Allow l now key =
        ((true, 0), { l with windows := setKey l.windows key ⟨w.count + 1, w.timestamp⟩ })) := by
  refine ⟨?_, ?_, ?_⟩
  · rintro (h | ⟨w, h, hexp⟩)
    · simp only [slidingwindow.Allow, h]
    · simp only [slidingwindow.Allow, h, if_pos hexp]
  · intro w h hexp hfull
    simp only [slidingwindow.Allow, h, if_neg hexp, if_pos hfull]
  · intro w h hexp hfull
    simp only [slidingwindow.Allow, h, if_neg hexp, if_neg hfull]

/-- C3 at a concrete input: a first call on a fresh limiter. -/
theorem slidingwindow_allow_contract_witness :
    slidingwindow.Allow (slidingwindow.NewLimiter s3Config) 7 "k" =
      ((true, 0),
        { slidingwindow.NewLimiter s3Config with
          windows := setKey (slidingwindow.NewLimiter s3Config).windows "k" ⟨1, 7⟩ }) :=
  (slidingwindow_allow_contract (slidingwindow.NewLimiter s3Config) 7 "k").1 (Or.inl rfl)

/-- Inside an open window holding `c` admissions, the next calls for the key
are allowed while the count is below the limit and rejected afterwards. -/
theorem slidingwindow_run_open_window (cfg : Config) (k : Key) (t0 : Time) :
    ∀ (ts : List Time) (l : slidingwindow.SlidingWindowLimiter) (c : Int),
      l.config = cfg →
      l.windows k = some ⟨c, t0⟩ →
      (∀ t ∈ ts, t < t0 + cfg.WindowSize) →
      ((runAll slidingwindow.Allow l (ts.map (fun t => (k, t)))).1).map Prod.fst =
        List.replicate (min ts.length (cfg.Limit - c).toNat) true ++
          List.replicate (ts.length - min ts.length (cfg.Limit - c).toNat) false := by
  intro ts
  induction ts with
  | nil =>
    intro l c _ _ _
    simp [runAll]
  | cons t ts ih =>
    intro l c hcfg hw hts
    have ht : ¬ t - t0 ≥ cfg.WindowSize := by
      have := hts t (List.mem_cons_self _ _)
      intro h
      linarith
    have hts' : ∀ t ∈ ts, t < t0 + cfg.WindowSize :=
      fun t h => hts t (List.mem_cons_of_mem _ h)
    by_cases hfull : c ≥ cfg.Limit
    · have hstep : slidingwindow.Allow l t k = ((false, t0 + cfg.WindowSize - t), l) := by
        simp only [slidingwindow.Allow, hw, hcfg, if_neg ht, if_pos hfull]
      have hz : (cfg.Limit - c).toNat = 0 := by
        apply Int.toNat_eq_zero.2
        exact sub_nonpos.2 hfull
      have := ih l c hcfg hw hts'
      rw [hz] at this ⊢
      simp only [List.map_cons, runAll, hstep, this]
      simp [List.replicate_succ]
    · have hstep : slidingwindow.Allow l t k =
          ((true, 0), { l with windows := setKey l.windows k ⟨c + 1, t0⟩ }) := by
        simp only [slidingwindow.Allow, hw, hcfg, if_neg ht, if_neg hfull]
      have hs : (cfg.Limit - c).toNat = (cfg.Limit - (c + 1)).toNat + 1 := by
        have h1 : c < cfg.Limit := lt_of_not_ge hfull
        omega
      have := ih { l with windows := setKey l.windows k ⟨c + 1, t0⟩ } (c + 1) hcfg
        (setKey_same _ _ _) hts'
      rw [hs]
      simp only [List.map_cons, runAll, hstep, this, List.length_cons]
      rw [Nat.add_min_add_right, Nat.add_sub_add_right, List.replicate_succ, List.cons_append]

/-- C4: the fixed-window count inside one window.  For a limit `L ≥ 1`, the
calls for one key on a fresh limiter at instants that are all earlier than the
first instant plus the window: exactly the first `min(n, L)` of the `n` calls
are allowed and every later one is rejected. -/
theorem slidingwindow_count_in_window (cfg : Config) (hL : 1 ≤ cfg.Limit) (k : Key)
    (t0 : Time) (ts : List Time) (hts : ∀ t ∈ t0 :: ts, t < t0 + cfg.WindowSize) :
    ((runAll slidingwindow.Allow (slidingwindow.NewLimiter cfg)
        ((t0 :: ts).map (fun t => (k, t)))).1).map Prod.fst =
      List.replicate (min (t0 :: ts).length cfg.Limit.toNat) true ++
        List.replicate ((t0 :: ts).length - min (t0 :: ts).length cfg.Limit.toNat)
          false := by
  have hstep : slidingwindow.Allow (slidingwindow.NewLimiter cfg) t0 k =
      ((true, 0), { slidingwindow.NewLimiter cfg with
        windows := setKey (slidingwindow.NewLimiter cfg).windows k ⟨1, t0⟩ }) := by
    simp only [slidingwindow.Allow, slidingwindow.NewLimiter]
  have hrest := slidingwindow_run_open_window cfg k t0 ts
    { slidingwindow.NewLimiter cfg with
      windows := setKey (slidingwindow.NewLimiter cfg).windows k ⟨1, t0⟩ } 1 rfl
    (setKey_same _ _ _) (fun t h => hts t (List.mem_cons_of_mem _ h))
  have hs : cfg.Limit.toNat = (cfg.Limit - 1).toNat + 1 := by omega
  rw [hs]
  simp only [List.map_cons, runAll, hstep, hrest, List.length_cons]
  rw [Nat.add_min_add_right, Nat.add_sub_add_right, List.replicate_succ, List.cons_append]

/-- C4 at a concrete input: limit 5, window 1 s, ten calls at one instant give
five admissions followed by five rejections. -/
theorem slidingwindow_count_in_window_witness :
    ((runAll slidingwindow.Allow (slidingwindow.NewLimiter s2Config)
        ((0 :: List.replicate 9 0).map (fun t => ("k", t)))).1).map Prod.fst =
      [true, true, true, true, true, false, false, false, false, false] :=
  slidingwindow_count_in_window s2Config (by decide) "k" 0 (List.replicate 9 0) (by decide)

/-! ## The bucket limiters in exact arithmetic: one call -/

theorem Seconds_eq (d : Duration) : Seconds d = (d : ℚ) / 1000000000 := by
  have h := Int.tdiv_add_tmod d Second
  have hq : ((Second * Int.tdiv d Second + Int.tmod d Second : Int) : ℚ) = (d : ℚ) := by
    rw [h]
  unfold Seconds
  rw [← hq]
  simp only [Second]
  push_cast
  ring

theorem toDuration_eq (x : ℚ) : toDuration x = if 0 ≤ x then ⌊x⌋ else ⌈x⌉ := by
  unfold toDuration
  have hden : (0 : Int) ≤ (x.den : Int) := Int.natCast_nonneg _
  split_ifs with h
  · rw [Int.tdiv_eq_ediv (Rat.num_nonneg.2 h) hden, Rat.floor_def]
  · have hneg : 0 ≤ (-x).num := by
      rw [Rat.num_nonneg]
      linarith
    have hfl : ⌊-x⌋ = (-x).num / ((-x).den : Int) := Rat.floor_def
    rw [← Int.tdiv_eq_ediv hneg (Int.natCast_nonneg _)] at hfl
    rw [Rat.neg_num, Rat.neg_den, Int.neg_tdiv, Int.floor_neg] at hfl
    exact (neg_injective hfl).symm

theorem leakybucket_max_eq (a b : ℚ) : leakybucket.max a b = Max.max a b := by
  unfold leakybucket.max
  split_ifs with h
  · exact (max_eq_left (le_of_lt h)).symm
  · exact (max_eq_right (not_lt.1 h)).symm

theorem tokenbucket_min_eq (a b : ℚ) : tokenbucket.min a b = Min.min a b := by
  unfold tokenbucket.min
  split_ifs with h
  · exact (min_eq_left (le_of_lt h)).symm
  · exact (min_eq_right (not_lt.1 h)).symm



/-! ## Burst then recover -/

theorem runAll_cons {S : Type} (step : S → Time → Key → Verdict × S) (s : S) (k : Key)
    (t : Time) (cs : List (Key × Time)) :
    runAll step s ((k, t) :: cs) =
      ((step s t k).1 :: (runAll step (step s t k).2 cs).1,
        (runAll step (step s t k).2 cs).2) := rfl

theorem runAll_append {S : Type} (step : S → Time → Key → Verdict × S) :
    ∀ (xs ys : List (Key × Time)) (s : S),
      runAll step s (xs ++ ys) =
        ((runAll step s xs).1 ++ (runAll step (runAll step s xs).2 ys).1,
          (runAll step (runAll step s xs).2 ys).2) := by
  intro xs
  induction xs with
  | nil => intro ys s; rfl
  | cons c cs ih =>
    obtain ⟨k, t⟩ := c
    intro ys s
    rw [List.cons_append, runAll_cons, ih, runAll_cons]
    rfl

/-- A run of `m` calls at one instant, each allowed with zero wait, along an
invariant `P` indexed by the number of calls made so far. -/
theorem runAll_replicate_inv {S : Type} (step : S → Time → Key → Verdict × S)
    (P : Nat → S → Prop) (k : Key) (t : Time) (n : Nat)
    (hstep : ∀ c s, c < n → P c s → (step s t k).1 = (true, 0) ∧ P (c + 1) (step s t k).2) :
    ∀ (m c : Nat) (s : S), c + m ≤ n → P c s →
      (runAll step s (List.replicate m (k, t))).1 = List.replicate m (true, 0) ∧
        P (c + m) (runAll step s (List.replicate m (k, t))).2 := by
  intro m
  induction m with
  | zero =>
    intro c s _ hP
    exact ⟨rfl, hP⟩
  | succ m ih =>
    intro c s hc hP
    obtain ⟨h1, h2⟩ := hstep c s (by omega) hP
    obtain ⟨h3, h4⟩ := ih (c + 1) (step s t k).2 (by omega) h2
    rw [List.replicate_succ, runAll_cons, h1, h3]
    refine ⟨rfl, ?_⟩
    have : c + (m + 1) = c + 1 + m := by omega
    rw [this]
    exact h4

theorem runCalls_append {S : Type} (step : S → Time → Key → Option (Verdict × S)) :
    ∀ (xs ys : List (Key × Time)) (s s1 s2 : S) (r1 r2 : List Verdict),
      runCalls step s xs = some (r1, s1) → runCalls step s1 ys = some (r2, s2) →
      runCalls step s (xs ++ ys) = some (r1 ++ r2, s2) := by
  intro xs
  induction xs with
  | nil =>
    intro ys s s1 s2 r1 r2 h1 h2
    simp only [runCalls, Option.some.injEq, Prod.mk.injEq] at h1
    obtain ⟨rfl, rfl⟩ := h1
    simpa using h2
  | cons c cs ih =>
    obtain ⟨k, t⟩ := c
    intro ys s s1 s2 r1 r2 h1 h2
    cases hs : step s t k with
    | none => simp [runCalls, hs] at h1
    | some p =>
      obtain ⟨r, s'⟩ := p
      cases hrun : runCalls step s' cs with
      | none => simp [runCalls, hs, hrun] at h1
      | some q =>
        obtain ⟨rs, s''⟩ := q
        simp only [runCalls, hs, hrun, Option.some.injEq, Prod.mk.injEq] at h1
        obtain ⟨rfl, rfl⟩ := h1
        have := ih ys s' s'' s2 rs r2 hrun h2
        exact runCalls_cons step s s' s2 k t (cs ++ ys) r (rs ++ r2) hs this

theorem runCalls_replicate_inv {S : Type} (step : S → Time → Key → Option (Verdict × S))
    (P : Nat → S → Prop) (k : Key) (t : Time) (n : Nat)
    (hstep : ∀ c s, c < n → P c s → ∃ s', step s t k = some ((true, 0), s') ∧ P (c + 1) s') :
    ∀ (m c : Nat) (s : S), c + m ≤ n → P c s →
      ∃ s', runCalls step s (List.replicate m (k, t)) = some (List.replicate m (true, 0), s') ∧
        P (c + m) s' := by
  intro m
  induction m with
  | zero =>
    intro c s _ hP
    exact ⟨s, rfl, hP⟩
  | succ m ih =>
    intro c s hc hP
    obtain ⟨s1, h1, h2⟩ := hstep c s (by omega) hP
    obtain ⟨s2, h3, h4⟩ := ih (c + 1) s1 (by omega) h2
    refine ⟨s2, ?_, ?_⟩
    · rw [List.replicate_succ, List.replicate_succ]
      exact runCalls_cons step s s1 s2 k t _ _ _ h1 h3
    · have : c + (m + 1) = c + 1 + m := by omega
      rw [this]
      exact h4

theorem filter_after_replicate (w t : Time) (c : Nat) :
    (List.replicate c t).filter (fun a => decide (w < a)) =
      if w < t then List.replicate c t else [] := by
  split_ifs with h
  · rw [List.filter_eq_self]
    intro a ha
    rw [List.eq_of_mem_replicate ha]
    simpa using h
  · rw [List.filter_eq_nil_iff]
    intro a ha
    rw [List.eq_of_mem_replicate ha]
    simpa using h

/-- The sliding log on the burst: `L` allowed calls, a rejection, and an
allowed call one window later. -/
theorem slidinglog_burst (cfg : Config) (hL : 1 ≤ cfg.Limit) (hW : 0 < cfg.WindowSize)
    (k : Key) (t : Time) :
    ∃ d out, runCalls slidinglog.Allow (slidinglog.NewLimiter cfg) (burstCalls cfg k t) =
        some out ∧
      out.1 = List.replicate cfg.Limit.toNat (true, 0) ++ [(false, d), (true, 0)] := by
  have hn : ((cfg.Limit.toNat : Nat) : Int) = cfg.Limit := Int.toNat_of_nonneg (by linarith)
  obtain ⟨l1, hrun1, hcfg1, hst1⟩ := runCalls_replicate_inv slidinglog.Allow
    (fun c s => s.config = cfg ∧ slidinglog.stamps s k = List.replicate c t) k t
    cfg.Limit.toNat
    (by
      intro c s hc ⟨hcfg, hst⟩
      have hlen : (((slidinglog.stamps s k).filter
          (fun a => decide (t - cfg.WindowSize < a))).length : Int) < cfg.Limit := by
        rw [hst, filter_after_replicate, if_pos (by linarith), List.length_replicate, ← hn]
        exact_mod_cast hc
      rcases slidinglog_allow_cases s t k (by rw [hcfg]; exact hL) with
        ⟨_, l', hallow, hcfg', _, hstamps⟩ | ⟨hno, _⟩
      · refine ⟨l', hallow, hcfg'.trans hcfg, ?_⟩
        rw [hstamps, hcfg, hst, filter_after_replicate, if_pos (by linarith),
          List.replicate_succ']
      · rw [hcfg] at hno
        exact absurd hlen hno)
    cfg.Limit.toNat 0 (slidinglog.NewLimiter cfg) (by omega) ⟨rfl, rfl⟩
  rw [Nat.zero_add] at hst1
  -- the call over the limit
  have hfull : ¬ (((slidinglog.stamps l1 k).filter
      (fun a => decide (t - l1.config.WindowSize < a))).length : Int) < l1.config.Limit := by
    rw [hcfg1, hst1, filter_after_replicate, if_pos (by linarith), List.length_replicate, hn]
    exact lt_irrefl _
  obtain ⟨d, hrej⟩ : ∃ d, slidinglog.Allow l1 t k = some ((false, d), l1) := by
    rcases slidinglog_allow_cases l1 t k (by rw [hcfg1]; exact hL) with ⟨hlt, _⟩ | ⟨_, h⟩
    · exact absurd hlt hfull
    · exact h
  -- the call one window later
  obtain ⟨l2, hrec⟩ : ∃ l2, slidinglog.Allow l1 (t + cfg.WindowSize) k = some ((true, 0), l2) := by
    rcases slidinglog_allow_cases l1 (t + cfg.WindowSize) k (by rw [hcfg1]; exact hL) with
      ⟨_, l', h, _⟩ | ⟨hno, _⟩
    · exact ⟨l', h⟩
    · exfalso
      apply hno
      rw [hcfg1, hst1, filter_after_replicate, if_neg (by linarith)]
      simp only [List.length_nil, Nat.cast_zero]
      linarith
  have htail : runCalls slidinglog.Allow l1 [(k, t), (k, t + cfg.WindowSize)] =
      some ([(false, d), (true, 0)], l2) :=
    runCalls_cons _ _ _ _ _ _ _ _ _ hrej (runCalls_cons _ _ _ _ _ _ _ _ _ hrec rfl)
  exact ⟨d, _, runCalls_append _ _ _ _ _ _ _ _ hrun1 htail, rfl⟩

/-- The shape shared by the burst runs: `n` allowed calls along an invariant,
a rejection that keeps the limiter, and an allowed call one window later. -/
theorem runAll_burst {S : Type} (step : S → Time → Key → Verdict × S)
    (P : Nat → S → Prop) (k : Key) (t : Time) (w : Duration) (n : Nat) (s0 : S)
    (h0 : P 0 s0)
    (hstep : ∀ c s, c < n → P c s → (step s t k).1 = (true, 0) ∧ P (c + 1) (step s t k).2)
    (hrej : ∀ s, P n s → ∃ d, step s t k = ((false, d), s))
    (hrec : ∀ s, P n s → (step s (t + w) k).1 = (true, 0)) :
    ∃ d, (runAll step s0 (List.replicate n (k, t) ++ [(k, t), (k, t + w)])).1 =
      List.replicate n (true, 0) ++ [(false, d), (true, 0)] := by
  obtain ⟨h1, h2⟩ := runAll_replicate_inv step P k t n hstep n 0 s0 (by omega) h0
  rw [Nat.zero_add] at h2
  obtain ⟨d, hd⟩ := hrej _ h2
  refine ⟨d, ?_⟩
  rw [runAll_append, runAll_cons, runAll_cons, hd, hrec _ h2, h1]
  rfl

/-- The fixed window on the burst. -/
theorem slidingwindow_burst (cfg : Config) (hL : 1 ≤ cfg.Limit) (hW : 0 < cfg.WindowSize)
    (k : Key) (t : Time) :
    ∃ d, (runAll slidingwindow.Allow (slidingwindow.NewLimiter cfg) (burstCalls cfg k t)).1 =
      List.replicate cfg.Limit.toNat (true, 0) ++ [(false, d), (true, 0)] := by
  have hn : ((cfg.Limit.toNat : Nat) : Int) = cfg.Limit := Int.toNat_of_nonneg (by linarith)
  have hpos : cfg.Limit.toNat ≠ 0 := by omega
  have hself : ¬ t - t ≥ cfg.WindowSize := by
    intro h
    linarith
  refine runAll_burst slidingwindow.Allow
    (fun c s => s.config = cfg ∧
      s.windows k = if c = 0 then none else some ⟨(c : Int), t⟩)
    k t cfg.WindowSize cfg.Limit.toNat (slidingwindow.NewLimiter cfg) ⟨rfl, rfl⟩ ?_ ?_ ?_
  · intro c s hc ⟨hcfg, hst⟩
    by_cases h0 : c = 0
    · subst h0
      rw [if_pos rfl] at hst
      have hA : slidingwindow.Allow s t k =
          ((true, 0), { s with windows := setKey s.windows k ⟨1, t⟩ }) := by
        simp only [slidingwindow.Allow, hst]
      rw [hA]
      exact ⟨rfl, hcfg, by simp [setKey_same]⟩
    · rw [if_neg h0] at hst
      have h2 : ¬ (c : Int) ≥ cfg.Limit := by
        rw [← hn]
        exact_mod_cast not_le.2 hc
      have hA : slidingwindow.Allow s t k =
          ((true, 0), { s with windows := setKey s.windows k ⟨(c : Int) + 1, t⟩ }) := by
        simp only [slidingwindow.Allow, hst, hcfg, if_neg hself, if_neg h2]
      rw [hA]
      exact ⟨rfl, hcfg, by simp [setKey_same]⟩
  · intro s ⟨hcfg, hst⟩
    rw [if_neg hpos, hn] at hst
    exact ⟨t + cfg.WindowSize - t, by
      simp only [slidingwindow.Allow, hst, hcfg, if_neg hself, if_pos (le_refl cfg.Limit)]⟩
  · intro s ⟨hcfg, hst⟩
    rw [if_neg hpos, hn] at hst
    have hexp : t + cfg.WindowSize - t ≥ cfg.WindowSize := by linarith
    simp only [slidingwindow.Allow, hst, hcfg, if_pos hexp]

theorem leakybucket_allow_none (l : leakybucket.LeakyBucketLimiter) (now : Time) (key : Key)
    (h : l.buckets key = none) :
    leakybucket.Allow l now key =
      ((true, 0), { l with buckets := setKey l.buckets key ⟨1, now⟩ }) := by
  simp only [leakybucket.Allow, h]

theorem leakybucket_allow_some (l : leakybucket.LeakyBucketLimiter) (now : Time) (key : Key)
    (b : leakybucket.bucket) (h : l.buckets key = some b) :
    leakybucket.Allow l now key =
      if Max.max 0 (b.water - ((now - b.lastLeakTime : Int) : ℚ) / 1000000000 * l.rate) + 1 >
          l.capacity then
        ((false, toDuration
          ((Max.max 0 (b.water - ((now - b.lastLeakTime : Int) : ℚ) / 1000000000 * l.rate) + 1 -
            l.capacity) / l.rate * 1000000000)), l)
      else
        ((true, 0), { l with buckets := (setKey l.buckets key
          ⟨Max.max 0 (b.water - ((now - b.lastLeakTime : Int) : ℚ) / 1000000000 * l.rate) + 1,
            now⟩) }) := by
  have hS : ((Second : Int) : ℚ) = 1000000000 := by simp [Second]
  simp only [leakybucket.Allow, h, leakybucket_max_eq, Seconds_eq, hS]

theorem tokenbucket_allow_none (l : tokenbucket.TokenBucketLimiter) (now : Time) (key : Key)
    (h : l.buckets key = none) :
    tokenbucket.Allow l now key =
      ((true, 0), { l with buckets := setKey l.buckets key ⟨l.capacity - 1, now⟩ }) := by
  simp only [tokenbucket.Allow, h]

theorem tokenbucket_allow_some (l : tokenbucket.TokenBucketLimiter) (now : Time) (key : Key)
    (b : tokenbucket.bucket) (h : l.buckets key = some b) :
    tokenbucket.Allow l now key =
      if Min.min l.capacity
          (b.tokens + ((now - b.lastRefill : Int) : ℚ) / 1000000000 * l.rate) < 1 then
        ((false, toDuration
          ((1 - Min.min l.capacity
            (b.tokens + ((now - b.lastRefill : Int) : ℚ) / 1000000000 * l.rate)) /
              l.rate * 1000000000)), l)
      else
        ((true, 0), { l with buckets := (setKey l.buckets key
          ⟨Min.min l.capacity
            (b.tokens + ((now - b.lastRefill : Int) : ℚ) / 1000000000 * l.rate) - 1, now⟩) }) := by
  have hS : ((Second : Int) : ℚ) = 1000000000 := by simp [Second]
  simp only [tokenbucket.Allow, h, tokenbucket_min_eq, Seconds_eq, hS]

/-- A fresh leaky bucket satisfies the burst invariant at zero. -/
theorem leakybucket_filled_new (cfg : Config) (k : Key) (t : Time) :
    leakybucket.filled cfg k t 0 (leakybucket.NewLimiter cfg) :=
  ⟨by simp only [leakybucket.NewLimiter, Seconds_eq], rfl, rfl⟩

/-- Below the limit a call at the instant of the burst is allowed and adds one
unit of water. -/
theorem leakybucket_fill_step (cfg : Config) (hL : 1 ≤ cfg.Limit) (k : Key) (t : Time)
    (c : Nat) (s : leakybucket.LeakyBucketLimiter) (hc : c < cfg.Limit.toNat)
    (h : leakybucket.filled cfg k t c s) :
    (leakybucket.Allow s t k).1 = (true, 0) ∧
      leakybucket.filled cfg k t (c + 1) (leakybucket.Allow s t k).2 := by
  obtain ⟨hrate, hcap, hst⟩ := h
  have hn : ((cfg.Limit.toNat : Nat) : ℚ) = (cfg.Limit : ℚ) := by
    have : ((cfg.Limit.toNat : Nat) : Int) = cfg.Limit := Int.toNat_of_nonneg (by linarith)
    exact_mod_cast this
  have hzero : ((t - t : Int) : ℚ) = 0 := by simp
  by_cases h0 : c = 0
  · subst h0
    rw [if_pos rfl] at hst
    rw [leakybucket_allow_none s t k hst]
    exact ⟨rfl, hrate, hcap, by simp [setKey_same]⟩
  · rw [if_neg h0] at hst
    have hcq : (c : ℚ) + 1 ≤ (cfg.Limit : ℚ) := by
      rw [← hn]
      exact_mod_cast hc
    have hc0 : (0 : ℚ) ≤ (c : ℚ) := Nat.cast_nonneg c
    rw [leakybucket_allow_some s t k _ hst]
    simp only [hzero, zero_div, zero_mul, sub_zero, max_eq_right hc0, hcap]
    rw [if_neg (not_lt.2 hcq)]
    exact ⟨rfl, hrate, rfl, by simp [setKey_same]⟩

/-- A fresh token bucket satisfies the burst invariant at zero. -/
theorem tokenbucket_filled_new (cfg : Config) (k : Key) (t : Time) :
    tokenbucket.filled cfg k t 0 (tokenbucket.NewLimiter cfg) :=
  ⟨by simp only [tokenbucket.NewLimiter, Seconds_eq], rfl, rfl⟩

/-- Below the limit a call at the instant of the burst is allowed and takes
one token. -/
theorem tokenbucket_fill_step (cfg : Config) (hL : 1 ≤ cfg.Limit) (k : Key) (t : Time)
    (c : Nat) (s : tokenbucket.TokenBucketLimiter) (hc : c < cfg.Limit.toNat)
    (h : tokenbucket.filled cfg k t c s) :
    (tokenbucket.Allow s t k).1 = (true, 0) ∧
      tokenbucket.filled cfg k t (c + 1) (tokenbucket.Allow s t k).2 := by
  obtain ⟨hrate, hcap, hst⟩ := h
  have hn : ((cfg.Limit.toNat : Nat) : ℚ) = (cfg.Limit : ℚ) := by
    have : ((cfg.Limit.toNat : Nat) : Int) = cfg.Limit := Int.toNat_of_nonneg (by linarith)
    exact_mod_cast this
  have hzero : ((t - t : Int) : ℚ) = 0 := by simp
  by_cases h0 : c = 0
  · subst h0
    rw [if_pos rfl] at hst
    rw [tokenbucket_allow_none s t k hst]
    exact ⟨rfl, hrate, hcap, by simp [setKey_same, hcap]⟩
  · rw [if_neg h0] at hst
    have hcq : (c : ℚ) + 1 ≤ (cfg.Limit : ℚ) := by
      rw [← hn]
      exact_mod_cast hc
    have hc0 : (0 : ℚ) ≤ (c : ℚ) := Nat.cast_nonneg c
    have hmin : Min.min (cfg.Limit : ℚ) ((cfg.Limit : ℚ) - (c : ℚ)) =
        (cfg.Limit : ℚ) - (c : ℚ) := min_eq_right (by linarith)
    rw [tokenbucket_allow_some s t k _ hst]
    simp only [hzero, zero_div, zero_mul, add_zero, hcap, hmin]
    rw [if_neg (by linarith)]
    refine ⟨rfl, hrate, rfl, ?_⟩
    simp only [setKey_same, Nat.succ_ne_zero, if_false]
    push_cast
    congr 2
    ring

/-- The leaky bucket on the burst, in exact arithmetic. -/
theorem leakybucket_burst (cfg : Config) (hL : 1 ≤ cfg.Limit) (hW : 0 < cfg.WindowSize)
    (k : Key) (t : Time) :
    ∃ d, (runAll leakybucket.Allow (leakybucket.NewLimiter cfg) (burstCalls cfg k t)).1 =
      List.replicate cfg.Limit.toNat (true, 0) ++ [(false, d), (true, 0)] := by
  have hn : ((cfg.Limit.toNat : Nat) : ℚ) = (cfg.Limit : ℚ) := by
    have : ((cfg.Limit.toNat : Nat) : Int) = cfg.Limit := Int.toNat_of_nonneg (by linarith)
    exact_mod_cast this
  have hpos : cfg.Limit.toNat ≠ 0 := by omega
  have hLq : (1 : ℚ) ≤ (cfg.Limit : ℚ) := by exact_mod_cast hL
  have hWq : (0 : ℚ) < (cfg.WindowSize : ℚ) := by exact_mod_cast hW
  have hzero : ((t - t : Int) : ℚ) = 0 := by simp
  have hwin : ((t + cfg.WindowSize - t : Int) : ℚ) = (cfg.WindowSize : ℚ) := by simp
  refine runAll_burst leakybucket.Allow (leakybucket.filled cfg k t)
    k t cfg.WindowSize cfg.Limit.toNat (leakybucket.NewLimiter cfg)
    (leakybucket_filled_new cfg k t) (leakybucket_fill_step cfg hL k t) ?_ ?_
  · intro s ⟨hrate, hcap, hst⟩
    rw [if_neg hpos, hn] at hst
    have h0 : (0 : ℚ) ≤ (cfg.Limit : ℚ) := by linarith
    rw [leakybucket_allow_some s t k _ hst]
    simp only [hzero, zero_div, zero_mul, sub_zero, max_eq_right h0, hcap]
    rw [if_pos (by linarith)]
    exact ⟨_, rfl⟩
  · intro s ⟨hrate, hcap, hst⟩
    rw [if_neg hpos, hn] at hst
    have hleak : (cfg.WindowSize : ℚ) / 1000000000 *
        ((cfg.Limit : ℚ) / ((cfg.WindowSize : ℚ) / 1000000000)) = (cfg.Limit : ℚ) := by
      field_simp
      ring
    rw [leakybucket_allow_some s (t + cfg.WindowSize) k _ hst]
    simp only [hwin, hrate, hleak, sub_self, max_self, zero_add, hcap]
    rw [if_neg (not_lt.2 hLq)]

/-- The token bucket on the burst, in exact arithmetic. -/
theorem tokenbucket_burst (cfg : Config) (hL : 1 ≤ cfg.Limit) (hW : 0 < cfg.WindowSize)
    (k : Key) (t : Time) :
    ∃ d, (runAll tokenbucket.Allow (tokenbucket.NewLimiter cfg) (burstCalls cfg k t)).1 =
      List.replicate cfg.Limit.toNat (true, 0) ++ [(false, d), (true, 0)] := by
  have hn : ((cfg.Limit.toNat : Nat) : ℚ) = (cfg.Limit : ℚ) := by
    have : ((cfg.Limit.toNat : Nat) : Int) = cfg.Limit := Int.toNat_of_nonneg (by linarith)
    exact_mod_cast this
  have hpos : cfg.Limit.toNat ≠ 0 := by omega
  have hLq : (1 : ℚ) ≤ (cfg.Limit : ℚ) := by exact_mod_cast hL
  have hWq : (0 : ℚ) < (cfg.WindowSize : ℚ) := by exact_mod_cast hW
  have hzero : ((t - t : Int) : ℚ) = 0 := by simp
  have hwin : ((t + cfg.WindowSize - t : Int) : ℚ) = (cfg.WindowSize : ℚ) := by simp
  refine runAll_burst tokenbucket.Allow (tokenbucket.filled cfg k t)
    k t cfg.WindowSize cfg.Limit.toNat (tokenbucket.NewLimiter cfg)
    (tokenbucket_filled_new cfg k t) (tokenbucket_fill_step cfg hL k t) ?_ ?_
  · intro s ⟨hrate, hcap, hst⟩
    rw [if_neg hpos, hn, sub_self] at hst
    have hmin : Min.min (cfg.Limit : ℚ) 0 = 0 := min_eq_right (by linarith)
    rw [tokenbucket_allow_some s t k _ hst]
    simp only [hzero, zero_div, zero_mul, add_zero, hcap, hmin]
    rw [if_pos (by norm_num)]
    exact ⟨_, rfl⟩
  · intro s ⟨hrate, hcap, hst⟩
    rw [if_neg hpos, hn, sub_self] at hst
    have hfill : (cfg.WindowSize : ℚ) / 1000000000 *
        ((cfg.Limit : ℚ) / ((cfg.WindowSize : ℚ) / 1000000000)) = (cfg.Limit : ℚ) := by
      field_simp
      ring
    rw [tokenbucket_allow_some s (t + cfg.WindowSize) k _ hst]
    simp only [hwin, hrate, hfill, zero_add, min_self, hcap]
    rw [if_neg (not_lt.2 hLq)]



/-! ## Concrete bucket states -/

theorem leakybucket_s3Full_spec :
    leakybucket.s3Full.rate = 3 ∧ leakybucket.s3Full.capacity = 3 ∧
      leakybucket.s3Full.buckets "k" = some ⟨3, 0⟩ := by
  obtain ⟨_, hrate, hcap, hst⟩ := runAll_replicate_inv leakybucket.Allow
    (leakybucket.filled s3Config "k" 0) "k" 0 3
    (leakybucket_fill_step s3Config (by decide) "k" 0) 3 0 (leakybucket.NewLimiter s3Config)
    (by decide) (leakybucket_filled_new s3Config "k" 0)
  refine ⟨?_, ?_, ?_⟩
  · rw [leakybucket.s3Full, s3Burst, hrate]
    norm_num [s3Config]
  · rw [leakybucket.s3Full, s3Burst, hcap]
    norm_num [s3Config]
  · rw [leakybucket.s3Full, s3Burst, hst]
    norm_num

theorem tokenbucket_s3Empty_spec :
    tokenbucket.s3Empty.rate = 3 ∧ tokenbucket.s3Empty.capacity = 3 ∧
      tokenbucket.s3Empty.buckets "k" = some ⟨0, 0⟩ := by
  obtain ⟨_, hrate, hcap, hst⟩ := runAll_replicate_inv tokenbucket.Allow
    (tokenbucket.filled s3Config "k" 0) "k" 0 3
    (tokenbucket_fill_step s3Config (by decide) "k" 0) 3 0 (tokenbucket.NewLimiter s3Config)
    (by decide) (tokenbucket_filled_new s3Config "k" 0)
  refine ⟨?_, ?_, ?_⟩
  · rw [tokenbucket.s3Empty, s3Burst, hrate]
    norm_num [s3Config]
  · rw [tokenbucket.s3Empty, s3Burst, hcap]
    norm_num [s3Config]
  · rw [tokenbucket.s3Empty, s3Burst, hst]
    norm_num [s3Config]

theorem toDuration_of_floor (x : ℚ) (n : Int) (h1 : (n : ℚ) ≤ x) (h2 : x < (n : ℚ) + 1)
    (h0 : 0 ≤ x) : toDuration x = n := by
  rw [toDuration_eq, if_pos h0, Int.floor_eq_iff]
  exact ⟨h1, h2⟩



/-! ## Token bucket: the state after a rejection -/

/-- C7 as stated fails: the empty bucket of scenario S3 rejects a call 0.1 s
later and keeps `(0, 0)`; it does not store the refilled `(3/10, 0.1 s)`. -/
theorem tokenbucket_reject_not_persisted :
    (tokenbucket.Allow tokenbucket.s3Empty 100000000 "k").1.1 = false ∧
    tokenbucket.s3Empty.buckets "k" = some ⟨0, 0⟩ ∧
    (tokenbucket.Allow tokenbucket.s3Empty 100000000 "k").2.buckets "k" = some ⟨0, 0⟩ ∧
    (tokenbucket.Allow tokenbucket.s3Empty 100000000 "k").2.buckets "k" ≠
      some ⟨Min.min tokenbucket.s3Empty.capacity
        (0 + ((100000000 - 0 : Int) : ℚ) / 1000000000 * tokenbucket.s3Empty.rate),
        100000000⟩ := by
  obtain ⟨hrate, hcap, hst⟩ := tokenbucket_s3Empty_spec
  have hlow : Min.min tokenbucket.s3Empty.capacity
      ((0 : ℚ) + ((100000000 - 0 : Int) : ℚ) / 1000000000 * tokenbucket.s3Empty.rate) < 1 := by
    rw [hrate, hcap]
    norm_num
  have hA := tokenbucket_allow_some tokenbucket.s3Empty 100000000 "k" ⟨0, 0⟩ hst
  rw [if_pos hlow] at hA
  rw [hA]
  refine ⟨rfl, hst, hst, ?_⟩
  rw [hst]
  intro h
  have := congrArg tokenbucket.bucket.lastRefill (Option.some.inj h)
  exact absurd this (by decide)

/-- C7, amended: a rejected token-bucket `Allow` call is a call on a key with
existing state, and it leaves the limiter, hence the stored tokens and
last-refill time of every key, unchanged. -/
theorem tokenbucket_reject_keeps_state (l : tokenbucket.TokenBucketLimiter) (now : Time)
    (key : Key) (h : (tokenbucket.Allow l now key).1.1 = false) :
    (∃ b, l.buckets key = some b) ∧ (tokenbucket.Allow l now key).2 = l := by
  cases hb : l.buckets key with
  | none =>
    rw [tokenbucket_allow_none l now key hb] at h
    exact absurd h (by simp)
  | some b =>
    refine ⟨⟨b, rfl⟩, ?_⟩
    rw [tokenbucket_allow_some l now key b hb] at h ⊢
    by_cases hlow : Min.min l.capacity
        (b.tokens + ((now - b.lastRefill : Int) : ℚ) / 1000000000 * l.rate) < 1
    · rw [if_pos hlow]
    · rw [if_neg hlow] at h
      exact absurd h (by simp)

/-- C7 amended, at a concrete input: the rejected call on the empty bucket of
scenario S3. -/
theorem tokenbucket_reject_keeps_state_witness :
    (∃ b, tokenbucket.s3Empty.buckets "k" = some b) ∧
      (tokenbucket.Allow tokenbucket.s3Empty 100000000 "k").2 = tokenbucket.s3Empty :=
  tokenbucket_reject_keeps_state tokenbucket.s3Empty 100000000 "k" (by
    obtain ⟨hrate, hcap, hst⟩ := tokenbucket_s3Empty_spec
    rw [tokenbucket_allow_some tokenbucket.s3Empty 100000000 "k" ⟨0, 0⟩ hst, hrate, hcap]
    norm_num)

/-! ## The sign of the wait -/

/-- C9: the sign of the wait for the timestamp-based limiters.  A sliding-log
call with `limit ≥ 1` returns a verdict, and for it and for the fixed window
(under any limit) an allowed call returns a zero wait and a rejected call a
strictly positive wait. -/
theorem timestamp_retry_sign :
    (∀ (l : slidinglog.SlidingLogLimiter) (now : Time) (key : Key),
      1 ≤ l.config.Limit →
      ∃ r l', slidinglog.Allow l now key = some (r, l') ∧
        (r.1 = true → r.2 = 0) ∧ (r.1 = false → 0 < r.2)) ∧
    (∀ (l : slidingwindow.SlidingWindowLimiter) (now : Time) (key : Key),
      ((slidingwindow.Allow l now key).1.1 = true → (slidingwindow.Allow l now key).1.2 = 0) ∧
      ((slidingwindow.Allow l now key).1.1 = false →
        0 < (slidingwindow.Allow l now key).1.2)) := by
  refine ⟨?_, ?_⟩
  · intro l now key hL
    by_cases h : ((slidinglog.validLogs (now + -l.config.WindowSize)
        ((l.logs key).getD [])).length : Int) < l.config.Limit
    · exact ⟨(true, 0), ⟨setKey l.logs key (slidinglog.validLogs (now + -l.config.WindowSize)
          ((l.logs key).getD []) ++ [⟨now⟩]), l.config⟩,
        by simp only [slidinglog.Allow, if_pos h], fun _ => rfl, fun hf => absurd hf (by simp)⟩
    · cases hv : slidinglog.validLogs (now + -l.config.WindowSize) ((l.logs key).getD []) with
      | nil =>
        rw [hv] at h
        simp only [List.length_nil, Nat.cast_zero] at h
        omega
      | cons first rest =>
        have hmem : first ∈ slidinglog.validLogs (now + -l.config.WindowSize)
            ((l.logs key).getD []) := by
          rw [hv]
          exact List.mem_cons_self _ _
        have hafter : now + -l.config.WindowSize < first.timestamp := by
          simpa using (List.mem_filter.1 hmem).2
        rw [hv] at h
        refine ⟨(false, first.timestamp + l.config.WindowSize - now), l,
          by simp only [slidinglog.Allow, hv, if_neg h], fun hf => absurd hf (by simp), ?_⟩
        intro _
        show 0 < first.timestamp + l.config.WindowSize - now
        linarith
  · intro l now key
    cases hw : l.windows key with
    | none =>
      have hA : slidingwindow.Allow l now key =
          ((true, 0), { l with windows := setKey l.windows key ⟨1, now⟩ }) := by
        simp only [slidingwindow.Allow, hw]
      rw [hA]
      exact ⟨fun _ => rfl, fun hf => absurd hf (by simp)⟩
    | some w =>
      by_cases hexp : now - w.timestamp ≥ l.config.WindowSize
      · have hA : slidingwindow.Allow l now key =
            ((true, 0), { l with windows := setKey l.windows key ⟨1, now⟩ }) := by
          simp only [slidingwindow.Allow, hw, if_pos hexp]
        rw [hA]
        exact ⟨fun _ => rfl, fun hf => absurd hf (by simp)⟩
      · by_cases hfull : w.count ≥ l.config.Limit
        · have hA : slidingwindow.Allow l now key =
              ((false, w.timestamp + l.config.WindowSize - now), l) := by
            simp only [slidingwindow.Allow, hw, if_neg hexp, if_pos hfull]
          rw [hA]
          refine ⟨fun hf => absurd hf (by simp), fun _ => ?_⟩
          show 0 < w.timestamp + l.config.WindowSize - now
          have := lt_of_not_ge hexp
          linarith
        · have hA : slidingwindow.Allow l now key =
              ((true, 0),
                { l with windows := setKey l.windows key ⟨w.count + 1, w.timestamp⟩ }) := by
            simp only [slidingwindow.Allow, hw, if_neg hexp, if_neg hfull]
          rw [hA]
          exact ⟨fun _ => rfl, fun hf => absurd hf (by simp)⟩

/-- C9 at a concrete input: a first sliding-log call on the limiter of
scenario S3. -/
theorem timestamp_retry_sign_witness :
    ∃ r l', slidinglog.Allow (slidinglog.NewLimiter s3Config) 0 "k" = some (r, l') ∧
      (r.1 = true → r.2 = 0) ∧ (r.1 = false → 0 < r.2) :=
  timestamp_retry_sign.1 (slidinglog.NewLimiter s3Config) 0 "k" (by decide)

/-- C10 fails on the code: on the limiters of scenario S3 (limit 3, window
1 s), after three allowed calls at the instant zero the call at 333333333 ns is
rejected with a wait of zero nanoseconds, by the leaky bucket and by the token
bucket alike. -/
theorem bucket_reject_zero_wait :
    (runAll leakybucket.Allow (leakybucket.NewLimiter s3Config)
        (s3Burst ++ [("k", 333333333)])).1 =
      [(true, 0), (true, 0), (true, 0), (false, 0)] ∧
    (runAll tokenbucket.Allow (tokenbucket.NewLimiter s3Config)
        (s3Burst ++ [("k", 333333333)])).1 =
      [(true, 0), (true, 0), (true, 0), (false, 0)] := by
  refine ⟨?_, ?_⟩
  · obtain ⟨hrate, hcap, hst⟩ := leakybucket_s3Full_spec
    obtain ⟨hrun, _⟩ := runAll_replicate_inv leakybucket.Allow
      (leakybucket.filled s3Config "k" 0) "k" 0 3
      (leakybucket_fill_step s3Config (by decide) "k" 0) 3 0 (leakybucket.NewLimiter s3Config)
      (by decide) (leakybucket_filled_new s3Config "k" 0)
    have hA : leakybucket.Allow leakybucket.s3Full 333333333 "k" =
        ((false, 0), leakybucket.s3Full) := by
      rw [leakybucket_allow_some leakybucket.s3Full 333333333 "k" ⟨3, 0⟩ hst, hrate, hcap,
        if_pos (by norm_num)]
      rw [toDuration_of_floor _ 0 (by norm_num) (by norm_num) (by norm_num)]
    rw [runAll_append, runAll_cons]
    change (runAll leakybucket.Allow (leakybucket.NewLimiter s3Config)
      (List.replicate 3 ("k", 0))).1 ++
      (leakybucket.Allow leakybucket.s3Full 333333333 "k").1 :: _ = _
    rw [hrun, hA]
    rfl
  · obtain ⟨hrate, hcap, hst⟩ := tokenbucket_s3Empty_spec
    obtain ⟨hrun, _⟩ := runAll_replicate_inv tokenbucket.Allow
      (tokenbucket.filled s3Config "k" 0) "k" 0 3
      (tokenbucket_fill_step s3Config (by decide) "k" 0) 3 0 (tokenbucket.NewLimiter s3Config)
      (by decide) (tokenbucket_filled_new s3Config "k" 0)
    have hA : tokenbucket.Allow tokenbucket.s3Empty 333333333 "k" =
        ((false, 0), tokenbucket.s3Empty) := by
      rw [tokenbucket_allow_some tokenbucket.s3Empty 333333333 "k" ⟨0, 0⟩ hst, hrate, hcap,
        if_pos (by norm_num)]
      rw [toDuration_of_floor _ 0 (by norm_num) (by norm_num) (by norm_num)]
    rw [runAll_append, runAll_cons]
    change (runAll tokenbucket.Allow (tokenbucket.NewLimiter s3Config)
      (List.replicate 3 ("k", 0))).1 ++
      (tokenbucket.Allow tokenbucket.s3Empty 333333333 "k").1 :: _ = _
    rw [hrun, hA]
    rfl

/-! ## The wait of a rejection is enough (timestamp-based limiters) -/

/-- A rejected sliding-log call keeps the limiter and returns the wait until
one of the stored timestamps leaves the window. -/
theorem slidinglog_reject_wait (l l' : slidinglog.SlidingLogLimiter) (now : Time) (key : Key)
    (d : Duration) (h : slidinglog.Allow l now key = some ((false, d), l')) :
    l' = l ∧ ∃ a ∈ slidinglog.stamps l key, d = a + l.config.WindowSize - now := by
  by_cases hlt : ((slidinglog.validLogs (now + -l.config.WindowSize)
      ((l.logs key).getD [])).length : Int) < l.config.Limit
  · simp [slidinglog.Allow, if_pos hlt] at h
  · cases hv : slidinglog.validLogs (now + -l.config.WindowSize) ((l.logs key).getD []) with
    | nil =>
      rw [hv] at hlt
      simp [slidinglog.Allow, hv, if_neg hlt] at h
    | cons first rest =>
      rw [hv] at hlt
      simp only [slidinglog.Allow, hv, if_neg hlt, Option.some.injEq, Prod.mk.injEq,
        true_and] at h
      obtain ⟨hd, hl⟩ := h
      refine ⟨hl.symm, first.timestamp, ?_, hd.symm⟩
      have hmem : first ∈ slidinglog.validLogs (now + -l.config.WindowSize)
          ((l.logs key).getD []) := by
        rw [hv]
        exact List.mem_cons_self _ _
      exact List.mem_map_of_mem _ (List.mem_of_mem_filter hmem)

/-- Every stored sequence of a sliding log reached from a limiter with at most
`limit` entries per key has at most `limit` entries. -/
theorem slidinglog_run_length (cfg : Config) (hL : 1 ≤ cfg.Limit) :
    ∀ (calls : List (Key × Time)) (l : slidinglog.SlidingLogLimiter)
      (out : List Verdict × slidinglog.SlidingLogLimiter),
      l.config = cfg →
      (∀ k, ((slidinglog.stamps l k).length : Int) ≤ cfg.Limit) →
      runCalls slidinglog.Allow l calls = some out →
      out.2.config = cfg ∧ ∀ k, ((slidinglog.stamps out.2 k).length : Int) ≤ cfg.Limit := by
  intro calls
  induction calls with
  | nil =>
    intro l out hcfg hlen hrun
    simp only [runCalls, Option.some.injEq] at hrun
    subst hrun
    exact ⟨hcfg, hlen⟩
  | cons c cs ih =>
    obtain ⟨k', now⟩ := c
    intro l out hcfg hlen hrun
    rcases slidinglog_allow_cases l now k' (by rw [hcfg]; exact hL) with
      ⟨hlt, l', hallow, hcfg', hother, hstamps⟩ | ⟨_, d, hallow⟩
    · cases hrest : runCalls slidinglog.Allow l' cs with
      | none => simp [runCalls, hallow, hrest] at hrun
      | some q =>
        simp only [runCalls, hallow, hrest, Option.some.injEq] at hrun
        subst hrun
        refine ih l' q (hcfg'.trans hcfg) ?_ hrest
        intro k
        by_cases hk : k = k'
        · subst hk
          rw [hcfg] at hlt hstamps
          rw [hstamps, List.length_append, List.length_singleton]
          push_cast
          exact Int.add_one_le_iff.2 hlt
        · have : slidinglog.stamps l' k = slidinglog.stamps l k := by
            simp only [slidinglog.stamps, hother k hk]
          rw [this]
          exact hlen k
    · cases hrest : runCalls slidinglog.Allow l cs with
      | none => simp [runCalls, hallow, hrest] at hrun
      | some q =>
        simp only [runCalls, hallow, hrest, Option.some.injEq] at hrun
        subst hrun
        exact ih l q hcfg hlen hrest

/-- Sliding-log calls for other keys do not abort and keep the stored sequence
of the key `k`. -/
theorem slidinglog_run_other_keys (cfg : Config) (hL : 1 ≤ cfg.Limit) (k : Key) :
    ∀ (mid : List (Key × Time)) (l : slidinglog.SlidingLogLimiter),
      l.config = cfg → (∀ c ∈ mid, c.1 ≠ k) →
      ∃ out, runCalls slidinglog.Allow l mid = some out ∧ out.2.config = cfg ∧
        slidinglog.stamps out.2 k = slidinglog.stamps l k := by
  intro mid
  induction mid with
  | nil =>
    intro l hcfg _
    exact ⟨([], l), rfl, hcfg, rfl⟩
  | cons c cs ih =>
    obtain ⟨k', now⟩ := c
    intro l hcfg hne
    have hk : k ≠ k' := fun h => hne (k', now) (List.mem_cons_self _ _) h.symm
    have hne' : ∀ c ∈ cs, c.1 ≠ k := fun c hc => hne c (List.mem_cons_of_mem _ hc)
    rcases slidinglog_allow_cases l now k' (by rw [hcfg]; exact hL) with
      ⟨_, l', hallow, hcfg', hother, _⟩ | ⟨_, d, hallow⟩
    · obtain ⟨out, hrun, hc, hs⟩ := ih l' (hcfg'.trans hcfg) hne'
      refine ⟨(_ :: out.1, out.2), runCalls_cons _ _ _ _ _ _ _ _ _ hallow hrun, hc, ?_⟩
      rw [hs]
      simp only [slidinglog.stamps, hother k hk]
    · obtain ⟨out, hrun, hc, hs⟩ := ih l hcfg hne'
      exact ⟨(_ :: out.1, out.2), runCalls_cons _ _ _ _ _ _ _ _ _ hallow hrun, hc, hs⟩

/-- A fixed-window call for another key keeps the configuration and the window
of the key `k`. -/
theorem slidingwindow_allow_other (l : slidingwindow.SlidingWindowLimiter) (now : Time)
    (k k' : Key) (hk : k ≠ k') :
    (slidingwindow.Allow l now k').2.config = l.config ∧
      (slidingwindow.Allow l now k').2.windows k = l.windows k := by
  cases hw : l.windows k' with
  | none =>
    refine ⟨?_, ?_⟩ <;> simp [slidingwindow.Allow, hw, setKey, hk]
  | some w =>
    by_cases hexp : now - w.timestamp ≥ l.config.WindowSize
    · refine ⟨?_, ?_⟩ <;> simp [slidingwindow.Allow, hw, hexp, setKey, hk]
    · by_cases hfull : w.count ≥ l.config.Limit
      · refine ⟨?_, ?_⟩ <;> simp [slidingwindow.Allow, hw, hexp, hfull, setKey, hk]
      · refine ⟨?_, ?_⟩ <;> simp [slidingwindow.Allow, hw, hexp, hfull, setKey, hk]

theorem slidingwindow_run_other_keys (k : Key) :
    ∀ (mid : List (Key × Time)) (l : slidingwindow.SlidingWindowLimiter),
      (∀ c ∈ mid, c.1 ≠ k) →
      (runAll slidingwindow.Allow l mid).2.config = l.config ∧
        (runAll slidingwindow.Allow l mid).2.windows k = l.windows k := by
  intro mid
  induction mid with
  | nil =>
    intro l _
    exact ⟨rfl, rfl⟩
  | cons c cs ih =>
    obtain ⟨k', now⟩ := c
    intro l hne
    have hk : k ≠ k' := fun h => hne (k', now) (List.mem_cons_self _ _) h.symm
    obtain ⟨h1, h2⟩ := slidingwindow_allow_other l now k k' hk
    obtain ⟨h3, h4⟩ := ih (slidingwindow.Allow l now k').2
      (fun c hc => hne c (List.mem_cons_of_mem _ hc))
    rw [runAll_cons]
    exact ⟨h3.trans h1, h4.trans h2⟩

/-- C11: the wait of a rejection is enough, for the timestamp-based limiters.
Sliding log, `limit ≥ 1`: on a limiter reached from a fresh one by any calls,
if `Allow` for `k` rejects at `t` with wait `d`, then after any calls for
other keys the call for `k` at `t + d` returns `(true, 0)`.  Fixed window: the
same, on every limiter. -/
theorem timestamp_retry_monotone :
    (∀ (cfg : Config) (calls mid : List (Key × Time)) (rs : List Verdict)
      (l l1 : slidinglog.SlidingLogLimiter) (k : Key) (t : Time) (d : Duration),
      1 ≤ cfg.Limit →
      runCalls slidinglog.Allow (slidinglog.NewLimiter cfg) calls = some (rs, l) →
      slidinglog.Allow l t k = some ((false, d), l1) →
      (∀ c ∈ mid, c.1 ≠ k) →
      ∃ rs2 l2 l3, runCalls slidinglog.Allow l1 mid = some (rs2, l2) ∧
        slidinglog.Allow l2 (t + d) k = some ((true, 0), l3)) ∧
    (∀ (l : slidingwindow.SlidingWindowLimiter) (mid : List (Key × Time)) (k : Key)
      (t : Time) (d : Duration),
      (slidingwindow.Allow l t k).1 = (false, d) →
      (∀ c ∈ mid, c.1 ≠ k) →
      (slidingwindow.Allow (runAll slidingwindow.Allow (slidingwindow.Allow l t k).2 mid).2
        (t + d) k).1 = (true, 0)) := by
  refine ⟨?_, ?_⟩
  · intro cfg calls mid rs l l1 k t d hL hrun hrej hmid
    obtain ⟨hcfg, hlen⟩ := slidinglog_run_length cfg hL calls (slidinglog.NewLimiter cfg)
      (rs, l) rfl
      (by
        intro k
        simp only [slidinglog.stamps, slidinglog.NewLimiter, Option.getD_none, List.map_nil,
          List.length_nil, Nat.cast_zero]
        linarith)
      hrun
    simp only at hcfg hlen
    obtain ⟨hl1, a, ha, hd⟩ := slidinglog_reject_wait l l1 t k d hrej
    subst hl1
    obtain ⟨out, hrun2, hcfg2, hst2⟩ := slidinglog_run_other_keys cfg hL k mid l1 hcfg hmid
    rcases slidinglog_allow_cases out.2 (t + d) k (by rw [hcfg2]; exact hL) with
      ⟨_, l3, hallow, _⟩ | ⟨hno, _⟩
    · exact ⟨out.1, out.2, l3, hrun2, hallow⟩
    · exfalso
      apply hno
      rw [hst2, hcfg2]
      have hlt : ((slidinglog.stamps l1 k).filter
          (fun x => decide (t + d - cfg.WindowSize < x))).length <
          (slidinglog.stamps l1 k).length := by
        rw [List.length_filter_lt_length_iff_exists]
        refine ⟨a, ha, ?_⟩
        rw [hd, hcfg]
        simp
      have := hlen k
      have hlt' : (((slidinglog.stamps l1 k).filter
          (fun x => decide (t + d - cfg.WindowSize < x))).length : Int) <
          ((slidinglog.stamps l1 k).length : Int) := by exact_mod_cast hlt
      linarith
  · intro l mid k t d hrej hmid
    cases hw : l.windows k with
    | none =>
      simp [slidingwindow.Allow, hw] at hrej
    | some w =>
      by_cases hexp : t - w.timestamp ≥ l.config.WindowSize
      · simp [slidingwindow.Allow, hw, if_pos hexp] at hrej
      · by_cases hfull : w.count ≥ l.config.Limit
        · have hA : slidingwindow.Allow l t k =
              ((false, w.timestamp + l.config.WindowSize - t), l) := by
            simp only [slidingwindow.Allow, hw, if_neg hexp, if_pos hfull]
          rw [hA] at hrej ⊢
          have hd : d = w.timestamp + l.config.WindowSize - t := by
            have := congrArg Prod.snd hrej
            exact this.symm
          obtain ⟨hc, hwin⟩ := slidingwindow_run_other_keys k mid l hmid
          have hexp2 : t + d - w.timestamp ≥
              (runAll slidingwindow.Allow l mid).2.config.WindowSize := by
            rw [hc, hd]
            linarith
          simp only [slidingwindow.Allow, hwin, hw, if_pos hexp2]
        · simp [slidingwindow.Allow, hw, if_neg hexp, if_neg hfull] at hrej

/-- C11 at a concrete input: the rejection of scenario S3 at 0.9 s with a wait
of 0.1 s, and the call at 1.0 s. -/
theorem timestamp_retry_monotone_witness :
    ∃ rs2 l2 l3, runCalls slidinglog.Allow s3Rejecting [("other", 950000000)] =
        some (rs2, l2) ∧
      slidinglog.Allow l2 (900000000 + 100000000) "k" = some ((true, 0), l3) :=
  timestamp_retry_monotone.1 s3Config s3Reach [("other", 950000000)]
    [(true, 0), (true, 0), (true, 0)] s3Rejecting s3Rejecting "k" 900000000 100000000
    (by decide) (by rfl) (by rfl) (by decide)

/-! ## The wait of a rejection (bucket limiters) -/

/-- C12 fails on the code: on the limiters of scenario S3 (limit 3, window
1 s) after three allowed calls at the instant zero, the call at 0.1 s is
rejected with a wait of 233333333 ns, and the call at 0.1 s + 233333333 ns is
rejected again, by the leaky bucket and by the token bucket alike. -/
theorem bucket_retry_wait_too_short :
    (leakybucket.Allow leakybucket.s3Full 100000000 "k" =
        ((false, 233333333), leakybucket.s3Full) ∧
      (leakybucket.Allow leakybucket.s3Full (100000000 + 233333333) "k").1.1 = false) ∧
    (tokenbucket.Allow tokenbucket.s3Empty 100000000 "k" =
        ((false, 233333333), tokenbucket.s3Empty) ∧
      (tokenbucket.Allow tokenbucket.s3Empty (100000000 + 233333333) "k").1.1 = false) := by
  refine ⟨?_, ?_⟩
  · obtain ⟨hrate, hcap, hst⟩ := leakybucket_s3Full_spec
    refine ⟨?_, ?_⟩
    · rw [leakybucket_allow_some leakybucket.s3Full 100000000 "k" ⟨3, 0⟩ hst, hrate, hcap,
        if_pos (by norm_num)]
      rw [toDuration_of_floor _ 233333333 (by norm_num) (by norm_num) (by norm_num)]
    · rw [leakybucket_allow_some leakybucket.s3Full (100000000 + 233333333) "k" ⟨3, 0⟩ hst,
        hrate, hcap, if_pos (by norm_num)]
  · obtain ⟨hrate, hcap, hst⟩ := tokenbucket_s3Empty_spec
    refine ⟨?_, ?_⟩
    · rw [tokenbucket_allow_some tokenbucket.s3Empty 100000000 "k" ⟨0, 0⟩ hst, hrate, hcap,
        if_pos (by norm_num)]
      rw [toDuration_of_floor _ 233333333 (by norm_num) (by norm_num) (by norm_num)]
    · rw [tokenbucket_allow_some tokenbucket.s3Empty (100000000 + 233333333) "k" ⟨0, 0⟩ hst,
        hrate, hcap, if_pos (by norm_num)]

/-! ## The rule manager -/

theorem createLimiter_ok_iff (rule : limiter.Rule) :
    (∃ lim, limiter.createLimiter rule = .ok lim) ↔
      (rule.Algorithm = limiter.SlidingLog ∨ rule.Algorithm = limiter.SlidingWindow ∨
        rule.Algorithm = limiter.LeakyBucket ∨ rule.Algorithm = limiter.TokenBucket) := by
  unfold limiter.createLimiter
  constructor
  · rintro ⟨lim, h⟩
    by_cases h1 : rule.Algorithm = limiter.SlidingLog
    · exact Or.inl h1
    · by_cases h2 : rule.Algorithm = limiter.SlidingWindow
      · exact Or.inr (Or.inl h2)
      · by_cases h3 : rule.Algorithm = limiter.LeakyBucket
        · exact Or.inr (Or.inr (Or.inl h3))
        · by_cases h4 : rule.Algorithm = limiter.TokenBucket
          · exact Or.inr (Or.inr (Or.inr h4))
          · simp [h1, h2, h3, h4] at h
  · intro h
    by_cases h1 : rule.Algorithm = limiter.SlidingLog
    · exact ⟨_, if_pos h1⟩
    · by_cases h2 : rule.Algorithm = limiter.SlidingWindow
      · exact ⟨_, by rw [if_neg h1, if_pos h2]⟩
      · by_cases h3 : rule.Algorithm = limiter.LeakyBucket
        · exact ⟨_, by rw [if_neg h1, if_neg h2, if_pos h3]⟩
        · by_cases h4 : rule.Algorithm = limiter.TokenBucket
          · exact ⟨_, by rw [if_neg h1, if_neg h2, if_neg h3, if_pos h4]⟩
          · rcases h with h | h | h | h <;> contradiction

theorem addRule_of_ok (rm : limiter.RuleManager) (path : Key) (rule : limiter.Rule)
    (lim : RateLimiter) (h : limiter.createLimiter rule = .ok lim) :
    limiter.AddRule rm path rule =
      (none, { rules := setKey rm.rules path rule, limiters := setKey rm.limiters path lim }) := by
  simp only [limiter.AddRule, h]

theorem addRule_of_error (rm : limiter.RuleManager) (path : Key) (rule : limiter.Rule)
    (err : String) (h : limiter.createLimiter rule = .error err) :
    limiter.AddRule rm path rule = (some err, rm) := by
  simp only [limiter.AddRule, h]

/-- C13 as stated fails: `AddRule` on a fresh manager with the sliding-log
rule of window 0 and limit 0 (and with window -1 s and limit -5) returns no
error, and the rule is installed under the path. -/
theorem addRule_accepts_bad_config :
    (limiter.AddRule limiter.NewRuleManager "/p" ⟨limiter.SlidingLog, ⟨0, 0⟩⟩).1 = none ∧
    limiter.GetRule
        (limiter.AddRule limiter.NewRuleManager "/p" ⟨limiter.SlidingLog, ⟨0, 0⟩⟩).2 "/p" =
      some ⟨limiter.SlidingLog, ⟨0, 0⟩⟩ ∧
    (limiter.AddRule limiter.NewRuleManager "/p"
        ⟨limiter.TokenBucket, ⟨-1000000000, -5⟩⟩).1 = none ∧
    limiter.GetRule
        (limiter.AddRule limiter.NewRuleManager "/p"
          ⟨limiter.TokenBucket, ⟨-1000000000, -5⟩⟩).2 "/p" =
      some ⟨limiter.TokenBucket, ⟨-1000000000, -5⟩⟩ := by
  refine ⟨?_, ?_, ?_, ?_⟩ <;> decide

/-- C13, amended: `AddRule` does not look at the configuration.  For every
path, every rule of a known algorithm and every window size and limit
(positive or not), `AddRule` returns no error and installs the rule for the
path. -/
theorem addRule_ignores_config (rm : limiter.RuleManager) (path : Key) (rule : limiter.Rule)
    (halg : rule.Algorithm = limiter.SlidingLog ∨ rule.Algorithm = limiter.SlidingWindow ∨
      rule.Algorithm = limiter.LeakyBucket ∨ rule.Algorithm = limiter.TokenBucket) :
    (limiter.AddRule rm path rule).1 = none ∧
      limiter.GetRule (limiter.AddRule rm path rule).2 path = some rule ∧
      (limiter.AddRule rm path rule).2.limiters path ≠ none := by
  obtain ⟨lim, hlim⟩ := (createLimiter_ok_iff rule).2 halg
  rw [addRule_of_ok rm path rule lim hlim]
  exact ⟨rfl, setKey_same _ _ _, by simp [setKey_same]⟩

/-- C13 amended, at a concrete input: a leaky-bucket rule of window 0 and
limit -1. -/
theorem addRule_ignores_config_witness :
    (limiter.AddRule limiter.NewRuleManager "/p" ⟨limiter.LeakyBucket, ⟨0, -1⟩⟩).1 = none ∧
      limiter.GetRule
          (limiter.AddRule limiter.NewRuleManager "/p" ⟨limiter.LeakyBucket, ⟨0, -1⟩⟩).2 "/p" =
        some ⟨limiter.LeakyBucket, ⟨0, -1⟩⟩ ∧
      (limiter.AddRule limiter.NewRuleManager "/p"
        ⟨limiter.LeakyBucket, ⟨0, -1⟩⟩).2.limiters "/p" ≠ none :=
  addRule_ignores_config limiter.NewRuleManager "/p" ⟨limiter.LeakyBucket, ⟨0, -1⟩⟩
    (Or.inr (Or.inr (Or.inl rfl)))

theorem createLimiter_error_iff (rule : limiter.Rule) :
    (∃ err, limiter.createLimiter rule = .error err) ↔
      ¬ (rule.Algorithm = limiter.SlidingLog ∨ rule.Algorithm = limiter.SlidingWindow ∨
        rule.Algorithm = limiter.LeakyBucket ∨ rule.Algorithm = limiter.TokenBucket) := by
  rw [← createLimiter_ok_iff]
  cases h : limiter.createLimiter rule with
  | error err => simp
  | ok lim => simp

/-- C14: `AddRule` returns an error exactly when the algorithm of the rule is
none of `sliding_log`, `sliding_window`, `leaky_bucket`, `token_bucket`, and
when it returns an error the manager (rules and limiters of every path) is the
one before the call. -/
theorem addRule_error_iff_unknown (rm : limiter.RuleManager) (path : Key)
    (rule : limiter.Rule) :
    ((limiter.AddRule rm path rule).1 ≠ none ↔
      ¬ (rule.Algorithm = limiter.SlidingLog ∨ rule.Algorithm = limiter.SlidingWindow ∨
        rule.Algorithm = limiter.LeakyBucket ∨ rule.Algorithm = limiter.TokenBucket)) ∧
    ((limiter.AddRule rm path rule).1 ≠ none → (limiter.AddRule rm path rule).2 = rm) := by
  rw [← createLimiter_error_iff]
  cases h : limiter.createLimiter rule with
  | error err =>
    rw [addRule_of_error rm path rule err h]
    exact ⟨⟨fun _ => ⟨err, rfl⟩, fun _ => by simp⟩, fun _ => rfl⟩
  | ok lim =>
    rw [addRule_of_ok rm path rule lim h]
    refine ⟨⟨fun hne => absurd rfl hne, ?_⟩, fun hne => absurd rfl hne⟩
    rintro ⟨err, herr⟩
    cases herr

/-- C14 at a concrete input: a rule of the unknown algorithm `fixed_window`
for a path that already has an exhausted policy. -/
theorem addRule_error_iff_unknown_witness :
    limiter.usedUp.rules "/p" = some ⟨limiter.SlidingWindow, ⟨1000000000, 1⟩⟩ ∧
    (limiter.AddRule limiter.usedUp "/p" ⟨"fixed_window", s3Config⟩).2 = limiter.usedUp :=
  ⟨rfl, (addRule_error_iff_unknown limiter.usedUp "/p" ⟨"fixed_window", s3Config⟩).2
    (by decide)⟩

theorem inSync_new : limiter.inSync limiter.NewRuleManager :=
  fun _ => ⟨fun _ => rfl, fun _ => rfl⟩

theorem inSync_addRule (rm : limiter.RuleManager) (path : Key) (rule : limiter.Rule)
    (h : limiter.inSync rm) : limiter.inSync (limiter.AddRule rm path rule).2 := by
  cases hc : limiter.createLimiter rule with
  | error err =>
    rw [addRule_of_error rm path rule err hc]
    exact h
  | ok lim =>
    rw [addRule_of_ok rm path rule lim hc]
    intro p
    by_cases hp : p = path
    · subst hp
      simp [setKey]
    · simpa [setKey, hp] using h p

theorem inSync_removeRule (rm : limiter.RuleManager) (path : Key)
    (h : limiter.inSync rm) : limiter.inSync (limiter.RemoveRule rm path) := by
  intro p
  cases hl : rm.limiters path with
  | none =>
    by_cases hp : p = path
    · subst hp
      simp [limiter.RemoveRule, hl, limiter.delKey]
    · simpa [limiter.RemoveRule, hl, limiter.delKey, hp] using h p
  | some lim =>
    by_cases hp : p = path
    · subst hp
      simp [limiter.RemoveRule, hl, limiter.delKey]
    · simpa [limiter.RemoveRule, hl, limiter.delKey, hp] using h p

theorem inSync_allow (rm rm' : limiter.RuleManager) (now : Time) (path key : Key)
    (v : Verdict) (h : limiter.inSync rm) (ha : limiter.Allow rm now path key = some (v, rm')) :
    limiter.inSync rm' := by
  cases hl : rm.limiters path with
  | none =>
    simp only [limiter.Allow, hl, Option.some.injEq, Prod.mk.injEq] at ha
    rw [← ha.2]
    exact h
  | some lim =>
    cases hv : lim.Allow now key with
    | none => simp [limiter.Allow, hl, hv] at ha
    | some q =>
      simp only [limiter.Allow, hl, hv, Option.some.injEq, Prod.mk.injEq] at ha
      rw [← ha.2]
      intro p
      by_cases hp : p = path
      · subst hp
        have := h p
        simp [setKey, hl] at this ⊢
        exact this
      · simpa [setKey, hp] using h p

theorem allow_of_no_limiter (rm : limiter.RuleManager) (now : Time) (path key : Key)
    (h : rm.limiters path = none) :
    limiter.Allow rm now path key = some ((true, 0), rm) := by
  simp only [limiter.Allow, h]

/-- C15: the manager fails open.  For every manager and every path without an
installed rule (no limiter under the path; for a manager whose rules and
limiters are in step, as after any `AddRule`, `RemoveRule` and `Allow` calls
on a new manager, no rule under the path), every call of `Allow` for the path
returns `(true, 0)` and leaves the manager as it was, however many calls are
made. -/
theorem allow_fail_open (rm : limiter.RuleManager) (path : Key)
    (h : rm.limiters path = none ∨ (limiter.inSync rm ∧ limiter.GetRule rm path = none))
    (calls : List (Key × Time)) :
    runCalls (fun s t k => limiter.Allow s t path k) rm calls =
      some (List.replicate calls.length (true, 0), rm) := by
  have hnone : rm.limiters path = none := by
    rcases h with h | ⟨hs, hg⟩
    · exact h
    · exact (hs path).1 hg
  induction calls with
  | nil => rfl
  | cons c cs ih =>
    obtain ⟨k, t⟩ := c
    exact runCalls_cons (fun s t k => limiter.Allow s t path k) rm rm rm k t cs (true, 0) _
      (allow_of_no_limiter rm t path k hnone) ih

/-- C15 at a concrete input: scenario S7, three requests for `/q` on a manager
whose only rule is for `/p`. -/
theorem allow_fail_open_witness :
    runCalls (fun s t k => limiter.Allow s t "/q" k) limiter.usedUp
        [("10.0.0.1", 0), ("10.0.0.1", 0), ("10.0.0.2", 5)] =
      some ([(true, 0), (true, 0), (true, 0)], limiter.usedUp) :=
  allow_fail_open limiter.usedUp "/q" (Or.inl rfl)
    [("10.0.0.1", 0), ("10.0.0.1", 0), ("10.0.0.2", 5)]

theorem delKey_same {V : Type} (m : Key → Option V) (k : Key) : limiter.delKey m k k = none := by
  simp [limiter.delKey]

theorem delKey_other {V : Type} (m : Key → Option V) (k k' : Key) (h : k' ≠ k) :
    limiter.delKey m k k' = m k' := by
  simp [limiter.delKey, h]

theorem delKey_absent {V : Type} (m : Key → Option V) (k : Key) (h : m k = none) :
    limiter.delKey m k = m := by
  funext k'
  by_cases hk : k' = k
  · subst hk
    rw [delKey_same, h]
  · exact delKey_other m k k' hk

theorem removeRule_rules (rm : limiter.RuleManager) (path : Key) :
    (limiter.RemoveRule rm path).rules = limiter.delKey rm.rules path := by
  cases hl : rm.limiters path <;> simp only [limiter.RemoveRule, hl]

/-- C16: the round trip of the rule manager.  After a successful
`AddRule(path, rule)`, `GetRule(path)` finds exactly that rule; after
`RemoveRule(path)`, `GetRule(path)` finds nothing; `RemoveRule` on a path with
neither rule nor limiter (on a manager in step: on a path where `GetRule`
finds nothing) returns the manager unchanged; and `AddRule` and `RemoveRule`
on one path leave what `GetRule` returns for every other path. -/
theorem rule_round_trip :
    (∀ (rm : limiter.RuleManager) (path : Key) (rule : limiter.Rule),
      (limiter.AddRule rm path rule).1 = none →
      limiter.GetRule (limiter.AddRule rm path rule).2 path = some rule) ∧
    (∀ (rm : limiter.RuleManager) (path : Key),
      limiter.GetRule (limiter.RemoveRule rm path) path = none) ∧
    (∀ (rm : limiter.RuleManager) (path : Key),
      (rm.rules path = none ∧ rm.limiters path = none) ∨
        (limiter.inSync rm ∧ limiter.GetRule rm path = none) →
      limiter.RemoveRule rm path = rm) ∧
    (∀ (rm : limiter.RuleManager) (path other : Key) (rule : limiter.Rule),
      other ≠ path →
      limiter.GetRule (limiter.AddRule rm path rule).2 other = limiter.GetRule rm other ∧
        limiter.GetRule (limiter.RemoveRule rm path) other = limiter.GetRule rm other) := by
  refine ⟨?_, ?_, ?_, ?_⟩
  · intro rm path rule hok
    cases hc : limiter.createLimiter rule with
    | error err =>
      rw [addRule_of_error rm path rule err hc] at hok
      cases hok
    | ok lim =>
      rw [addRule_of_ok rm path rule lim hc]
      exact setKey_same _ _ _
  · intro rm path
    rw [limiter.GetRule, removeRule_rules]
    exact delKey_same _ _
  · intro rm path h
    have hboth : rm.rules path = none ∧ rm.limiters path = none := by
      rcases h with h | ⟨hs, hg⟩
      · exact h
      · exact ⟨hg, (hs path).1 hg⟩
    obtain ⟨hr, hl⟩ := hboth
    cases rm with
    | mk rules limiters =>
      simp only at hr hl
      simp only [limiter.RemoveRule, hl, delKey_absent rules path hr]
  · intro rm path other rule hne
    refine ⟨?_, ?_⟩
    · cases hc : limiter.createLimiter rule with
      | error err => rw [addRule_of_error rm path rule err hc]
      | ok lim =>
        rw [addRule_of_ok rm path rule lim hc]
        exact setKey_other _ _ _ _ hne
    · rw [limiter.GetRule, removeRule_rules]
      exact delKey_other _ _ _ hne

/-- C16 at a concrete input: scenario S6, a token-bucket rule of window 1 s
and limit 5 added for `/p` on a new manager. -/
theorem rule_round_trip_witness :
    limiter.GetRule
        (limiter.AddRule limiter.NewRuleManager "/p" ⟨limiter.TokenBucket, s2Config⟩).2 "/p" =
      some ⟨limiter.TokenBucket, s2Config⟩ ∧
    limiter.RemoveRule limiter.NewRuleManager "/p" = limiter.NewRuleManager :=
  ⟨rule_round_trip.1 limiter.NewRuleManager "/p" ⟨limiter.TokenBucket, s2Config⟩ (by decide),
    rule_round_trip.2.2.1 limiter.NewRuleManager "/p" (Or.inl ⟨rfl, rfl⟩)⟩

theorem slidinglog_allow_new (cfg : Config) (hL : 1 ≤ cfg.Limit) (now : Time) (key : Key) :
    ∃ l', slidinglog.Allow (slidinglog.NewLimiter cfg) now key = some ((true, 0), l') := by
  rcases slidinglog_allow_cases (slidinglog.NewLimiter cfg) now key hL with
    ⟨_, l', h, _⟩ | ⟨hno, _⟩
  · exact ⟨l', h⟩
  · exfalso
    apply hno
    simp only [slidinglog.stamps, slidinglog.NewLimiter, Option.getD_none, List.map_nil,
      List.filter_nil, List.length_nil, Nat.cast_zero]
    linarith

/-- The first call on the limiter that `createLimiter` builds for a rule of
limit at least one is allowed with zero wait. -/
theorem createLimiter_first_call (rule : limiter.Rule) (lim : RateLimiter)
    (h : limiter.createLimiter rule = .ok lim) (hL : 1 ≤ rule.Config.Limit) (now : Time)
    (key : Key) : ∃ lim', lim.Allow now key = some ((true, 0), lim') := by
  unfold limiter.createLimiter at h
  split_ifs at h with h1 h2 h3 h4
  · cases h
    obtain ⟨l', hl'⟩ := slidinglog_allow_new rule.Config hL now key
    exact ⟨.slidingLog l', by simp only [RateLimiter.Allow, hl']⟩
  · cases h
    exact ⟨_, rfl⟩
  · cases h
    exact ⟨_, rfl⟩
  · cases h
    exact ⟨_, rfl⟩

/-- C17: replacing a rule destroys the state of the previous policy.  After a
successful `AddRule(path, rule)` with `limit ≥ 1` on any manager, the limiter
under the path is the one `createLimiter` has just built, and the next
`Allow(path, key)` returns `(true, 0)` for every key, whatever was stored for
the path before. -/
theorem addRule_resets_state (rm : limiter.RuleManager) (path : Key) (rule : limiter.Rule)
    (hok : (limiter.AddRule rm path rule).1 = none) (hL : 1 ≤ rule.Config.Limit)
    (now : Time) (key : Key) :
    (∃ lim, limiter.createLimiter rule = .ok lim ∧
      (limiter.AddRule rm path rule).2.limiters path = some lim) ∧
    ∃ rm', limiter.Allow (limiter.AddRule rm path rule).2 now path key =
      some ((true, 0), rm') := by
  cases hc : limiter.createLimiter rule with
  | error err =>
    rw [addRule_of_error rm path rule err hc] at hok
    cases hok
  | ok lim =>
    rw [addRule_of_ok rm path rule lim hc]
    obtain ⟨lim', hlim'⟩ := createLimiter_first_call rule lim hc hL now key
    refine ⟨⟨lim, rfl, setKey_same _ _ _⟩, ?_⟩
    have hA : limiter.Allow
        { rules := setKey rm.rules path rule, limiters := setKey rm.limiters path lim }
        now path key =
        some ((true, 0), { rules := setKey rm.rules path rule,
                           limiters := setKey (setKey rm.limiters path lim) path lim' }) := by
      simp only [limiter.Allow, setKey_same, hlim']
    exact ⟨_, hA⟩

/-- C17 at a concrete input: the exhausted policy of `/p` is replaced by a rule
of the same kind and limit, and the key `"k"` is allowed again at once. -/
theorem addRule_resets_state_witness :
    (limiter.Allow limiter.usedUp 0 "/p" "k").map Prod.fst = some (false, 1000000000) ∧
    ∃ rm', limiter.Allow
        (limiter.AddRule limiter.usedUp "/p" ⟨limiter.SlidingWindow, ⟨1000000000, 1⟩⟩).2
        0 "/p" "k" = some ((true, 0), rm') :=
  ⟨by decide,
    (addRule_resets_state limiter.usedUp "/p" ⟨limiter.SlidingWindow, ⟨1000000000, 1⟩⟩
      (by decide) (by decide) 0 "k").2⟩

/-! ## The gateway -/

theorem startsWith_iff (path p : String) :
    gateway.startsWith path p = true ↔ ∃ rest, path.data = p.data ++ rest := by
  unfold gateway.startsWith
  simp only [Bool.and_eq_true, decide_eq_true_eq, String.length]
  constructor
  · rintro ⟨_, h⟩
    refine ⟨path.data.drop p.data.length, ?_⟩
    conv_lhs => rw [← List.take_append_drop p.data.length path.data]
    rw [h]
  · rintro ⟨rest, h⟩
    rw [h]
    exact ⟨by simp, by simp⟩

/-- C18 as stated fails: with the upstreams `/api → X` and `/api/v2 → Y`
visited in this order, the request `/api/v2/foo` is forwarded to `X`, although
`/api/v2` starts the path too and is longer; visited in the other order the
same request goes to `Y`. -/
theorem handleProxy_not_longest :
    gateway.handleProxy [("/api", "X"), ("/api/v2", "Y")] "/api/v2/foo" =
      gateway.ProxyResult.forward "X" ∧
    gateway.startsWith "/api/v2/foo" "/api/v2" = true ∧
    "/api".length < "/api/v2".length ∧
    gateway.handleProxy [("/api/v2", "Y"), ("/api", "X")] "/api/v2/foo" =
      gateway.ProxyResult.forward "Y" := by
  refine ⟨?_, ?_, ?_, ?_⟩ <;> decide

/-- C18, amended: upstream selection is first match in the order of the map
visit.  For every order `targets` of the upstream entries and every request
path, `handleProxy` answers 404 exactly when no key starts the path;
otherwise it forwards to the target of the first visited entry whose key
starts the path, and when a single entry matches (as for `/api/v1/bar` with
the upstreams `/api` and `/api/v2`) that entry is chosen in every order. -/
theorem handleProxy_first_match (targets : List (String × String)) (path : String) :
    (gateway.handleProxy targets path = gateway.ProxyResult.notFound ↔
      ∀ e ∈ targets, ¬ ∃ rest, path.data = e.1.data ++ rest) ∧
    (∀ target, gateway.handleProxy targets path = gateway.ProxyResult.forward target →
      ∃ before e after, targets = before ++ e :: after ∧ e.2 = target ∧
        (∃ rest, path.data = e.1.data ++ rest) ∧
        ∀ e' ∈ before, ¬ ∃ rest, path.data = e'.1.data ++ rest) ∧
    (∀ e ∈ targets, (∃ rest, path.data = e.1.data ++ rest) →
      (∀ e' ∈ targets, (∃ rest, path.data = e'.1.data ++ rest) → e' = e) →
      gateway.handleProxy targets path = gateway.ProxyResult.forward e.2) := by
  induction targets with
  | nil =>
    refine ⟨⟨fun _ e he => absurd he (List.not_mem_nil e), fun _ => rfl⟩, ?_, ?_⟩
    · intro target h
      simp [gateway.handleProxy] at h
    · intro e he
      exact absurd he (List.not_mem_nil e)
  | cons x xs ih =>
    obtain ⟨ih1, ih2, ih3⟩ := ih
    by_cases hx : gateway.startsWith path x.1 = true
    · have hA : gateway.handleProxy (x :: xs) path = gateway.ProxyResult.forward x.2 := by
        simp only [gateway.handleProxy, List.find?_cons, hx]
      have hx' := (startsWith_iff path x.1).1 hx
      refine ⟨⟨?_, ?_⟩, ?_, ?_⟩
      · intro h
        rw [hA] at h
        cases h
      · intro h
        exact absurd hx' (h x (List.mem_cons_self _ _))
      · intro target h
        rw [hA] at h
        cases h
        exact ⟨[], x, xs, rfl, rfl, hx', fun e' he' => absurd he' (List.not_mem_nil e')⟩
      · intro e _ hm huniq
        rw [hA, huniq x (List.mem_cons_self _ _) hx']
    · have hxf : gateway.startsWith path x.1 = false := by
        simpa using hx
      have hA : gateway.handleProxy (x :: xs) path = gateway.handleProxy xs path := by
        simp only [gateway.handleProxy, List.find?_cons, hxf]
      have hx' : ¬ ∃ rest, path.data = x.1.data ++ rest :=
        fun h => hx ((startsWith_iff path x.1).2 h)
      rw [hA]
      refine ⟨⟨?_, ?_⟩, ?_, ?_⟩
      · intro h e he
        rcases List.mem_cons.1 he with rfl | he
        · exact hx'
        · exact ih1.1 h e he
      · intro h
        exact ih1.2 (fun e he => h e (List.mem_cons_of_mem _ he))
      · intro target h
        obtain ⟨before, e, after, ht, he, hm, hb⟩ := ih2 target h
        refine ⟨x :: before, e, after, by rw [ht]; rfl, he, hm, ?_⟩
        intro e' he'
        rcases List.mem_cons.1 he' with rfl | he'
        · exact hx'
        · exact hb e' he'
      · intro e he hm huniq
        rcases List.mem_cons.1 he with rfl | he
        · exact absurd hm hx'
        · exact ih3 e he hm (fun e' he' hm' => huniq e' (List.mem_cons_of_mem _ he') hm')

/-- C18 amended, at a concrete input: scenario S5, `/api/v1/bar` goes to `X` in
both orders of the two upstreams. -/
theorem handleProxy_first_match_witness :
    gateway.handleProxy [("/api", "X"), ("/api/v2", "Y")] "/api/v1/bar" =
      gateway.ProxyResult.forward "X" ∧
    gateway.handleProxy [("/api/v2", "Y"), ("/api", "X")] "/api/v1/bar" =
      gateway.ProxyResult.forward "X" :=
  ⟨(handleProxy_first_match [("/api", "X"), ("/api/v2", "Y")] "/api/v1/bar").2.2
      ("/api", "X") (by decide) ⟨"/v1/bar".data, by decide⟩
      (by
        intro e' he' hm
        rcases List.mem_cons.1 he' with rfl | he'
        · rfl
        · rcases List.mem_cons.1 he' with rfl | he'
          · exact absurd ((startsWith_iff "/api/v1/bar" "/api/v2").2 hm) (by decide)
          · exact absurd he' (List.not_mem_nil e')),
    (handleProxy_first_match [("/api/v2", "Y"), ("/api", "X")] "/api/v1/bar").2.2
      ("/api", "X") (by decide) ⟨"/v1/bar".data, by decide⟩
      (by
        intro e' he' hm
        rcases List.mem_cons.1 he' with rfl | he'
        · exact absurd ((startsWith_iff "/api/v1/bar" "/api/v2").2 hm) (by decide)
        · rcases List.mem_cons.1 he' with rfl | he'
          · rfl
          · exact absurd he' (List.not_mem_nil e'))⟩

/-- C19 fails on the code: the path `/administrator` does not begin with
`/admin/`, the rule installed for it is exhausted for the client `"k"` (an
`Allow` call for it is rejected), and yet the middleware passes the request on
without an admission check and leaves the manager untouched. -/
theorem admin_bypass_too_wide :
    gateway.startsWith "/administrator" "/admin/" = false ∧
    (limiter.Allow limiter.usedUpAdmin 0 "/administrator" "k").map Prod.fst =
      some (false, 1000000000) ∧
    gateway.rateLimitMiddleware limiter.usedUpAdmin 0 "/administrator" "k" =
      some (gateway.Outcome.next, limiter.usedUpAdmin) ∧
    (gateway.rateLimitMiddleware limiter.usedUp 0 "/p" "k").map Prod.fst =
      some (gateway.Outcome.tooManyRequests 1) := by
  refine ⟨by decide, by decide, rfl, ?_⟩
  have h : limiter.Allow limiter.usedUp 0 "/p" "k" =
      some ((false, 1000000000), { limiter.usedUp with
        limiters := setKey limiter.usedUp.limiters "/p" (.slidingWindow
          { windows := setKey (slidingwindow.NewLimiter ⟨1000000000, 1⟩).windows "k" ⟨1, 0⟩,
            config := ⟨1000000000, 1⟩ }) }) := rfl
  have hs : gateway.startsWith "/p" "/admin" = false := by decide
  simp only [gateway.rateLimitMiddleware, hs, h]
  have hd : toDuration (Seconds 1000000000) = 1 := by
    rw [Seconds_eq]
    exact toDuration_of_floor _ 1 (by norm_num) (by norm_num) (by norm_num)
  simp [hd]

/-- C20 fails on the code: `AddRule` accepts the sliding-log rule of window
1 s and limit 0, and the first `Allow` call on its path aborts, reading the
first element of an empty retained sequence. -/
theorem slidinglog_zero_limit_aborts :
    (limiter.AddRule limiter.NewRuleManager "/p"
      ⟨limiter.SlidingLog, ⟨1000000000, 0⟩⟩).1 = none ∧
    slidinglog.validLogs (0 + -1000000000)
      (((slidinglog.NewLimiter ⟨1000000000, 0⟩).logs "k").getD []) = [] ∧
    limiter.Allow
      (limiter.AddRule limiter.NewRuleManager "/p" ⟨limiter.SlidingLog, ⟨1000000000, 0⟩⟩).2
      0 "/p" "k" = none :=
  ⟨rfl, rfl, rfl⟩

/-! ## Invariants of runs of the bucket limiters -/

/-- A property kept by every call holds after every run. -/
theorem runAll_inv {S : Type} (step : S → Time → Key → Verdict × S) (P : S → Prop)
    (hstep : ∀ s t k, P s → P (step s t k).2) :
    ∀ (calls : List (Key × Time)) (s : S), P s → P (runAll step s calls).2 := by
  intro calls
  induction calls with
  | nil => intro s h; exact h
  | cons c cs ih =>
    obtain ⟨k, t⟩ := c
    intro s h
    rw [runAll_cons]
    exact ih _ (hstep s t k h)

theorem leakybucket_allow_fields (l : leakybucket.LeakyBucketLimiter) (now : Time) (key : Key) :
    (leakybucket.Allow l now key).2.rate = l.rate ∧
      (leakybucket.Allow l now key).2.capacity = l.capacity := by
  cases hb : l.buckets key with
  | none =>
    rw [leakybucket_allow_none l now key hb]
    exact ⟨rfl, rfl⟩
  | some b =>
    rw [leakybucket_allow_some l now key b hb]
    split_ifs
    · exact ⟨rfl, rfl⟩
    · exact ⟨rfl, rfl⟩

theorem tokenbucket_allow_fields (l : tokenbucket.TokenBucketLimiter) (now : Time) (key : Key) :
    (tokenbucket.Allow l now key).2.rate = l.rate ∧
      (tokenbucket.Allow l now key).2.capacity = l.capacity := by
  cases hb : l.buckets key with
  | none =>
    rw [tokenbucket_allow_none l now key hb]
    exact ⟨rfl, rfl⟩
  | some b =>
    rw [tokenbucket_allow_some l now key b hb]
    split_ifs
    · exact ⟨rfl, rfl⟩
    · exact ⟨rfl, rfl⟩

theorem leakybucket_run_fields (cfg : Config) (calls : List (Key × Time)) :
    (runAll leakybucket.Allow (leakybucket.NewLimiter cfg) calls).2.rate =
        (cfg.Limit : ℚ) / ((cfg.WindowSize : ℚ) / 1000000000) ∧
      (runAll leakybucket.Allow (leakybucket.NewLimiter cfg) calls).2.capacity =
        (cfg.Limit : ℚ) :=
  runAll_inv leakybucket.Allow
    (fun s => s.rate = (cfg.Limit : ℚ) / ((cfg.WindowSize : ℚ) / 1000000000) ∧
      s.capacity = (cfg.Limit : ℚ))
    (fun s t k h => ⟨(leakybucket_allow_fields s t k).1.trans h.1,
      (leakybucket_allow_fields s t k).2.trans h.2⟩)
    calls _ ⟨by simp only [leakybucket.NewLimiter, Seconds_eq], rfl⟩

theorem tokenbucket_run_fields (cfg : Config) (calls : List (Key × Time)) :
    (runAll tokenbucket.Allow (tokenbucket.NewLimiter cfg) calls).2.rate =
        (cfg.Limit : ℚ) / ((cfg.WindowSize : ℚ) / 1000000000) ∧
      (runAll tokenbucket.Allow (tokenbucket.NewLimiter cfg) calls).2.capacity =
        (cfg.Limit : ℚ) :=
  runAll_inv tokenbucket.Allow
    (fun s => s.rate = (cfg.Limit : ℚ) / ((cfg.WindowSize : ℚ) / 1000000000) ∧
      s.capacity = (cfg.Limit : ℚ))
    (fun s t k h => ⟨(tokenbucket_allow_fields s t k).1.trans h.1,
      (tokenbucket_allow_fields s t k).2.trans h.2⟩)
    calls _ ⟨by simp only [tokenbucket.NewLimiter, Seconds_eq], rfl⟩

/-! ## Leaky bucket and token bucket agree -/

theorem min_sub_eq_sub_max (c w x : ℚ) : Min.min c (c - w + x) = c - Max.max 0 (w - x) := by
  rcases le_total (w - x) 0 with h | h
  · rw [max_eq_left h, min_eq_left (by linarith)]
    ring
  · rw [max_eq_right h, min_eq_right (by linarith)]
    ring

theorem limitersRelated_new (cfg : Config) :
    limitersRelated (leakybucket.NewLimiter cfg) (tokenbucket.NewLimiter cfg) :=
  ⟨rfl, rfl, fun _ => trivial⟩

/-- One call keeps the correspondence and returns the same verdict in both
limiters. -/
theorem limitersRelated_step (l : leakybucket.LeakyBucketLimiter)
    (tk : tokenbucket.TokenBucketLimiter) (now : Time) (key : Key)
    (h : limitersRelated l tk) :
    (tokenbucket.Allow tk now key).1 = (leakybucket.Allow l now key).1 ∧
      limitersRelated (leakybucket.Allow l now key).2 (tokenbucket.Allow tk now key).2 := by
  obtain ⟨hrate, hcap, hrel⟩ := h
  have hk := hrel key
  cases hl : l.buckets key with
  | none =>
    cases ht : tk.buckets key with
    | some c =>
      rw [hl, ht] at hk
      exact absurd hk (by simp [bucketRelated])
    | none =>
      rw [leakybucket_allow_none l now key hl, tokenbucket_allow_none tk now key ht]
      refine ⟨rfl, hrate, hcap, ?_⟩
      intro k
      by_cases hkk : k = key
      · subst hkk
        simp only [setKey_same, bucketRelated, hcap, and_self]
      · simp only [setKey_other _ _ _ _ hkk]
        exact hrel k
  | some b =>
    cases ht : tk.buckets key with
    | none =>
      rw [hl, ht] at hk
      exact absurd hk (by simp [bucketRelated])
    | some c =>
      rw [hl, ht] at hk
      obtain ⟨htok, hlast⟩ := hk
      have hmin : Min.min tk.capacity
          (c.tokens + ((now - c.lastRefill : Int) : ℚ) / 1000000000 * tk.rate) =
          l.capacity - Max.max 0
            (b.water - ((now - b.lastLeakTime : Int) : ℚ) / 1000000000 * l.rate) := by
        rw [hcap, hrate, htok, hlast, min_sub_eq_sub_max]
      rw [leakybucket_allow_some l now key b hl, tokenbucket_allow_some tk now key c ht, hmin,
        hrate]
      by_cases hfull : Max.max 0
          (b.water - ((now - b.lastLeakTime : Int) : ℚ) / 1000000000 * l.rate) + 1 > l.capacity
      · have hlow : l.capacity - Max.max 0
            (b.water - ((now - b.lastLeakTime : Int) : ℚ) / 1000000000 * l.rate) < 1 := by
          linarith
        rw [if_pos hfull, if_pos hlow]
        refine ⟨?_, hrate, hcap, hrel⟩
        have hw : (1 - (l.capacity - Max.max 0
            (b.water - ((now - b.lastLeakTime : Int) : ℚ) / 1000000000 * l.rate))) / l.rate *
              1000000000 =
            (Max.max 0 (b.water - ((now - b.lastLeakTime : Int) : ℚ) / 1000000000 * l.rate) +
              1 - l.capacity) / l.rate * 1000000000 := by
          ring
        rw [hw]
      · have hlow : ¬ l.capacity - Max.max 0
            (b.water - ((now - b.lastLeakTime : Int) : ℚ) / 1000000000 * l.rate) < 1 := by
          intro hlt
          apply hfull
          linarith
        rw [if_neg hfull, if_neg hlow]
        refine ⟨rfl, rfl, hcap, ?_⟩
        intro k
        by_cases hkk : k = key
        · subst hkk
          simp only [setKey_same, bucketRelated, and_true]
          ring
        · simp only [setKey_other _ _ _ _ hkk]
          exact hrel k

theorem limitersRelated_run :
    ∀ (calls : List (Key × Time)) (l : leakybucket.LeakyBucketLimiter)
      (tk : tokenbucket.TokenBucketLimiter),
      limitersRelated l tk →
      (runAll tokenbucket.Allow tk calls).1 = (runAll leakybucket.Allow l calls).1 ∧
        limitersRelated (runAll leakybucket.Allow l calls).2
          (runAll tokenbucket.Allow tk calls).2 := by
  intro calls
  induction calls with
  | nil =>
    intro l tk h
    exact ⟨rfl, h⟩
  | cons c cs ih =>
    obtain ⟨k, t⟩ := c
    intro l tk h
    obtain ⟨h1, h2⟩ := limitersRelated_step l tk t k h
    obtain ⟨h3, h4⟩ := ih _ _ h2
    rw [runAll_cons, runAll_cons, h1, h3]
    exact ⟨rfl, h4⟩

/-- C23: leaky bucket and token bucket are observationally equivalent, in
exact arithmetic.  For every configuration and every sequence of `(key, time)`
calls, a fresh leaky-bucket limiter and a fresh token-bucket limiter return
the same verdict `(allowed, wait)` on every call, and after every call (after
every initial part of the sequence) the states of each key correspond:
`tokens = capacity - water` with equal last-update times. -/
theorem bucket_equivalence (cfg : Config) (calls : List (Key × Time)) :
    (runAll tokenbucket.Allow (tokenbucket.NewLimiter cfg) calls).1 =
      (runAll leakybucket.Allow (leakybucket.NewLimiter cfg) calls).1 ∧
    ∀ (n : Nat) (k : Key),
      bucketRelated (cfg.Limit : ℚ)
        ((runAll leakybucket.Allow (leakybucket.NewLimiter cfg) (calls.take n)).2.buckets k)
        ((runAll tokenbucket.Allow (tokenbucket.NewLimiter cfg) (calls.take n)).2.buckets k) := by
  refine ⟨(limitersRelated_run calls _ _ (limitersRelated_new cfg)).1, ?_⟩
  intro n k
  obtain ⟨_, _, _, hrel⟩ := limitersRelated_run (calls.take n) _ _ (limitersRelated_new cfg)
  rw [← (leakybucket_run_fields cfg (calls.take n)).2]
  exact hrel k

/-! ## The level and the last-update time of a bucket -/

/-- What one leaky-bucket call does to the state of a key `k`: it stays, or the
call was allowed for `k` and the state becomes a level in `[1, capacity]` at
the instant of the call. -/
theorem leakybucket_step_key (l : leakybucket.LeakyBucketLimiter) (now : Time) (key k : Key) :
    (leakybucket.Allow l now key).2.buckets k = l.buckets k ∨
      ∃ w, (leakybucket.Allow l now key).2.buckets k = some ⟨w, now⟩ ∧
        (1 ≤ l.capacity → 1 ≤ w ∧ w ≤ l.capacity) := by
  by_cases hk : k = key
  · subst hk
    cases hb : l.buckets k with
    | none =>
      rw [leakybucket_allow_none l now k hb]
      exact Or.inr ⟨1, setKey_same _ _ _, fun hcap => ⟨le_refl 1, hcap⟩⟩
    | some b =>
      rw [leakybucket_allow_some l now k b hb]
      by_cases hfull : Max.max 0
          (b.water - ((now - b.lastLeakTime : Int) : ℚ) / 1000000000 * l.rate) + 1 > l.capacity
      · rw [if_pos hfull]
        exact Or.inl hb
      · rw [if_neg hfull]
        refine Or.inr ⟨_, setKey_same _ _ _, fun _ => ⟨?_, not_lt.1 hfull⟩⟩
        have := le_max_left (0 : ℚ)
          (b.water - ((now - b.lastLeakTime : Int) : ℚ) / 1000000000 * l.rate)
        linarith
  · left
    cases hb : l.buckets key with
    | none =>
      rw [leakybucket_allow_none l now key hb]
      exact setKey_other _ _ _ _ hk
    | some b =>
      rw [leakybucket_allow_some l now key b hb]
      split_ifs
      · rfl
      · exact setKey_other _ _ _ _ hk

/-- What one token-bucket call does to the state of a key `k`: it stays, or the
call was allowed for `k` and the state becomes a level in `[0, capacity - 1]`
at the instant of the call. -/
theorem tokenbucket_step_key (l : tokenbucket.TokenBucketLimiter) (now : Time) (key k : Key) :
    (tokenbucket.Allow l now key).2.buckets k = l.buckets k ∨
      ∃ w, (tokenbucket.Allow l now key).2.buckets k = some ⟨w, now⟩ ∧
        (1 ≤ l.capacity → 0 ≤ w ∧ w ≤ l.capacity - 1) := by
  by_cases hk : k = key
  · subst hk
    cases hb : l.buckets k with
    | none =>
      rw [tokenbucket_allow_none l now k hb]
      exact Or.inr ⟨l.capacity - 1, setKey_same _ _ _, fun hcap => ⟨by linarith, le_refl _⟩⟩
    | some b =>
      rw [tokenbucket_allow_some l now k b hb]
      by_cases hlow : Min.min l.capacity
          (b.tokens + ((now - b.lastRefill : Int) : ℚ) / 1000000000 * l.rate) < 1
      · rw [if_pos hlow]
        exact Or.inl hb
      · rw [if_neg hlow]
        refine Or.inr ⟨_, setKey_same _ _ _, fun _ => ⟨by linarith [not_lt.1 hlow], ?_⟩⟩
        have := min_le_left l.capacity
          (b.tokens + ((now - b.lastRefill : Int) : ℚ) / 1000000000 * l.rate)
        linarith
  · left
    cases hb : l.buckets key with
    | none =>
      rw [tokenbucket_allow_none l now key hb]
      exact setKey_other _ _ _ _ hk
    | some b =>
      rw [tokenbucket_allow_some l now key b hb]
      split_ifs
      · rfl
      · exact setKey_other _ _ _ _ hk

theorem leakybucket_run_level (cfg : Config) (hL : 1 ≤ cfg.Limit) (calls : List (Key × Time))
    (k : Key) (b : leakybucket.bucket)
    (h : (runAll leakybucket.Allow (leakybucket.NewLimiter cfg) calls).2.buckets k = some b) :
    0 ≤ b.water ∧ b.water ≤ (cfg.Limit : ℚ) := by
  have hLq : (1 : ℚ) ≤ (cfg.Limit : ℚ) := by exact_mod_cast hL
  have := runAll_inv leakybucket.Allow
    (fun s => s.capacity = (cfg.Limit : ℚ) ∧
      ∀ k b, s.buckets k = some b → 0 ≤ b.water ∧ b.water ≤ (cfg.Limit : ℚ))
    (by
      intro s t key ⟨hc, hs⟩
      refine ⟨(leakybucket_allow_fields s t key).2.trans hc, ?_⟩
      intro k b hb
      rcases leakybucket_step_key s t key k with h | ⟨w, h, hw⟩
      · rw [h] at hb
        exact hs k b hb
      · obtain ⟨h1, h2⟩ := hw (by rw [hc]; exact hLq)
        rw [h] at hb
        cases hb
        rw [hc] at h2
        exact ⟨by linarith, h2⟩)
    calls (leakybucket.NewLimiter cfg)
    ⟨rfl, fun k b hb => by simp [leakybucket.NewLimiter] at hb⟩
  exact this.2 k b h

theorem tokenbucket_run_level (cfg : Config) (hL : 1 ≤ cfg.Limit) (calls : List (Key × Time))
    (k : Key) (b : tokenbucket.bucket)
    (h : (runAll tokenbucket.Allow (tokenbucket.NewLimiter cfg) calls).2.buckets k = some b) :
    0 ≤ b.tokens ∧ b.tokens ≤ (cfg.Limit : ℚ) := by
  have hLq : (1 : ℚ) ≤ (cfg.Limit : ℚ) := by exact_mod_cast hL
  have := runAll_inv tokenbucket.Allow
    (fun s => s.capacity = (cfg.Limit : ℚ) ∧
      ∀ k b, s.buckets k = some b → 0 ≤ b.tokens ∧ b.tokens ≤ (cfg.Limit : ℚ))
    (by
      intro s t key ⟨hc, hs⟩
      refine ⟨(tokenbucket_allow_fields s t key).2.trans hc, ?_⟩
      intro k b hb
      rcases tokenbucket_step_key s t key k with h | ⟨w, h, hw⟩
      · rw [h] at hb
        exact hs k b hb
      · obtain ⟨h1, h2⟩ := hw (by rw [hc]; exact hLq)
        rw [h] at hb
        cases hb
        rw [hc] at h2
        exact ⟨h1, by linarith⟩)
    calls (tokenbucket.NewLimiter cfg)
    ⟨rfl, fun k b hb => by simp [tokenbucket.NewLimiter] at hb⟩
  exact this.2 k b h

/-- Along a run whose instants are all at most `hi`, every stored
last-update time is at most `hi`. -/
theorem run_last_upper {S : Type} (step : S → Time → Key → Verdict × S)
    (lastOf : S → Key → Option Time)
    (hstep : ∀ s t key k, lastOf (step s t key).2 k = lastOf s k ∨
      lastOf (step s t key).2 k = some t) (hi : Time) :
    ∀ (calls : List (Key × Time)) (s : S),
      (∀ k x, lastOf s k = some x → x ≤ hi) → (∀ c ∈ calls, c.2 ≤ hi) →
      ∀ k x, lastOf (runAll step s calls).2 k = some x → x ≤ hi := by
  intro calls
  induction calls with
  | nil => intro s hs _ k x hx; exact hs k x hx
  | cons c cs ih =>
    obtain ⟨key, t⟩ := c
    intro s hs hc k x hx
    rw [runAll_cons] at hx
    refine ih (step s t key).2 ?_ (fun c h => hc c (List.mem_cons_of_mem _ h)) k x hx
    intro k' y hy
    rcases hstep s t key k' with h | h
    · rw [h] at hy
      exact hs k' y hy
    · rw [h] at hy
      cases hy
      exact hc (key, t) (List.mem_cons_self _ _)

/-- Along a run whose instants are all at least `m`, a stored last-update time
that is at least `m` stays stored and at least `m`. -/
theorem run_last_lower {S : Type} (step : S → Time → Key → Verdict × S)
    (lastOf : S → Key → Option Time)
    (hstep : ∀ s t key k, lastOf (step s t key).2 k = lastOf s k ∨
      lastOf (step s t key).2 k = some t) (k : Key) (m : Time) :
    ∀ (calls : List (Key × Time)) (s : S) (x : Time),
      lastOf s k = some x → m ≤ x → (∀ c ∈ calls, m ≤ c.2) →
      ∃ y, lastOf (runAll step s calls).2 k = some y ∧ m ≤ y := by
  intro calls
  induction calls with
  | nil => intro s x hx hm _; exact ⟨x, hx, hm⟩
  | cons c cs ih =>
    obtain ⟨key, t⟩ := c
    intro s x hx hm hc
    rw [runAll_cons]
    rcases hstep s t key k with h | h
    · exact ih (step s t key).2 x (h.trans hx) hm (fun c h => hc c (List.mem_cons_of_mem _ h))
    · exact ih (step s t key).2 t h (hc (key, t) (List.mem_cons_self _ _))
        (fun c h => hc c (List.mem_cons_of_mem _ h))

/-- Under a non-decreasing clock the stored last-update time of a key never
decreases: what is stored after `xs` is at most what is stored after
`xs ++ ys`. -/
theorem run_last_mono {S : Type} (step : S → Time → Key → Verdict × S)
    (lastOf : S → Key → Option Time)
    (hstep : ∀ s t key k, lastOf (step s t key).2 k = lastOf s k ∨
      lastOf (step s t key).2 k = some t)
    (s0 : S) (h0 : ∀ k, lastOf s0 k = none) (xs ys : List (Key × Time))
    (hsorted : ((xs ++ ys).map Prod.snd).Pairwise (· ≤ ·)) (k : Key) (x : Time)
    (hx : lastOf (runAll step s0 xs).2 k = some x) :
    ∃ y, lastOf (runAll step s0 (xs ++ ys)).2 k = some y ∧ x ≤ y := by
  rw [runAll_append]
  rw [List.map_append, List.pairwise_append] at hsorted
  obtain ⟨_, hys, hcross⟩ := hsorted
  cases ys with
  | nil => exact ⟨x, hx, le_refl x⟩
  | cons y ys =>
    have hxy : x ≤ y.2 :=
      run_last_upper step lastOf hstep y.2 xs s0
        (fun k z hz => by rw [h0 k] at hz; cases hz)
        (fun c hc => hcross c.2 (List.mem_map_of_mem Prod.snd hc) y.2
          (List.mem_map_of_mem Prod.snd (List.mem_cons_self _ _)))
        k x hx
    rw [List.map_cons, List.pairwise_cons] at hys
    refine run_last_lower step lastOf hstep k x (y :: ys) _ x hx (le_refl x) ?_
    intro c hc
    rcases List.mem_cons.1 hc with rfl | hc
    · exact hxy
    · exact le_trans hxy (hys.1 c.2 (List.mem_map_of_mem Prod.snd hc))

theorem leakybucket_lastOf_step (l : leakybucket.LeakyBucketLimiter) (now : Time)
    (key k : Key) :
    leakybucket.lastOf (leakybucket.Allow l now key).2 k = leakybucket.lastOf l k ∨
      leakybucket.lastOf (leakybucket.Allow l now key).2 k = some now := by
  rcases leakybucket_step_key l now key k with h | ⟨w, h, _⟩
  · exact Or.inl (by rw [leakybucket.lastOf, h, leakybucket.lastOf])
  · exact Or.inr (by rw [leakybucket.lastOf, h]; rfl)

theorem tokenbucket_lastOf_step (l : tokenbucket.TokenBucketLimiter) (now : Time)
    (key k : Key) :
    tokenbucket.lastOf (tokenbucket.Allow l now key).2 k = tokenbucket.lastOf l k ∨
      tokenbucket.lastOf (tokenbucket.Allow l now key).2 k = some now := by
  rcases tokenbucket_step_key l now key k with h | ⟨w, h, _⟩
  · exact Or.inl (by rw [tokenbucket.lastOf, h, tokenbucket.lastOf])
  · exact Or.inr (by rw [tokenbucket.lastOf, h]; rfl)

/-- C22: the bucket level invariant.  For a limit `L ≥ 1` and every sequence
of `Allow` calls on a fresh limiter, the stored level of every key satisfies
`0 ≤ water ≤ capacity` (leaky bucket) and `0 ≤ tokens ≤ capacity` (token
bucket), the capacity being `L`; and when the instants of the calls are
non-decreasing, the last-leak and last-refill time stored for a key after any
initial part `xs` of the sequence is at most the one stored after any longer
part `xs ++ ys`. -/
theorem bucket_level_invariant (cfg : Config) (hL : 1 ≤ cfg.Limit) :
    (∀ (calls : List (Key × Time)) (k : Key) (b : leakybucket.bucket),
      (runAll leakybucket.Allow (leakybucket.NewLimiter cfg) calls).2.buckets k = some b →
      0 ≤ b.water ∧
        b.water ≤ (runAll leakybucket.Allow (leakybucket.NewLimiter cfg) calls).2.capacity ∧
        (runAll leakybucket.Allow (leakybucket.NewLimiter cfg) calls).2.capacity =
          (cfg.Limit : ℚ)) ∧
    (∀ (calls : List (Key × Time)) (k : Key) (b : tokenbucket.bucket),
      (runAll tokenbucket.Allow (tokenbucket.NewLimiter cfg) calls).2.buckets k = some b →
      0 ≤ b.tokens ∧
        b.tokens ≤ (runAll tokenbucket.Allow (tokenbucket.NewLimiter cfg) calls).2.capacity ∧
        (runAll tokenbucket.Allow (tokenbucket.NewLimiter cfg) calls).2.capacity =
          (cfg.Limit : ℚ)) ∧
    (∀ (xs ys : List (Key × Time)) (k : Key) (b : leakybucket.bucket),
      ((xs ++ ys).map Prod.snd).Pairwise (· ≤ ·) →
      (runAll leakybucket.Allow (leakybucket.NewLimiter cfg) xs).2.buckets k = some b →
      ∃ b', (runAll leakybucket.Allow (leakybucket.NewLimiter cfg) (xs ++ ys)).2.buckets k =
          some b' ∧ b.lastLeakTime ≤ b'.lastLeakTime) ∧
    (∀ (xs ys : List (Key × Time)) (k : Key) (b : tokenbucket.bucket),
      ((xs ++ ys).map Prod.snd).Pairwise (· ≤ ·) →
      (runAll tokenbucket.Allow (tokenbucket.NewLimiter cfg) xs).2.buckets k = some b →
      ∃ b', (runAll tokenbucket.Allow (tokenbucket.NewLimiter cfg) (xs ++ ys)).2.buckets k =
          some b' ∧ b.lastRefill ≤ b'.lastRefill) := by
  refine ⟨?_, ?_, ?_, ?_⟩
  · intro calls k b h
    obtain ⟨h1, h2⟩ := leakybucket_run_level cfg hL calls k b h
    have hc := (leakybucket_run_fields cfg calls).2
    exact ⟨h1, by rw [hc]; exact h2, hc⟩
  · intro calls k b h
    obtain ⟨h1, h2⟩ := tokenbucket_run_level cfg hL calls k b h
    have hc := (tokenbucket_run_fields cfg calls).2
    exact ⟨h1, by rw [hc]; exact h2, hc⟩
  · intro xs ys k b hsorted h
    obtain ⟨y, hy, hle⟩ := run_last_mono leakybucket.Allow leakybucket.lastOf
      leakybucket_lastOf_step (leakybucket.NewLimiter cfg) (fun _ => rfl) xs ys hsorted k
      b.lastLeakTime (by rw [leakybucket.lastOf, h]; rfl)
    cases hb : (runAll leakybucket.Allow (leakybucket.NewLimiter cfg) (xs ++ ys)).2.buckets k with
    | none => simp [leakybucket.lastOf, hb] at hy
    | some b' =>
      refine ⟨b', rfl, ?_⟩
      simp only [leakybucket.lastOf, hb, Option.map_some', Option.some.injEq] at hy
      rw [hy]
      exact hle
  · intro xs ys k b hsorted h
    obtain ⟨y, hy, hle⟩ := run_last_mono tokenbucket.Allow tokenbucket.lastOf
      tokenbucket_lastOf_step (tokenbucket.NewLimiter cfg) (fun _ => rfl) xs ys hsorted k
      b.lastRefill (by rw [tokenbucket.lastOf, h]; rfl)
    cases hb : (runAll tokenbucket.Allow (tokenbucket.NewLimiter cfg) (xs ++ ys)).2.buckets k with
    | none => simp [tokenbucket.lastOf, hb] at hy
    | some b' =>
      refine ⟨b', rfl, ?_⟩
      simp only [tokenbucket.lastOf, hb, Option.map_some', Option.some.injEq] at hy
      rw [hy]
      exact hle

/-- C22 at a concrete input: the buckets of scenario S3 after three calls at
the instant zero hold the levels 3 (water) and 0 (tokens). -/
theorem bucket_level_invariant_witness :
    ((0 : ℚ) ≤ 3 ∧ (3 : ℚ) ≤ leakybucket.s3Full.capacity ∧
      leakybucket.s3Full.capacity = (s3Config.Limit : ℚ)) ∧
    ((0 : ℚ) ≤ 0 ∧ (0 : ℚ) ≤ tokenbucket.s3Empty.capacity ∧
      tokenbucket.s3Empty.capacity = (s3Config.Limit : ℚ)) :=
  ⟨(bucket_level_invariant s3Config (by decide)).1 s3Burst "k" ⟨3, 0⟩
      leakybucket_s3Full_spec.2.2,
    (bucket_level_invariant s3Config (by decide)).2.1 s3Burst "k" ⟨0, 0⟩
      tokenbucket_s3Empty_spec.2.2⟩

/-! ## The rate bound of the token bucket -/

theorem allowedTimes_cons (k k' : Key) (t : Time) (cs : List (Key × Time)) (v : Verdict)
    (rs : List Verdict) :
    allowedTimes k ((k', t) :: cs) (v :: rs) =
      if k' = k ∧ v.1 = true then t :: allowedTimes k cs rs else allowedTimes k cs rs := by
  cases v
  rfl

theorem tokenbucket_allow_other (l : tokenbucket.TokenBucketLimiter) (now : Time)
    (key k : Key) (hk : k ≠ key) :
    (tokenbucket.Allow l now key).2.buckets k = l.buckets k := by
  cases hb : l.buckets key with
  | none =>
    rw [tokenbucket_allow_none l now key hb]
    exact setKey_other _ _ _ _ hk
  | some b =>
    rw [tokenbucket_allow_some l now key b hb]
    split_ifs
    · rfl
    · exact setKey_other _ _ _ _ hk

/-- A token-bucket call for `k` is rejected and keeps the limiter, or it is
allowed and stores for `k` a level `w ≤ capacity - 1` at the instant of the
call; from an earlier state `(tok, last)` the level is non-negative and at most
the refill less the token taken. -/
theorem tokenbucket_step_self (s : tokenbucket.TokenBucketLimiter) (t : Time) (k : Key) :
    ((tokenbucket.Allow s t k).1.1 = false ∧ (tokenbucket.Allow s t k).2 = s) ∨
    ((tokenbucket.Allow s t k).1.1 = true ∧
      ∃ w, (tokenbucket.Allow s t k).2.buckets k = some ⟨w, t⟩ ∧ w ≤ s.capacity - 1 ∧
        ∀ tok last, s.buckets k = some ⟨tok, last⟩ →
          0 ≤ w ∧ w ≤ tok + ((t - last : Int) : ℚ) / 1000000000 * s.rate - 1) := by
  cases hb : s.buckets k with
  | none =>
    rw [tokenbucket_allow_none s t k hb]
    exact Or.inr ⟨rfl, s.capacity - 1, setKey_same _ _ _, le_refl _,
      fun tok last h => by cases h⟩
  | some b =>
    rw [tokenbucket_allow_some s t k b hb]
    by_cases hlow : Min.min s.capacity
        (b.tokens + ((t - b.lastRefill : Int) : ℚ) / 1000000000 * s.rate) < 1
    · rw [if_pos hlow]
      exact Or.inl ⟨rfl, rfl⟩
    · rw [if_neg hlow]
      refine Or.inr ⟨rfl, _, setKey_same _ _ _, ?_, ?_⟩
      · have := min_le_left s.capacity
          (b.tokens + ((t - b.lastRefill : Int) : ℚ) / 1000000000 * s.rate)
        linarith
      · intro tok last h
        have hb' : b = ⟨tok, last⟩ := Option.some.inj h
        subst hb'
        have := min_le_right s.capacity
          (tok + ((t - last : Int) : ℚ) / 1000000000 * s.rate)
        exact ⟨by linarith [not_lt.1 hlow], by linarith⟩

/-- From a stored state `(tok, last)` of the key, the calls allowed for the
key at instants up to `b` are at most `tok + (b - last) * rate`, or none. -/
theorem tokenbucket_count_upto (k : Key) (b : Time) :
    ∀ (calls : List (Key × Time)) (s : tokenbucket.TokenBucketLimiter) (tok : ℚ) (last : Time),
      s.buckets k = some ⟨tok, last⟩ → 0 ≤ s.rate →
      (((allowedTimes k calls (runAll tokenbucket.Allow s calls).1).filter
        (fun t => decide (t ≤ b))).length : ℚ) ≤
        Max.max 0 (tok + ((b - last : Int) : ℚ) / 1000000000 * s.rate) := by
  intro calls
  induction calls with
  | nil =>
    intro s tok last _ _
    simp [runAll, allowedTimes]
  | cons c cs ih =>
    obtain ⟨key, t⟩ := c
    intro s tok last hb hr
    rw [runAll_cons, allowedTimes_cons]
    have hrate := (tokenbucket_allow_fields s t key).1
    by_cases hk : key = k
    · subst hk
      rcases tokenbucket_step_self s t key with ⟨hv, hs⟩ | ⟨hv, w, hw, _, hwb⟩
      · rw [if_neg (by rw [hv]; simp), hs]
        exact ih s tok last hb hr
      · obtain ⟨hw0, hwt⟩ := hwb tok last hb
        have hrest := ih (tokenbucket.Allow s t key).2 w t hw (by rw [hrate]; exact hr)
        rw [hrate] at hrest
        rw [if_pos ⟨rfl, hv⟩, List.filter_cons]
        push_cast at hwt hrest ⊢
        by_cases htb : t ≤ b
        · have htq : (t : ℚ) ≤ (b : ℚ) := by exact_mod_cast htb
          have hx : 0 ≤ w + ((b : ℚ) - (t : ℚ)) / 1000000000 * s.rate :=
            add_nonneg hw0 (mul_nonneg (div_nonneg (by linarith) (by norm_num)) hr)
          rw [max_eq_right hx] at hrest
          simp only [htb, decide_True, if_true, List.length_cons]
          push_cast
          refine le_trans ?_ (le_max_right _ _)
          linarith
        · simp only [htb, decide_False, if_false]
          refine le_trans hrest (max_le_max (le_refl 0) ?_)
          have htq : (b : ℚ) < (t : ℚ) := by exact_mod_cast lt_of_not_ge htb
          linarith
    · rw [if_neg (fun h => hk h.1)]
      have hb' : (tokenbucket.Allow s t key).2.buckets k = some ⟨tok, last⟩ := by
        rw [tokenbucket_allow_other s t key k (Ne.symm hk)]
        exact hb
      have := ih (tokenbucket.Allow s t key).2 tok last hb' (by rw [hrate]; exact hr)
      rw [hrate] at this
      exact this

theorem length_filter_inClosed_le (a b : Time) (xs : List Time) :
    (xs.filter (inClosed a b)).length ≤ (xs.filter (fun t => decide (t ≤ b))).length := by
  induction xs with
  | nil => simp
  | cons x xs ih =>
    by_cases h1 : inClosed a b x = true
    · have h2 : x ≤ b := by
        simp only [inClosed, Bool.and_eq_true, decide_eq_true_eq] at h1
        exact h1.2
      simp only [List.filter_cons, h1, h2, decide_True, if_true, List.length_cons]
      omega
    · by_cases h2 : x ≤ b
      · simp only [List.filter_cons, h1, h2, decide_True, if_true, List.length_cons]
        simp only [Bool.false_eq_true, if_false]
        omega
      · simp only [List.filter_cons, h1, h2, decide_False]
        simpa using ih

/-- From any state of a token-bucket limiter of capacity `L ≥ 1` and rate
`r ≥ 0` per second, the calls allowed for a key at instants in `[a, b]` are at
most `L + (b - a) * r`. -/
theorem tokenbucket_count_interval (k : Key) (a b : Time) (hab : a ≤ b) (L r : ℚ)
    (hL : 1 ≤ L) (hr : 0 ≤ r) :
    ∀ (calls : List (Key × Time)) (s : tokenbucket.TokenBucketLimiter),
      s.capacity = L → s.rate = r →
      (((allowedTimes k calls (runAll tokenbucket.Allow s calls).1).filter
        (inClosed a b)).length : ℚ) ≤ L + ((b - a : Int) : ℚ) / 1000000000 * r := by
  have habq : (a : ℚ) ≤ (b : ℚ) := by exact_mod_cast hab
  have hwidth : 0 ≤ ((b - a : Int) : ℚ) / 1000000000 * r := by
    push_cast
    exact mul_nonneg (div_nonneg (by linarith) (by norm_num)) hr
  intro calls
  induction calls with
  | nil =>
    intro s _ _
    simp only [runAll, allowedTimes, List.filter_nil, List.length_nil, Nat.cast_zero]
    linarith
  | cons c cs ih =>
    obtain ⟨key, t⟩ := c
    intro s hcap hrate
    rw [runAll_cons, allowedTimes_cons]
    obtain ⟨hrate', hcap'⟩ := tokenbucket_allow_fields s t key
    have hnext := ih (tokenbucket.Allow s t key).2 (hcap'.trans hcap) (hrate'.trans hrate)
    by_cases hin : (key = k ∧ (tokenbucket.Allow s t key).1.1 = true) ∧ inClosed a b t = true
    · obtain ⟨⟨hk, hv⟩, hin⟩ := hin
      subst hk
      rcases tokenbucket_step_self s t key with ⟨hv', _⟩ | ⟨_, w, hw, hwc, _⟩
      · rw [hv'] at hv
        cases hv
      · have hupto := tokenbucket_count_upto key b cs (tokenbucket.Allow s t key).2 w t hw
          (by rw [hrate', hrate]; exact hr)
        rw [hrate', hrate] at hupto
        rw [hcap] at hwc
        have hle := length_filter_inClosed_le a b
          (allowedTimes key cs (runAll tokenbucket.Allow (tokenbucket.Allow s t key).2 cs).1)
        have hleq : (((allowedTimes key cs
            (runAll tokenbucket.Allow (tokenbucket.Allow s t key).2 cs).1).filter
              (inClosed a b)).length : ℚ) ≤
            (((allowedTimes key cs
              (runAll tokenbucket.Allow (tokenbucket.Allow s t key).2 cs).1).filter
                (fun t => decide (t ≤ b))).length : ℚ) := by
          exact_mod_cast hle
        have hta : (a : ℚ) ≤ (t : ℚ) ∧ (t : ℚ) ≤ (b : ℚ) := by
          simp only [inClosed, Bool.and_eq_true, decide_eq_true_eq] at hin
          exact ⟨by exact_mod_cast hin.1, by exact_mod_cast hin.2⟩
        have hgap : ((b - t : Int) : ℚ) / 1000000000 * r ≤
            ((b - a : Int) : ℚ) / 1000000000 * r := by
          push_cast
          exact mul_le_mul_of_nonneg_right
            (div_le_div_of_nonneg_right (by linarith [hta.1]) (by norm_num)) hr
        rw [if_pos ⟨rfl, hv⟩, List.filter_cons, if_pos hin, List.length_cons]
        have hwidth' := hwidth
        push_cast at hwidth' hgap hupto ⊢
        rcases le_total (w + ((b : ℚ) - (t : ℚ)) / 1000000000 * r) 0 with hneg | hpos
        · rw [max_eq_left hneg] at hupto
          linarith
        · rw [max_eq_right hpos] at hupto
          linarith
    · by_cases hkv : key = k ∧ (tokenbucket.Allow s t key).1.1 = true
      · have hout : ¬ inClosed a b t = true := fun h => hin ⟨hkv, h⟩
        rw [if_pos hkv, List.filter_cons, if_neg hout]
        exact hnext
      · rw [if_neg hkv]
        exact hnext

/-- C21: the rate bound of the token bucket, in exact arithmetic.  For a
limit `L ≥ 1`, a window `W > 0`, every sequence of `Allow` calls on a fresh
limiter, every key and every interval `[a, b]` with `a ≤ b`, the number of
calls allowed for the key at instants in `[a, b]` is at most
`L + (b - a) * L / W`.  The instants need not be non-decreasing. -/
theorem tokenbucket_rate_bound (cfg : Config) (hL : 1 ≤ cfg.Limit) (hW : 0 < cfg.WindowSize)
    (calls : List (Key × Time)) (k : Key) (a b : Time) (hab : a ≤ b) :
    (((allowedTimes k calls
        (runAll tokenbucket.Allow (tokenbucket.NewLimiter cfg) calls).1).filter
      (inClosed a b)).length : ℚ) ≤
      (cfg.Limit : ℚ) + ((b : ℚ) - (a : ℚ)) * (cfg.Limit : ℚ) / (cfg.WindowSize : ℚ) := by
  have hLq : (1 : ℚ) ≤ (cfg.Limit : ℚ) := by exact_mod_cast hL
  have hWq : (0 : ℚ) < (cfg.WindowSize : ℚ) := by exact_mod_cast hW
  have hr : (0 : ℚ) ≤ (cfg.Limit : ℚ) / ((cfg.WindowSize : ℚ) / 1000000000) :=
    div_nonneg (by linarith) (div_nonneg (le_of_lt hWq) (by norm_num))
  have h := tokenbucket_count_interval k a b hab (cfg.Limit : ℚ)
    ((cfg.Limit : ℚ) / ((cfg.WindowSize : ℚ) / 1000000000)) hLq hr calls
    (tokenbucket.NewLimiter cfg) rfl (by simp only [tokenbucket.NewLimiter, Seconds_eq])
  have heq : ((b - a : Int) : ℚ) / 1000000000 *
      ((cfg.Limit : ℚ) / ((cfg.WindowSize : ℚ) / 1000000000)) =
      ((b : ℚ) - (a : ℚ)) * (cfg.Limit : ℚ) / (cfg.WindowSize : ℚ) := by
    push_cast
    field_simp
    ring
  rw [heq] at h
  exact h

/-- C21 at a concrete input: scenario S1, limit 5 and window 1 s, six calls at
the instant zero and the interval `[0, 0]`. -/
theorem tokenbucket_rate_bound_witness :
    (((allowedTimes "k" (List.replicate 6 ("k", 0))
        (runAll tokenbucket.Allow (tokenbucket.NewLimiter s2Config)
          (List.replicate 6 ("k", 0))).1).filter
      (inClosed 0 0)).length : ℚ) ≤
      (s2Config.Limit : ℚ) + (((0 : Time) : ℚ) - ((0 : Time) : ℚ)) * (s2Config.Limit : ℚ) /
        (s2Config.WindowSize : ℚ) :=
  tokenbucket_rate_bound s2Config (by decide) (by decide) (List.replicate 6 ("k", 0)) "k" 0 0
    (le_refl 0)

/-! ## The bucket limiters over `float64` arithmetic: one call -/

/-- C5: one leaky-bucket `Allow` call, over every `float64` arithmetic.  The
rate is `limit / window_size` per second (`float64(Limit)` over
`WindowSize.Seconds()`) and the capacity is `limit`.  A key with no state gets
`(water = 1, last_leak_time = now)` and the call returns `(true, 0)`.
Otherwise, with `current = max(0, water - (now - last_leak_time) * rate)`: if
`current + 1 > capacity` the call returns `false` with
`(current + 1 - capacity) / rate` seconds, as `time.Duration` of that times
`1e9`, and the limiter is unchanged; else the state becomes
`(current + 1, now)` and the call returns `(true, 0)`. -/
theorem leakybucket_allow_contract {F : Type} (ops : Float64Ops F) :
    (∀ cfg : Config,
      (leakybucket.NewLimiterF ops cfg).rate =
          ops.div (ops.ofInt cfg.Limit) (SecondsF ops cfg.WindowSize) ∧
        (leakybucket.NewLimiterF ops cfg).capacity = ops.ofInt cfg.Limit ∧
        ∀ k, (leakybucket.NewLimiterF ops cfg).buckets k = none) ∧
    (∀ (l : leakybucket.LimiterF F) (now : Time) (key : Key),
      l.buckets key = none →
      leakybucket.AllowF ops l now key =
        ((true, 0), { l with buckets := setKey l.buckets key ⟨ops.ofInt 1, now⟩ })) ∧
    (∀ (l : leakybucket.LimiterF F) (now : Time) (key : Key) (b : leakybucket.bucketF F),
      l.buckets key = some b →
      let rest : F := ops.sub b.water (ops.mul (SecondsF ops (now - b.lastLeakTime)) l.rate)
      let current : F := if ops.lt rest (ops.ofInt 0) = true then ops.ofInt 0 else rest
      let level : F := ops.add current (ops.ofInt 1)
      (ops.lt l.capacity level = true →
        leakybucket.AllowF ops l now key =
          ((false, ops.toInt
            (ops.mul (ops.div (ops.sub level l.capacity) l.rate) (ops.ofInt 1000000000))), l)) ∧
      (ops.lt l.capacity level = false →
        leakybucket.AllowF ops l now key =
          ((true, 0), { l with buckets := setKey l.buckets key ⟨level, now⟩ }))) := by
  refine ⟨fun cfg => ⟨rfl, rfl, fun _ => rfl⟩, ?_, ?_⟩
  · intro l now key h
    simp only [leakybucket.AllowF, h]
  · intro l now key b h
    refine ⟨?_, ?_⟩
    · intro hfull
      simp only [leakybucket.AllowF, leakybucket.maxF, h, Second] at hfull ⊢
      rw [if_pos hfull]
    · intro hfull
      simp only [leakybucket.AllowF, leakybucket.maxF, h, Second] at hfull ⊢
      rw [if_neg (by rw [hfull]; simp)]

/-- C6: one token-bucket `Allow` call, over every `float64` arithmetic.  The
rate is `limit / window_size` per second and the capacity is `limit`.  A key
with no state gets `(tokens = capacity - 1, last_refill_time = now)` and the
call returns `(true, 0)`.  Otherwise, with
`refilled = min(capacity, tokens + (now - last_refill_time) * rate)`: if
`refilled < 1` the call returns `false` with `(1 - refilled) / rate` seconds,
as `time.Duration` of that times `1e9`; else the state becomes
`(refilled - 1, now)` and the call returns `(true, 0)`. -/
theorem tokenbucket_allow_contract {F : Type} (ops : Float64Ops F) :
    (∀ cfg : Config,
      (tokenbucket.NewLimiterF ops cfg).rate =
          ops.div (ops.ofInt cfg.Limit) (SecondsF ops cfg.WindowSize) ∧
        (tokenbucket.NewLimiterF ops cfg).capacity = ops.ofInt cfg.Limit ∧
        ∀ k, (tokenbucket.NewLimiterF ops cfg).buckets k = none) ∧
    (∀ (l : tokenbucket.LimiterF F) (now : Time) (key : Key),
      l.buckets key = none →
      tokenbucket.AllowF ops l now key =
        ((true, 0),
          { l with buckets := setKey l.buckets key ⟨ops.sub l.capacity (ops.ofInt 1), now⟩ })) ∧
    (∀ (l : tokenbucket.LimiterF F) (now : Time) (key : Key) (b : tokenbucket.bucketF F),
      l.buckets key = some b →
      let filled : F := ops.add b.tokens (ops.mul (SecondsF ops (now - b.lastRefill)) l.rate)
      let refilled : F := if ops.lt l.capacity filled = true then l.capacity else filled
      (ops.lt refilled (ops.ofInt 1) = true →
        (tokenbucket.AllowF ops l now key).1 =
          (false, ops.toInt
            (ops.mul (ops.div (ops.sub (ops.ofInt 1) refilled) l.rate)
              (ops.ofInt 1000000000)))) ∧
      (ops.lt refilled (ops.ofInt 1) = false →
        tokenbucket.AllowF ops l now key =
          ((true, 0),
            { l with buckets := (setKey l.buckets key
                ⟨ops.sub refilled (ops.ofInt 1), now⟩) }))) := by
  refine ⟨fun cfg => ⟨rfl, rfl, fun _ => rfl⟩, ?_, ?_⟩
  · intro l now key h
    simp only [tokenbucket.AllowF, h]
  · intro l now key b h
    refine ⟨?_, ?_⟩
    · intro hlow
      simp only [tokenbucket.AllowF, tokenbucket.minF, h, Second] at hlow ⊢
      rw [if_pos hlow]
    · intro hlow
      simp only [tokenbucket.AllowF, tokenbucket.minF, h, Second] at hlow ⊢
      rw [if_neg (by rw [hlow]; simp)]

set_option maxRecDepth 100000 in
/-- C5 at a concrete input, in binary64: limit 1, window 1 s, one call at the
instant zero; the call 100 ms later is rejected with 899999999 ns. -/
theorem leakybucket_allow_contract_witness :
    leakybucket.oneUsed.buckets "k" = some ⟨F64.ofInt 1, 0⟩ ∧
    leakybucket.AllowF binary64 leakybucket.oneUsed 100000000 "k" =
      ((false, 899999999), leakybucket.oneUsed) := by
  have hb : leakybucket.oneUsed.buckets "k" = some ⟨F64.ofInt 1, 0⟩ := by decide
  have h := ((leakybucket_allow_contract binary64).2.2 leakybucket.oneUsed 100000000 "k" _
    hb).1 (by decide)
  refine ⟨hb, ?_⟩
  rw [h]
  exact congrArg (fun d => ((false, d), leakybucket.oneUsed)) (by decide)

set_option maxRecDepth 100000 in
/-- C6 at a concrete input, in binary64: limit 1, window 1 s, one call at the
instant zero; the call 999999999 ns later is rejected with a wait of 0 ns. -/
theorem tokenbucket_allow_contract_witness :
    tokenbucket.oneUsed.buckets "k" = some ⟨F64.ofInt 0, 0⟩ ∧
    (tokenbucket.AllowF binary64 tokenbucket.oneUsed 999999999 "k").1 = (false, 0) := by
  have hb : tokenbucket.oneUsed.buckets "k" = some ⟨F64.ofInt 0, 0⟩ := by decide
  have h := ((tokenbucket_allow_contract binary64).2.2 tokenbucket.oneUsed 999999999 "k" _
    hb).1 (by decide)
  refine ⟨hb, ?_⟩
  rw [h]
  exact congrArg (fun d => (false, d)) (by decide)

/-! ## Exact arithmetic as one of the arithmetics -/

theorem exactOps_ofInt (n : Int) : exactOps.ofInt n = (n : ℚ) := rfl

theorem exactOps_add (a b : ℚ) : exactOps.add a b = a + b := rfl

theorem exactOps_sub (a b : ℚ) : exactOps.sub a b = a - b := rfl

theorem exactOps_mul (a b : ℚ) : exactOps.mul a b = a * b := rfl

theorem exactOps_div (a b : ℚ) : exactOps.div a b = a / b := rfl

theorem exactOps_lt (a b : ℚ) : (exactOps.lt a b = true) = (a < b) := by
  simp [exactOps]

theorem exactOps_toInt (a : ℚ) : exactOps.toInt a = toDuration a := rfl

theorem SecondsF_exact (d : Duration) : SecondsF exactOps d = Seconds d := by
  simp [SecondsF, Seconds, exactOps_ofInt, exactOps_add, exactOps_div]

theorem map_setKey {V W : Type} (f : V → W) (m : Key → Option V) (k : Key) (v : V) :
    (fun k' => (setKey m k v k').map f) = setKey (fun k' => (m k').map f) k (f v) := by
  funext k'
  by_cases h : k' = k
  · simp [setKey, h]
  · simp [setKey, h]

/-- The leaky bucket in exact rationals (`leakybucket.NewLimiter`,
`leakybucket.Allow`) is the leaky bucket over the arithmetic `exactOps`. -/
theorem leakybucket_exact (cfg : Config) (l : leakybucket.LeakyBucketLimiter) (now : Time)
    (key : Key) :
    leakybucket.NewLimiterF exactOps cfg = leakybucket.toF (leakybucket.NewLimiter cfg) ∧
    leakybucket.AllowF exactOps (leakybucket.toF l) now key =
      ((leakybucket.Allow l now key).1, leakybucket.toF (leakybucket.Allow l now key).2) := by
  refine ⟨?_, ?_⟩
  · simp [leakybucket.NewLimiterF, leakybucket.NewLimiter, leakybucket.toF, SecondsF_exact,
      exactOps_ofInt, exactOps_div]
  · cases hb : l.buckets key with
    | none =>
      simp only [leakybucket.AllowF, leakybucket.Allow, leakybucket.toF, hb, Option.map_none',
        map_setKey, exactOps_ofInt, Int.cast_one]
    | some b =>
      by_cases hfull : leakybucket.max 0 (b.water - Seconds (now - b.lastLeakTime) * l.rate) + 1 >
          l.capacity
      · simp only [leakybucket.AllowF, leakybucket.Allow, leakybucket.toF, hb, Option.map_some',
          leakybucket.maxF, leakybucket.max, SecondsF_exact, exactOps_ofInt, exactOps_add,
          exactOps_sub, exactOps_mul, exactOps_div, exactOps_lt, exactOps_toInt, Int.cast_zero,
          Int.cast_one, gt_iff_lt] at hfull ⊢
        rw [if_pos hfull, if_pos hfull]
      · simp only [leakybucket.AllowF, leakybucket.Allow, leakybucket.toF, hb, Option.map_some',
          leakybucket.maxF, leakybucket.max, SecondsF_exact, exactOps_ofInt, exactOps_add,
          exactOps_sub, exactOps_mul, exactOps_div, exactOps_lt, exactOps_toInt, Int.cast_zero,
          Int.cast_one, gt_iff_lt, map_setKey] at hfull ⊢
        rw [if_neg hfull, if_neg hfull]
        simp only [map_setKey]

/-- The token bucket in exact rationals (`tokenbucket.NewLimiter`,
`tokenbucket.Allow`) is the token bucket over the arithmetic `exactOps`. -/
theorem tokenbucket_exact (cfg : Config) (l : tokenbucket.TokenBucketLimiter) (now : Time)
    (key : Key) :
    tokenbucket.NewLimiterF exactOps cfg = tokenbucket.toF (tokenbucket.NewLimiter cfg) ∧
    tokenbucket.AllowF exactOps (tokenbucket.toF l) now key =
      ((tokenbucket.Allow l now key).1, tokenbucket.toF (tokenbucket.Allow l now key).2) := by
  refine ⟨?_, ?_⟩
  · simp [tokenbucket.NewLimiterF, tokenbucket.NewLimiter, tokenbucket.toF, SecondsF_exact,
      exactOps_ofInt, exactOps_div]
  · cases hb : l.buckets key with
    | none =>
      simp only [tokenbucket.AllowF, tokenbucket.Allow, tokenbucket.toF, hb, Option.map_none',
        map_setKey, exactOps_ofInt, exactOps_sub, Int.cast_one]
    | some b =>
      by_cases hlow : tokenbucket.min l.capacity
          (b.tokens + Seconds (now - b.lastRefill) * l.rate) < 1
      · simp only [tokenbucket.AllowF, tokenbucket.Allow, tokenbucket.toF, hb, Option.map_some',
          tokenbucket.minF, tokenbucket.min, SecondsF_exact, exactOps_ofInt, exactOps_add,
          exactOps_sub, exactOps_mul, exactOps_div, exactOps_lt, exactOps_toInt, Int.cast_zero,
          Int.cast_one] at hlow ⊢
        rw [if_pos hlow, if_pos hlow]
      · simp only [tokenbucket.AllowF, tokenbucket.Allow, tokenbucket.toF, hb, Option.map_some',
          tokenbucket.minF, tokenbucket.min, SecondsF_exact, exactOps_ofInt, exactOps_add,
          exactOps_sub, exactOps_mul, exactOps_div, exactOps_lt, exactOps_toInt, Int.cast_zero,
          Int.cast_one, map_setKey] at hlow ⊢
        rw [if_neg hlow, if_neg hlow]
        simp only [map_setKey]

/-! ## The bucket limiters in binary64 -/

set_option maxRecDepth 100000 in
/-- C8 fails on the code, for the token bucket: with limit 1 and a window of
49 s, on a fresh limiter the call for `"k"` at the instant zero returns
`(true, 0)`, the second call at that instant is rejected, and the call one
window later, at 49 s, returns `(false, 0)` instead of `(true, 0)`.  The rate
is the float nearest to `1/49`, and 49 times that float rounds to
`9007199254740991 * 2^-53`, which is less than 1.  On the same calls the leaky
bucket, the fixed window and the sliding log do return `(true, 0)` one window
later. -/
theorem tokenbucket_burst_no_recovery :
    burstCalls w49Config "k" 0 = [("k", 0), ("k", 0), ("k", 49000000000)] ∧
    (runAll (tokenbucket.AllowF binary64) (tokenbucket.NewLimiterF binary64 w49Config)
        (burstCalls w49Config "k" 0)).1 =
      [(true, 0), (false, 49000000000), (false, 0)] ∧
    ((tokenbucket.NewLimiterF binary64 w49Config).rate = F64.finite 5882252574524729 (-58) ∧
      binary64.mul (SecondsF binary64 49000000000)
          (tokenbucket.NewLimiterF binary64 w49Config).rate =
        F64.finite 9007199254740991 (-53) ∧
      binary64.lt (F64.finite 9007199254740991 (-53)) (binary64.ofInt 1) = true) ∧
    (runAll (leakybucket.AllowF binary64) (leakybucket.NewLimiterF binary64 w49Config)
        (burstCalls w49Config "k" 0)).1 =
      [(true, 0), (false, 49000000000), (true, 0)] ∧
    (runAll slidingwindow.Allow (slidingwindow.NewLimiter w49Config)
        (burstCalls w49Config "k" 0)).1 =
      [(true, 0), (false, 49000000000), (true, 0)] ∧
    (runCalls slidinglog.Allow (slidinglog.NewLimiter w49Config)
        (burstCalls w49Config "k" 0)).map Prod.fst =
      some [(true, 0), (false, 49000000000), (true, 0)] := by
  refine ⟨by decide, by decide, ⟨by decide, by decide, by decide⟩, by decide, by decide,
    by decide⟩

set_option maxRecDepth 100000 in
/-- The burst of the white-box test in binary64: with limit 10 and a window of
1 s both bucket limiters allow ten calls at one instant, reject the eleventh
with a wait of 0.1 s, and allow the call one window later. -/
theorem bucket_burst_binary64 :
    (runAll (leakybucket.AllowF binary64) (leakybucket.NewLimiterF binary64 testConfig)
        (burstCalls testConfig "test-key" 0)).1 =
      List.replicate 10 (true, 0) ++ [(false, 100000000), (true, 0)] ∧
    (runAll (tokenbucket.AllowF binary64) (tokenbucket.NewLimiterF binary64 testConfig)
        (burstCalls testConfig "test-key" 0)).1 =
      List.replicate 10 (true, 0) ++ [(false, 100000000), (true, 0)] := by
  refine ⟨by decide, by decide⟩

set_option maxRecDepth 100000 in
/-- The rejections of scenario S3 in binary64: with limit 3 and a window of
1 s, after three calls at the instant zero, both bucket limiters reject the
call at 0.1 s with a wait of 233333333 ns and reject the call at 333333333 ns
with a wait of zero. -/
theorem bucket_rejections_binary64 :
    (runAll (leakybucket.AllowF binary64) (leakybucket.NewLimiterF binary64 s3Config)
        (s3Burst ++ [("k", 100000000), ("k", 333333333)])).1 =
      [(true, 0), (true, 0), (true, 0), (false, 233333333), (false, 0)] ∧
    (runAll (tokenbucket.AllowF binary64) (tokenbucket.NewLimiterF binary64 s3Config)
        (s3Burst ++ [("k", 100000000), ("k", 333333333)])).1 =
      [(true, 0), (true, 0), (true, 0), (false, 233333333), (false, 0)] := by
  refine ⟨by decide, by decide⟩

end FluxGo
